import Mathlib

/-!
Verification development for the chord-to-voicing engine of `src/sketch.js`
(Open-and-Closed-Triads).  The JavaScript core is shallowly embedded below:
pitches are `Int` (MIDI semitones), every `while (cond && guard++ < N)` loop
of the source becomes a fuel-bounded iterator `bwhile N`, and the floating
point quantities that the source only ever uses at exactly representable
values (score weights, beat arithmetic) are modelled as rationals.
-/

set_option maxRecDepth 20000

namespace Sketch

/-- JS `clamp(n, a, b) = Math.max(a, Math.min(b, n))` (sketch.js line 39). -/
def clamp (n a b : Int) : Int := max a (min b n)

/-- JS `sortAsc` : numeric ascending sort of a copy (sketch.js line 40). -/
def sortAsc (l : List Int) : List Int := l.insertionSort (· ≤ ·)

/-- `Math.min(...x)` on a nonempty list (0 as junk value for `[]`). -/
def minL : List Int → Int
  | [] => 0
  | h :: t => t.foldl min h

/-- `Math.max(...x)` on a nonempty list (0 as junk value for `[]`). -/
def maxL : List Int → Int
  | [] => 0
  | h :: t => t.foldl max h

/-- JS `pcOf(m) = ((m % 12) + 12) % 12` (sketch.js line 92); `%` here is
Lean's euclidean `Int.emod`, which agrees with the JS double-mod pattern. -/
def pcOf (m : Int) : Int := ((m % 12) + 12) % 12

/-- Bounded while loop: runs `step` while `cond` holds, at most `fuel` times.
Mirrors the `while (cond && guard++ < fuel)` pattern used throughout sketch.js. -/
def bwhile {α : Type} (fuel : Nat) (cond : α → Bool) (step : α → α) (x : α) : α :=
  match fuel with
  | 0 => x
  | Nat.succ f => if cond x then bwhile f cond step (step x) else x

/-- sketch.js `midiNear(pc, targetMidi)` (lines 77-90): search octaves
`baseOct-2 .. baseOct+2`, keep the in-range candidate of that pitch class
closest to the target (strict `<`, so the lowest octave wins ties);
fall back to `clamp(targetMidi, 0, 127)`. -/
def midiNear (pc targetMidi : Int) : Int :=
  let baseOct := Int.fdiv targetMidi 12
  let cands := (List.range 5).map (fun k => (baseOct - 2 + (k : Int)) * 12 + pc)
  let best := cands.foldl
    (fun (best : Option Int × Int) cand =>
      let cost : Int := (cand - targetMidi).natAbs
      if 0 ≤ cand ∧ cand ≤ 127 ∧ cost < best.2 then (some cand, cost) else best)
    (none, 1000000000)
  match best.1 with
  | none => clamp targetMidi 0 127
  | some b => b

/-- sketch.js `triadPCs(rootPc, qual)` (lines 140-143). -/
def triadPCs (rootPc : Int) (qual : String) : List Int :=
  let third : Int := if qual = "min" then 3 else 4
  [rootPc, (rootPc + third) % 12, (rootPc + 7) % 12]

/-- `while (n < lo && guard++ < 24) n += 12`: raise into range from below. -/
def wrapUp (lo n : Int) : Int := bwhile 24 (fun m => decide (m < lo)) (· + 12) n

/-- `while (n > hi && guard++ < 24) n -= 12`: drop into range from above. -/
def wrapDown (hi n : Int) : Int := bwhile 24 (fun m => decide (m > hi)) (· - 12) n

/-- `while (n >= c && guard++ < 24) n -= 12`: drop strictly below a ceiling. -/
def dropBelow (c n : Int) : Int := bwhile 24 (fun m => decide (m ≥ c)) (· - 12) n

/-- `while (n - b < sep && guard++ < 24) n += 12`: raise to at least `sep`
above `b`. -/
def raiseSep (b sep n : Int) : Int := bwhile 24 (fun m => decide (m - b < sep)) (· + 12) n

/-- The guarded descent of the per-note repair (line 272):
`while (n > hi && n-12 > prev && n-12 >= lo && guard++ < 24) n -= 12`. -/
def descGuard (lo hi p n : Int) : Int :=
  bwhile 24 (fun m => decide (m > hi ∧ m - 12 > p ∧ m - 12 ≥ lo)) (· - 12) n

/-- `while (Math.min(...x) < lo && guard++ < 24) x = x.map(n => n+12)`. -/
def listUp (lo : Int) (l : List Int) : List Int :=
  bwhile 24 (fun l => decide (minL l < lo)) (List.map (· + 12)) l

/-- `while (Math.max(...x) > hi && guard++ < 24) x = x.map(n => n-12)`. -/
def listDown (hi : Int) (l : List Int) : List Int :=
  bwhile 24 (fun l => decide (maxL l > hi)) (List.map (· - 12)) l

/-- One `while (x[i] <= x[i-1] && g++ < 24) x[i] += 12` step. -/
def raiseFrom (prev n : Int) : Int := bwhile 24 (fun m => decide (m ≤ prev)) (· + 12) n

/-- The re-ascending `for` loop pattern (each element is raised above the
already-updated predecessor). -/
def raiseTail (prev : Int) : List Int → List Int
  | [] => []
  | h :: t =>
    let h' := raiseFrom prev h
    h' :: raiseTail h' t

/-- sketch.js `voiceClose(rootMidi, qual)` (lines 145-157). -/
def voiceClose (rootMidi : Int) (qual : String) : List Int :=
  let pcs := triadPCs (rootMidi % 12) qual
  let r := rootMidi
  let t := midiNear (pcs.getD 1 0) (r + 4)
  let f := midiNear (pcs.getD 2 0) (r + 7)
  let arr := sortAsc [r, t, f]
  let arr :=
    match arr with
    | [] => []
    | h :: tl => h :: raiseTail h tl
  sortAsc (arr.map (fun n => clamp n 0 127))

/-- Body of the per-note repair loop of `fitChordToRange` (lines 260-274):
wrap `n` into `[lo,hi]`, then (for `i > 0`) raise above the predecessor and
try to come back down while staying above it; final `clamp(n, 0, 127)`. -/
def fitNote (lo hi : Int) (prevOpt : Option Int) (n : Int) : Int :=
  let n := wrapUp lo n
  let n := wrapDown hi n
  match prevOpt with
  | none => clamp n 0 127
  | some p =>
    let n := raiseFrom p n
    let n := descGuard lo hi p n
    clamp n 0 127

/-- The `for (let i = 0; i < x.length; i++)` traversal of `fitChordToRange`:
each note is repaired against the already-repaired predecessor. -/
def fitNotesGo (lo hi prev : Int) : List Int → List Int
  | [] => []
  | h :: t =>
    let h' := fitNote lo hi (some prev) h
    h' :: fitNotesGo lo hi h' t

def fitNotes (lo hi : Int) : List Int → List Int
  | [] => []
  | h :: t =>
    let h' := fitNote lo hi none h
    h' :: fitNotesGo lo hi h' t

/-- sketch.js `fitChordToRange(ch, lo, hi)` (lines 249-284). -/
def fitChordToRange (ch : List Int) (lo hi : Int) : List Int :=
  let x := sortAsc ch
  if x.isEmpty then x
  else
    let x := listUp lo x
    let x := listDown hi x
    let x := fitNotes lo hi x
    let x := listUp lo x
    let x := listDown hi x
    sortAsc (x.map (fun n => clamp n 0 127))

/-- sketch.js `enforceBassBelowC4Safe(ch, lo, hi)` (lines 287-304): pull the
lowest note below MIDI 60 (bounded), re-raise it above `lo`, re-ascend the
rest, then re-fit. -/
def enforceBassBelowC4Safe (ch : List Int) (lo hi : Int) : List Int :=
  if ch.isEmpty then ch
  else if lo ≥ 60 then fitChordToRange ch lo hi
  else
    match (sortAsc ch).map (fun n => clamp n 0 127) with
    | [] => []
    | x0 :: rest =>
      let x0 := dropBelow 60 x0
      let x0 := wrapUp lo x0
      fitChordToRange (x0 :: raiseTail x0 rest) lo hi

/-- One top-down pass of the spread-tightening loop (lines 333-340): each
voice (from the top) drops an octave when that keeps it strictly above the
(original) voice below and at or above `lo`.  Returns the new list and the
`changed` flag. -/
def pullDownPass (lo : Int) : List Int → List Int × Bool
  | [] => ([], false)
  | h :: t =>
    let rec go (prev : Int) : List Int → List Int × Bool
      | [] => ([], false)
      | y :: ys =>
        let cand := y - 12
        let keep := cand > prev ∧ cand ≥ lo
        let (rest, ch) := go y ys
        if keep then (cand :: rest, true) else (y :: rest, ch)
    let (t', changed) := go h t
    (h :: t', changed)

/-- The `for (let pass = 0; pass < 8; pass++)` spread-tightening loop of
`enforceTriadSpacingSafe` (lines 327-349). -/
def tighten (lo hi maxSpread : Int) : Nat → List Int → List Int
  | 0, x => x
  | Nat.succ f, x =>
    let x := sortAsc x
    let spread := x.getLast?.getD 0 - x.headD 0
    if spread ≤ maxSpread then x
    else
      let (x', changed) := pullDownPass lo x
      let x'' :=
        match x' with
        | [] => []
        | h :: t => h :: raiseTail h t
      let x3 := fitChordToRange x'' lo hi
      if changed then tighten lo hi maxSpread f x3 else x3

/-- One iteration body of the last-resort loop (lines 356-362): drop `x[2]`
an octave, revert if it collides with `x[1]`, then re-fit and re-sort. -/
def lastResortBody (lo hi : Int) (x : List Int) : List Int :=
  let x :=
    match x with
    | a :: b :: c :: rest =>
      let c' := c - 12
      let c'' := if c' ≤ b then c' + 12 else c'
      a :: b :: c'' :: rest
    | l => l
  sortAsc (fitChordToRange x lo hi)

/-- The `while (x.length >= 3 && (x[2]-x[0]) > maxSpread+12 && safety++ < 8)`
last-resort loop of `enforceTriadSpacingSafe`. -/
def lastResortLoop (lo hi maxSpread : Int) : Nat → List Int → List Int
  | 0, x => x
  | Nat.succ f, x =>
    if x.length ≥ 3 ∧ x.getD 2 0 - x.getD 0 0 > maxSpread + 12 then
      lastResortLoop lo hi maxSpread f (lastResortBody lo hi x)
    else x

/-- Step 1 of `enforceTriadSpacingSafe` (lines 315-324): raise the second
voice until at least `minSep` above the bass, re-ascend the rest, re-fit. -/
def spacingStep1 (lo hi minSep : Int) (x : List Int) : List Int :=
  match x with
  | x0 :: x1 :: rest =>
    let x1 := raiseSep x0 minSep x1
    fitChordToRange (x0 :: x1 :: raiseTail x1 rest) lo hi
  | l => l

/-- sketch.js `enforceTriadSpacingSafe(ch, lo, hi, minSep, maxSpread)`
(lines 309-365). -/
def enforceTriadSpacingSafe (ch : List Int) (lo hi minSep maxSpread : Int) : List Int :=
  if ch.length < 2 then ch
  else
    let x := fitChordToRange (sortAsc ch) lo hi
    let x := spacingStep1 lo hi minSep x
    let x := tighten lo hi maxSpread 8 x
    let x := enforceBassBelowC4Safe x lo hi
    let x := sortAsc x
    let x := lastResortLoop lo hi maxSpread 8 x
    sortAsc x

/-- The chord stacked over the chord tone at index `idx` in the chord-tone
slash branch of `applySlashBass` (lines 383-405): wrap that tone below the
bass ceiling and above `lo`, stack the remaining tones ascending above it,
then fit and enforce spacing. -/
def stackedAt (chord : List Int) (lo hi : Int) (idx : Nat) : List Int :=
  let n0 := chord.getD idx 0
  let others := chord.eraseIdx idx
  let bassCeil := if lo < 60 then (59 : Int) else hi
  let bass := wrapDown bassCeil n0
  let bass := wrapUp lo bass
  let stacked := (bass :: others).map (fun n => clamp n 0 127)
  let stacked := sortAsc stacked
  let stacked :=
    match stacked with
    | [] => []
    | h :: t => h :: raiseTail h t
  let stacked := fitChordToRange stacked lo hi
  enforceTriadSpacingSafe stacked lo hi 7 19

/-- Exact fraction (no normalisation, so every operation kernel-reduces).
This models the JS floating-point score/weight arithmetic of sketch.js, in
which every value that is ever compared is of the form
`int + weight * int` with the weight and the constants `0.20`, `0.05`
exactly representable as small fractions; fractions here are always built
with a positive denominator. -/
structure Frac where
  num : Int
  den : Int
  deriving DecidableEq

/-- Embed an integer as a fraction. -/
def Frac.ofInt (n : Int) : Frac := ⟨n, 1⟩

/-- `x < y` on fractions with positive denominators. -/
def Frac.blt (x y : Frac) : Bool := decide (x.num * y.den < y.num * x.den)

/-- `x ≤ y` on fractions with positive denominators. -/
def Frac.ble (x y : Frac) : Bool := decide (x.num * y.den ≤ y.num * x.den)

/-- Multiply a fraction by an integer. -/
def Frac.mulInt (x : Frac) (n : Int) : Frac := ⟨x.num * n, x.den⟩

/-- Add an integer (on the left) to a fraction. -/
def Frac.addInt (n : Int) (x : Frac) : Frac := ⟨n * x.den + x.num, x.den⟩

/-- JS `Math.round` (round half toward `+∞`) of a fraction with positive
denominator: `⌊x + 1/2⌋`. -/
def Frac.jsRound (x : Frac) : Int := Int.fdiv (2 * x.num + x.den) (2 * x.den)

/-- The value of a fraction in `ℚ` (for stating theorems). -/
def Frac.val (x : Frac) : ℚ := (x.num : ℚ) / (x.den : ℚ)

/-- The candidate-selection loop of the chord-tone slash branch
(lines 380-415): over all indices whose pitch class matches, keep the
stacked chord whose bass is closest to the previous bass (weight `w`),
strict `<` against an initial sentinel of `10^18`. -/
def selectStacked (chord : List Int) (wantPc : Int) (lo hi : Int)
    (pbOpt : Option Int) (w : Frac) : Option (List Int) :=
  let res := (List.range chord.length).foldl
    (fun (acc : Option (List Int) × Frac) idx =>
      if pcOf (chord.getD idx 0) ≠ wantPc then acc
      else
        let st := stackedAt chord lo hi idx
        let bassNow := st.headD 0
        let bassCost : Int :=
          match pbOpt with
          | none => 0
          | some pb => (bassNow - pb).natAbs
        let score := w.mulInt bassCost
        if score.blt acc.2 then (some st, score) else acc)
    (none, Frac.ofInt 1000000000000000000)
  res.1

/-- The extra-bass-note construction of the non-chord-tone branch of
`applySlashBass` (lines 423-446), starting from the already-computed
`midiNear(wantPc, target)` value `bassInit`: wrap the new bass below the
ceiling, above `lo`, below the current lowest tone, then prepend it. -/
def slashAddPre (chord : List Int) (lo bassInit : Int) : List Int :=
  let bass := clamp bassInit 0 127
  let bass :=
    if lo < 60 then wrapUp lo (dropBelow 60 bass)
    else wrapUp lo bass
  let lowest := minL chord
  let bass := dropBelow lowest bass
  let bass := wrapUp lo bass
  let bass := clamp bass 0 127
  bass :: chord

/-- The non-chord-tone branch of `applySlashBass` (lines 421-447): build the
extended chord, then fit and enforce spacing (line 447). -/
def slashAddTail (chord : List Int) (lo hi bassInit : Int) : List Int :=
  enforceTriadSpacingSafe (fitChordToRange (slashAddPre chord lo bassInit) lo hi) lo hi 7 19

/-- sketch.js `applySlashBass(ch, slashPc, targetBassMidi, lo, hi,
prevBassMidi, bassWeight)` (lines 370-448). -/
def applySlashBass (ch : List Int) (slashOpt : Option Int) (targetBassMidi lo hi : Int)
    (pbOpt : Option Int) (w : Frac) : List Int :=
  match slashOpt with
  | none => ch
  | some s =>
    let chord := sortAsc ch
    let wantPc := pcOf s
    if (chord.map pcOf).contains wantPc then
      let fallback := enforceTriadSpacingSafe (fitChordToRange chord lo hi) lo hi 7 19
      match selectStacked chord wantPc lo hi pbOpt w with
      | some best => best
      | none => fallback
    else
      let target := pbOpt.getD targetBassMidi
      slashAddTail chord lo hi (midiNear wantPc target)

/-- The bass/middle/top construction of sketch.js `voiceOpenOrderedPCs`
(lines 162-214) after the bass target has been resolved:
`bassInit = midiNear(pc0, bassTarget)`.  The top-note score is
`over*5 + max(0, tt-72)*0.05`, modelled exactly with fractions. -/
def openPre (pc1 pc2 lo bassInit : Int) : List Int :=
  let bass := clamp bassInit 0 127
  let bass :=
    if lo < 60 then wrapUp lo (dropBelow 60 bass)
    else wrapUp lo bass
  let mid := midiNear pc1 (bass + 7)
  let mid := raiseSep bass 7 mid
  let topA := midiNear pc2 (mid + 4)
  let topB := midiNear pc2 (mid + 16)
  let scoreTop := fun (t : Int) =>
    let tt := raiseFrom mid t
    let spread := tt - bass
    let over := max 0 (spread - 16)
    let highPenalty := (Frac.mk 5 100).mulInt (max 0 (tt - 72))
    (tt, Frac.addInt (over * 5) highPenalty)
  let sA := scoreTop topA
  let sB := scoreTop topB
  let top := if sA.2.ble sB.2 then sA.1 else sB.1
  [bass, mid, top]

/-- Lines 216-219 of `voiceOpenOrderedPCs`: fit the built chord to range and
enforce spacing. -/
def openTail (pc1 pc2 lo hi bassInit : Int) : List Int :=
  enforceTriadSpacingSafe (fitChordToRange (openPre pc1 pc2 lo bassInit) lo hi) lo hi 7 19

/-- sketch.js `voiceOpenOrderedPCs(orderPCs, lo, hi, prevBassMidi)`
(lines 162-220): pick the bass near the previous bass (or A3 = 57), then
build middle and top, then fit and enforce spacing (via `openTail`). -/
def voiceOpenOrderedPCs (orderPCs : List Int) (lo hi : Int) (pbOpt : Option Int) : List Int :=
  match orderPCs.map pcOf with
  | [pc0, pc1, pc2] =>
    let bassTarget := pbOpt.getD 57
    openTail pc1 pc2 lo hi (midiNear pc0 bassTarget)
  | _ => []

/-- sketch.js `voiceOpenWithSlash(rootPc, qual, slashPc, lo, hi, prevBassMidi)`
(lines 226-246). -/
def voiceOpenWithSlash (rootPc : Int) (qual : String) (slashOpt : Option Int)
    (lo hi : Int) (pbOpt : Option Int) : List Int :=
  let pcs := triadPCs rootPc qual
  let root := pcs.getD 0 0
  let third := pcs.getD 1 0
  let fifth := pcs.getD 2 0
  match slashOpt with
  | none => voiceOpenOrderedPCs [root, fifth, third] lo hi pbOpt
  | some s =>
    let spc := pcOf s
    if spc = third then voiceOpenOrderedPCs [third, root, fifth] lo hi pbOpt
    else if spc = fifth then voiceOpenOrderedPCs [fifth, third, root] lo hi pbOpt
    else voiceOpenOrderedPCs [root, fifth, third] lo hi pbOpt

/-- sketch.js `motionCost(prevChord, candChord)` (lines 452-459): sum of
absolute per-voice differences over the overlapping voices of the two
sorted chords. -/
def motionCost (prevChord candChord : List Int) : Int :=
  (((sortAsc prevChord).zip (sortAsc candChord)).map
    (fun p => ((p.1 - p.2).natAbs : Int))).foldl (· + ·) 0

/-- JS `new Set`-based dedup keeping the first occurrence (lines 489-497). -/
def uniqFirst : List (List Int) → List (List Int) :=
  let rec go (seen : List (List Int)) : List (List Int) → List (List Int)
    | [] => []
    | ch :: rest => if seen.contains ch then go seen rest else ch :: go (ch :: seen) rest
  go []

/-- sketch.js `candidatesForTriad(rootPc, qual, targetMidi, lo, hi)`
(lines 461-498): 3 inversions × 5 octave shifts, each range-fitted, then
deduplicated keeping first occurrences. -/
def candidatesForTriad (rootPc : Int) (qual : String) (targetMidi lo hi : Int) :
    List (List Int) :=
  let pcs := triadPCs rootPc qual
  let p0 := pcs.getD 0 0
  let p1 := pcs.getD 1 0
  let p2 := pcs.getD 2 0
  let inversions := [[p0, p1, p2], [p1, p2, p0], [p2, p0, p1]]
  let cands := inversions.flatMap (fun inv =>
    let i0 := inv.getD 0 0
    let i1 := inv.getD 1 0
    let i2 := inv.getD 2 0
    let base := midiNear i0 targetMidi
    (List.range 5).map (fun k =>
      let a := base + 12 * ((k : Int) - 2)
      let b := midiNear i1 (a + 4)
      let c := midiNear i2 (b + 4)
      let b := raiseFrom a b
      let c := raiseFrom b c
      fitChordToRange [a, b, c] lo hi))
  uniqFirst cands

/-- A chord spec of the pipeline (sketch.js lines 556-559): concrete target
root pitch, quality and optional slash pitch class. -/
structure ChordSpec where
  rootMidi : Int
  qual : String
  slashPc : Option Int
  deriving DecidableEq

/-- Candidate post-processing in `voiceLeadSequenceSmart` (lines 517-519):
fit, slash-bass resolution, spacing enforcement. -/
def vlProcess (lo hi targetBass : Int) (pbOpt : Option Int) (w : Frac)
    (spec : ChordSpec) (cand : List Int) : List Int :=
  let ch := fitChordToRange cand lo hi
  let ch := applySlashBass ch spec.slashPc targetBass lo hi pbOpt w
  enforceTriadSpacingSafe ch lo hi 7 19

/-- The voice-led score of a processed candidate (lines 521-524):
`upper + bassWeight * bass` where `upper` is the motion cost against the
previous chord (0 for the first chord) and `bass` the absolute bass
difference against the previous bass (0 for the first chord). -/
def vlScore (w : Frac) (prev : Option (List Int)) (pbOpt : Option Int)
    (ch : List Int) : Frac :=
  let upper : Int :=
    match prev with
    | none => 0
    | some p => motionCost p ch
  let bassCost : Int :=
    match pbOpt with
    | none => 0
    | some pb => if ch.isEmpty then 0 else (ch.headD 0 - pb).natAbs
  Frac.addInt upper (w.mulInt bassCost)

/-- The candidate list actually iterated by `voiceLeadSequenceSmart`
(line 516): the enumerated candidates, or the fitted close voicing when
the enumeration is empty. -/
def vlCandList (lo hi : Int) (spec : ChordSpec) : List (List Int) :=
  let cands := candidatesForTriad (pcOf spec.rootMidi) spec.qual 60 lo hi
  if cands.isEmpty then [fitChordToRange (voiceClose spec.rootMidi spec.qual) lo hi]
  else cands

/-- One chord step of sketch.js `voiceLeadSequenceSmart` (lines 507-535):
enumerate candidates, process each, score `upper + w * bassMotion`, keep
the strict minimum; fall back to the close voicing if nothing was kept. -/
def vlStep (lo hi targetBass : Int) (w : Frac) (prev : Option (List Int))
    (spec : ChordSpec) : List Int :=
  let pbOpt := prev.map (fun p => (sortAsc p).headD 0)
  let res := (vlCandList lo hi spec).foldl
    (fun (acc : Option (List Int) × Frac) cand =>
      let ch := vlProcess lo hi targetBass pbOpt w spec cand
      let score := vlScore w prev pbOpt ch
      if score.blt acc.2 then (some ch, score) else acc)
    (none, Frac.ofInt 1000000000000000000)
  match res.1 with
  | some best => best
  | none =>
    enforceTriadSpacingSafe (fitChordToRange (voiceClose spec.rootMidi spec.qual) lo hi)
      lo hi 7 19

/-- sketch.js `voiceLeadSequenceSmart(chordSpecs, lo, hi, bassWeight)`
(lines 500-539), threading the previous chord. -/
def voiceLeadSequenceSmart (specs : List ChordSpec) (lo hi : Int) (w : Frac) :
    List (List Int) :=
  let targetBass := lo + ((Frac.mk 20 100).mulInt (hi - lo)).jsRound
  let rec go (prev : Option (List Int)) : List ChordSpec → List (List Int)
    | [] => []
    | spec :: rest =>
      let best := vlStep lo hi targetBass w prev spec
      best :: go (some best) rest
  go none specs

/-- One chord step of the `open` branch of `generateSequence`
(lines 571-590). -/
def openStep (lo hi targetBass : Int) (w : Frac) (pbOpt : Option Int)
    (spec : ChordSpec) : List Int :=
  let rootPc := pcOf spec.rootMidi
  let ch := voiceOpenWithSlash rootPc spec.qual spec.slashPc lo hi pbOpt
  let pcs := triadPCs rootPc spec.qual
  let ch :=
    match spec.slashPc with
    | none => ch
    | some s =>
      if pcs.contains (pcOf s) then ch
      else applySlashBass ch spec.slashPc targetBass lo hi pbOpt w
  enforceTriadSpacingSafe ch lo hi 7 19

/-- One chord step of the `close` (default) branch of `generateSequence`
(lines 597-606). -/
def closeStep (lo hi targetBass : Int) (w : Frac) (pbOpt : Option Int)
    (spec : ChordSpec) : List Int :=
  let ch := voiceClose spec.rootMidi spec.qual
  let ch := fitChordToRange ch lo hi
  let ch := applySlashBass ch spec.slashPc targetBass lo hi pbOpt w
  enforceTriadSpacingSafe ch lo hi 7 19

/-- The previous-bass threading of the `open`/`close` branches:
`prevBass = ch.length ? ch[0] : prevBass`. -/
def stepSeq (step : Option Int → ChordSpec → List Int) :
    Option Int → List ChordSpec → List (List Int)
  | _, [] => []
  | pbOpt, spec :: rest =>
    let ch := step pbOpt spec
    let pbOpt' := if ch.isEmpty then pbOpt else some (ch.headD 0)
    ch :: stepSeq step pbOpt' rest

/-- A parsed chord symbol (the parser's output, sketch.js line 124). -/
structure ChordSym where
  sym : String
  rootPc : Int
  qual : String
  slashPc : Option Int
  deriving DecidableEq

/-- The chord-voicing pipeline of sketch.js `generateSequence`
(lines 543-609), with the DOM inputs made explicit: parsed symbols, the
voicing mode string, register bounds and the bass-weight (clamped to
`[0,3]` as in line 546).  Any mode string other than `"voicelead"` and
`"open"` selects the default close branch. -/
def generate (syms : List ChordSym) (mode : String) (lo hi : Int) (w0 : Frac) :
    List (List Int) :=
  let w := if w0.blt (Frac.ofInt 0) then Frac.ofInt 0
           else if (Frac.ofInt 3).blt w0 then Frac.ofInt 3 else w0
  let specs := syms.map (fun o =>
    ({ rootMidi := midiNear o.rootPc 60, qual := o.qual, slashPc := o.slashPc } : ChordSpec))
  if mode = "voicelead" then voiceLeadSequenceSmart specs lo hi w
  else
    let targetBass := lo + ((Frac.mk 20 100).mulInt (hi - lo)).jsRound
    if mode = "open" then stepSeq (openStep lo hi targetBass w) none specs
    else stepSeq (closeStep lo hi targetBass w) none specs

/-! ### Chord parsing (sketch.js lines 97-136) -/

/-- JS `String.prototype.trim` on a character list. -/
def trimChars (l : List Char) : List Char :=
  ((l.dropWhile Char.isWhitespace).reverse.dropWhile Char.isWhitespace).reverse

/-- A note letter `[A-Ga-g]`. -/
def isNoteLetter (c : Char) : Bool :=
  ("ABCDEFGabcdefg".data).contains c

/-- The `NOTE_TO_SEMITONE` table of sketch.js (lines 31-34). -/
def noteToSemitone : List Char → Option Int
  | ['C'] => some 0
  | ['C', '#'] => some 1
  | ['D', 'b'] => some 1
  | ['D'] => some 2
  | ['D', '#'] => some 3
  | ['E', 'b'] => some 3
  | ['E'] => some 4
  | ['F', 'b'] => some 4
  | ['E', '#'] => some 5
  | ['F'] => some 5
  | ['F', '#'] => some 6
  | ['G', 'b'] => some 6
  | ['G'] => some 7
  | ['G', '#'] => some 8
  | ['A', 'b'] => some 8
  | ['A'] => some 9
  | ['A', '#'] => some 10
  | ['B', 'b'] => some 10
  | ['B'] => some 11
  | ['C', 'b'] => some 11
  | ['B', '#'] => some 0
  | _ => none

/-- The chord-body regex `^([A-Ga-g])([#b]?)(m|maj)?$` (line 105) as a
deterministic matcher: returns (letter, accidental, suffix).  The
accidental characters and the suffix starts are disjoint, so no
backtracking is needed. -/
def matchChordBody (l : List Char) : Option (Char × List Char × List Char) :=
  match l with
  | [] => none
  | c :: rest =>
    if isNoteLetter c then
      let p :=
        match rest with
        | a :: r2 => if a = '#' ∨ a = 'b' then ([a], r2) else (([] : List Char), rest)
        | [] => (([] : List Char), ([] : List Char))
      if p.2 = [] ∨ p.2 = ['m'] ∨ p.2 = ['m', 'a', 'j'] then some (c, p.1, p.2) else none
    else none

/-- The slash regex `^([A-Ga-g])([#b]?)$` (line 117). -/
def matchSlash (l : List Char) : Option (Char × List Char) :=
  match l with
  | [] => none
  | c :: rest =>
    if isNoteLetter c then
      let p :=
        match rest with
        | a :: r2 => if a = '#' ∨ a = 'b' then ([a], r2) else (([] : List Char), rest)
        | [] => (([] : List Char), ([] : List Char))
      if p.2 = [] then some (c, p.1) else none
    else none

/-- sketch.js `parseChordToken(tok)` (lines 97-125).  `Except` models the
thrown `Error`s; `.ok none` models the `return null` on an empty token.
`parts[1] ? parts[1].trim() : null` makes a missing or empty slash part
behave as no slash at all. -/
def parseChordToken (tok : String) : Except String (Option ChordSym) :=
  let raw := trimChars tok.data
  if raw.isEmpty then .ok none
  else
    let parts := raw.splitOn '/'
    let chordPart := trimChars (parts.headD [])
    let slashPartOpt :=
      match parts.getD 1 [] with
      | [] => none
      | s => some (trimChars s)
    match matchChordBody chordPart with
    | none =>
      .error ("Invalid chord: \"" ++ String.mk raw ++
        "\". Use e.g. Am, F, G#, Bb, Cm, D#m, or Am/E.")
    | some (letter, acc, suffix) =>
      let rootName := Char.toUpper letter :: acc
      let qual := if suffix = ['m'] then "min" else "maj"
      match noteToSemitone rootName with
      | none => .error ("Invalid chord root: \"" ++ String.mk rootName ++ "\".")
      | some rootPc =>
        match slashPartOpt with
        | none => .ok (some ⟨String.mk raw, rootPc, qual, none⟩)
        | some sp =>
          match matchSlash sp with
          | none =>
            .error ("Invalid slash bass: \"" ++ String.mk sp ++ "\" in \"" ++
              String.mk raw ++ "\". Use e.g. Am/E, F/C.")
          | some (sl, sacc) =>
            let sname := Char.toUpper sl :: sacc
            match noteToSemitone sname with
            | none =>
              .error ("Invalid slash bass: \"" ++ String.mk sname ++ "\" in \"" ++
                String.mk raw ++ "\".")
            | some spc => .ok (some ⟨String.mk raw, rootPc, qual, some spc⟩)

instance {ε α : Type} [DecidableEq ε] [DecidableEq α] : DecidableEq (Except ε α) :=
  fun x y =>
    match x, y with
    | .ok a, .ok b =>
      if h : a = b then isTrue (by rw [h])
      else isFalse (fun hc => h (by cases hc; rfl))
    | .error a, .error b =>
      if h : a = b then isTrue (by rw [h])
      else isFalse (fun hc => h (by cases hc; rfl))
    | .ok _, .error _ => isFalse (fun hc => by cases hc)
    | .error _, .ok _ => isFalse (fun hc => by cases hc)

/-- JS `pushStr`: ASCII codes of a string. -/
def strBytes (s : String) : List Nat := s.data.map Char.toNat

/-- JS `pushU16`: big-endian 16-bit. -/
def u16Bytes (n : Nat) : List Nat := [n / 256 % 256, n % 256]

/-- JS `pushU32`: big-endian 32-bit. -/
def u32Bytes (n : Nat) : List Nat :=
  [n / 16777216 % 256, n / 65536 % 256, n / 256 % 256, n % 256]

/-- Base-128 digits of `v`, most significant first (bounded by 5 digits,
enough for the `v >>> 0` 32-bit values of JS `pushVar`). -/
def varDigits : Nat → Nat → List Nat
  | 0, v => [v % 128]
  | Nat.succ f, v => if v < 128 then [v] else varDigits f (v / 128) ++ [v % 128]

/-- Set the continuation bit on all digits but the last. -/
def markHigh : List Nat → List Nat
  | [] => []
  | [d] => [d]
  | d :: rest => (d + 128) :: markHigh rest

/-- JS `pushVar(arr, value)` (lines 762-774): the MIDI variable-length
encoding, most significant septet first, continuation bit on all but the
last byte.  The JS buffer-shuffling loop produces exactly these bytes. -/
def pushVarBytes (v : Nat) : List Nat := markHigh (varDigits 5 v)

/-- `Math.round(b / Math.sqrt(k))` for naturals `b`, `k ≥ 1`: the greatest
`n` with `(2n-1)² k ≤ 4 b²`, which is the half-up rounding of `b/√k`
(`n ≤ b/√k + 1/2 ↔ (2n-1)√k ≤ 2b ↔ (2n-1)²k ≤ 4b²`). -/
def roundDivSqrt (b k : Nat) : Nat :=
  Nat.findGreatest (fun n => (2 * n - 1) ^ 2 * k ≤ 4 * b ^ 2) (b + 1)

/-- JS `Math.min`/`Math.max` on fractions (for the `gate` clamp). -/
def fracClamp (x a b : Frac) : Frac :=
  let m := if x.blt b then x else b
  if m.blt a then a else m

/-- The options of `buildMidiFile` (lines 644-658) with the `??` defaults
already resolved (the export button passes every field explicitly,
lines 985-998). -/
structure MidiOpts where
  ticksPerBeat : Nat
  bpm : Int
  chordDurationBeats : Frac
  style : String
  arpStepBeats : Frac
  gate : Frac
  restBeats : Frac
  velocity : Int
  minVelocity : Int
  singleNoteCap : Int
  channel : Nat
  program : Nat

/-- `beatToTicks` (line 660): `Math.max(1, Math.round(ticksPerBeat * beats))`. -/
def beatToTicks (ticksPerBeat : Nat) (beats : Frac) : Nat :=
  max 1 (beats.mulInt (ticksPerBeat : Int)).jsRound.toNat

/-- The per-chord note list (lines 693, 715): clamp, dedupe (JS `Set`,
first occurrence), sort ascending. -/
def uniqFirstI : List Int → List Int :=
  let rec go (seen : List Int) : List Int → List Int
    | [] => []
    | n :: rest => if seen.contains n then go seen rest else n :: go (n :: seen) rest
  go []

def midiNotesOf (chord : List Int) : List Int :=
  sortAsc (uniqFirstI (chord.map (fun n => clamp n 0 127)))

/-- The per-chord velocity (lines 696-697, 718-719). -/
def midiVelocity (o : MidiOpts) (count : Nat) : Int :=
  let baseVelocity := clamp o.velocity 1 127
  let minVelocity := clamp o.minVelocity 1 127
  let singleNoteCap := clamp o.singleNoteCap 1 127
  let v := clamp (roundDivSqrt baseVelocity.toNat (max 1 count)) minVelocity 127
  if count = 1 then min v singleNoteCap else v

/-- The note events of the `block` style (lines 712-733): per chord, all
note-ons at delta 0, then note-offs (velocity-0 note-ons) with the chord
duration on the first; a final delta 0 after the loop. -/
def blockEvents (o : MidiOpts) (chordTicks : Nat) : List (List Int) → List Nat
  | [] => pushVarBytes 0
  | chord :: rest =>
    let notes := midiNotesOf chord
    if notes.isEmpty then blockEvents o chordTicks rest
    else
      let v := midiVelocity o notes.length
      let ons := notes.flatMap (fun nt =>
        pushVarBytes 0 ++ [0x90 + o.channel, nt.toNat, v.toNat])
      let offs :=
        match notes with
        | [] => []
        | n0 :: ns =>
          (pushVarBytes chordTicks ++ [0x90 + o.channel, n0.toNat, 0]) ++
            ns.flatMap (fun nt => pushVarBytes 0 ++ [0x90 + o.channel, nt.toNat, 0])
      ons ++ offs ++ blockEvents o chordTicks rest

/-- The note events of the `arpUp` style (lines 684-710), threading
`carryDelta`. -/
def arpEvents (o : MidiOpts) (noteTicks gapTicks restTicks : Nat) :
    Nat → List (List Int) → List Nat
  | carryDelta, [] => pushVarBytes carryDelta
  | carryDelta, chord :: rest =>
    let notes := midiNotesOf chord
    if notes.isEmpty then arpEvents o noteTicks gapTicks restTicks carryDelta rest
    else
      let v := midiVelocity o notes.length
      let evs :=
        match notes with
        | [] => []
        | n0 :: ns =>
          (pushVarBytes carryDelta ++ [0x90 + o.channel, n0.toNat, v.toNat] ++
            pushVarBytes noteTicks ++ [0x90 + o.channel, n0.toNat, 0]) ++
            ns.flatMap (fun nt =>
              pushVarBytes gapTicks ++ [0x90 + o.channel, nt.toNat, v.toNat] ++
                pushVarBytes noteTicks ++ [0x90 + o.channel, nt.toNat, 0])
      evs ++ arpEvents o noteTicks gapTicks restTicks restTicks rest

/-- The track byte list of sketch.js `buildMidiFile` (lines 669-736):
tempo meta, 4/4 time signature meta, program change, note events, end of
track. -/
def buildMidiTrack (events : List (List Int)) (o : MidiOpts) : List Nat :=
  let mpqn := (Frac.mk 60000000 o.bpm).jsRound.toNat
  let tempo := pushVarBytes 0 ++ [0xFF, 0x51, 0x03] ++
    [mpqn / 65536 % 256, mpqn / 256 % 256, mpqn % 256]
  let timeSig := pushVarBytes 0 ++ [0xFF, 0x58, 0x04, 0x04, 0x02, 0x18, 0x08]
  let progChange := pushVarBytes 0 ++ [0xC0 + o.channel, o.program]
  let notes :=
    if o.style = "arpUp" then
      let stepTicks := beatToTicks o.ticksPerBeat o.arpStepBeats
      let gate := fracClamp o.gate (Frac.mk 5 100) (Frac.mk 98 100)
      let noteTicks := max 1 (gate.mulInt (stepTicks : Int)).jsRound.toNat
      let gapTicks := stepTicks - noteTicks
      let restTicks := beatToTicks o.ticksPerBeat o.restBeats
      arpEvents o noteTicks gapTicks restTicks 0 events
    else
      let chordTicks := beatToTicks o.ticksPerBeat o.chordDurationBeats
      blockEvents o chordTicks events
  tempo ++ timeSig ++ progChange ++ notes ++ [0xFF, 0x2F, 0x00]

/-- sketch.js `buildMidiFile` (lines 643-744): `MThd` header (format 0,
one track) followed by the `MTrk` chunk. -/
def buildMidiFile (events : List (List Int)) (o : MidiOpts) : List Nat :=
  let header := strBytes "MThd" ++ u32Bytes 6 ++ u16Bytes 0 ++ u16Bytes 1 ++
    u16Bytes o.ticksPerBeat
  let track := buildMidiTrack events o
  header ++ strBytes "MTrk" ++ u32Bytes track.length ++ track

/-! ### Specification-side comparison definitions -/

/-- The last-resort correction as the specification words it (spec 4.3
step 4): when the top-to-bottom spread still exceeds `maxSpread + 12`,
drop the top voice one octave once, reverting if that collides with the
voice below, then re-fit to range.  Clearly spec-side: the source instead
loops up to 8 times on the third-lowest voice `x[2]`. -/
def lastResortOnceTop (lo hi maxSpread : Int) (x : List Int) : List Int :=
  if x.length ≥ 2 ∧ x.getLast?.getD 0 - x.headD 0 > maxSpread + 12 then
    let n := x.length
    let top := x.getD (n - 1) 0
    let below := x.getD (n - 2) 0
    let top' := if top - 12 ≤ below then top else top - 12
    sortAsc (fitChordToRange (x.take (n - 1) ++ [top']) lo hi)
  else x

/-- `enforceTriadSpacingSafe` with the claim's single top-voice last-resort
correction substituted for the source's bounded `x[2]` loop; used to compare
the code against the specification's wording. -/
def enforceSpacingOnceTop (ch : List Int) (lo hi minSep maxSpread : Int) : List Int :=
  if ch.length < 2 then ch
  else
    let x := fitChordToRange (sortAsc ch) lo hi
    let x := spacingStep1 lo hi minSep x
    let x := tighten lo hi maxSpread 8 x
    let x := enforceBassBelowC4Safe x lo hi
    let x := sortAsc x
    let x := lastResortOnceTop lo hi maxSpread x
    sortAsc x

/-! ### Predicates and finite reach sets used by the theorems -/

/-- Strictly ascending pitch list (the `VoicedChord` ordering invariant). -/
def StrictAsc (l : List Int) : Prop := List.Sorted (· < ·) l

/-- Every pitch within the register bounds. -/
def InRange (lo hi : Int) (l : List Int) : Prop := ∀ n ∈ l, lo ≤ n ∧ n ≤ hi

/-- A well-formed parsed symbol: the parser only produces root pitch
classes in `[0, 12)`. -/
def WFSym (o : ChordSym) : Prop := 0 ≤ o.rootPc ∧ o.rootPc < 12

/-- The sorted pitch-class list of a chord. -/
def pcListSorted (l : List Int) : List Int := sortAsc (l.map pcOf)

/-- The chord-tone-slash postcondition of the data model (C3): exactly 3
pitches, the lowest carrying the slash pitch class, pitch classes equal to
the triad. -/
def c3ok (pcs : List Int) (spc : Int) (ch : List Int) : Bool :=
  ch.length = 3 ∧ pcOf (ch.headD 0) = spc ∧ pcListSorted ch = sortAsc pcs

/-- The non-chord-tone-slash postcondition (C4): exactly 4 pitches, the
lowest carrying the slash pitch class, the remaining three pitch classes
equal to the triad. -/
def c4ok (pcs : List Int) (spc : Int) (ch : List Int) : Bool :=
  ch.length = 4 ∧ pcOf (ch.headD 0) = spc ∧ pcListSorted ch.tail = sortAsc pcs

/-! ### Token structures for the parser grammar (C6) -/

/-- A well-formed chord token of the grammar
`[A-Ga-g][#b]?(m|maj)?(/[A-Ga-g][#b]?)?`, in structured form. -/
structure TokStruct where
  letterIdx : Fin 7
  lower : Bool
  acc : Fin 3
  suffix : Fin 3
  slash : Option (Fin 7 × Bool × Fin 3)
  deriving DecidableEq

/-- The letter character (`A`..`G` index, upper or lower case). -/
def letterChar (i : Fin 7) (lc : Bool) : Char :=
  (if lc then "abcdefg" else "ABCDEFG").data.getD i 'A'

/-- The accidental characters: none, `#`, `b`. -/
def accChars : Fin 3 → List Char
  | 0 => []
  | 1 => ['#']
  | _ => ['b']

/-- The quality suffix characters: none, `m`, `maj`. -/
def sufChars : Fin 3 → List Char
  | 0 => []
  | 1 => ['m']
  | _ => ['m', 'a', 'j']

/-- Render a structured token to its string form. -/
def renderTok (t : TokStruct) : String :=
  String.mk
    (letterChar t.letterIdx t.lower :: accChars t.acc ++ sufChars t.suffix ++
      (match t.slash with
       | none => []
       | some s => '/' :: letterChar s.1 s.2.1 :: accChars s.2.2))

/-- Letter semitones `A=9 B=11 C=0 D=2 E=4 F=5 G=7`. -/
def letterSemi (i : Fin 7) : Int := [9, 11, 0, 2, 4, 5, 7].getD i 0

/-- Accidental adjustment: `# = +1`, `b = -1`. -/
def accAdj : Fin 3 → Int
  | 0 => 0
  | 1 => 1
  | _ => -1

/-- The pitch class a grammar letter+accidental denotes (arithmetic form of
the enharmonic table). -/
def expPc (i : Fin 7) (a : Fin 3) : Int := (letterSemi i + accAdj a) % 12

def wDemo : Frac := Frac.mk 6 5

def demoSyms : List ChordSym :=
  [⟨"Am", 9, "min", none⟩, ⟨"F", 5, "maj", none⟩, ⟨"G", 7, "maj", none⟩,
   ⟨"C/E", 0, "maj", some 4⟩]

def symCMaj : ChordSym := ⟨"C", 0, "maj", none⟩

def symCslashE : ChordSym := ⟨"C/E", 0, "maj", some 4⟩

def symCslashD : ChordSym := ⟨"C/D", 0, "maj", some 2⟩


/-- The options the export button passes for the C9 scenario: block style,
bpm 60, 2 beats per chord, 480 ticks per beat, all other fields the
source's defaults (lines 644-658, 985-998). -/
def demoMidiOpts : MidiOpts :=
  { ticksPerBeat := 480, bpm := 60, chordDurationBeats := Frac.ofInt 2,
    style := "block", arpStepBeats := Frac.mk 25 100, gate := Frac.mk 85 100,
    restBeats := Frac.mk 5 10, velocity := 75, minVelocity := 30,
    singleNoteCap := 52, channel := 0, program := 0 }

/-- The shape of a parse result with the raw token text and error text
abstracted away: `none` for a thrown error, `some none` for the empty-token
`null`, and the musical content (root pitch class, quality, slash pitch
class) for a success. -/
def parseShape : Except String (Option ChordSym) → Option (Option (Int × String × Option Int))
  | .ok none => some none
  | .ok (some c) => some (some (c.rootPc, c.qual, c.slashPc))
  | .error _ => none

/-- Exhaustive check of the `midiNear` range, pitch-class and distance
properties over all `pc` in `[0,12)` and targets in `[0,127]`. -/
def midiNearChk : Bool :=
  (List.range 191).all fun tn =>
    (List.range 12).all fun pcn =>
      let pc : Int := (pcn : Int)
      let t : Int := (tn : Int) - 24
      let r := midiNear pc t
      decide (0 ≤ r ∧ r ≤ 127 ∧ (0 ≤ t → t ≤ 143 → pcOf r = pc) ∧
        (0 ≤ t → t ≤ 127 → r - t ≤ 11 ∧ t - r ≤ 11) ∧
        (6 ≤ t → t ≤ 121 → r - t ≤ 6 ∧ t - r ≤ 6))

/-! ## Generic lemmas about the bounded loops and list helpers -/

theorem bwhile_of_neg {α : Type} {C : α → Bool} {f : α → α} {x : α} (h : C x = false) :
    ∀ n, bwhile n C f x = x := by
  intro n
  cases n with
  | zero => rfl
  | succ m =>
    show (if C x then bwhile m C f (f x) else x) = x
    simp [h]

theorem bwhile_inv {α : Type} {C : α → Bool} {f : α → α} (P : α → Prop)
    (h : ∀ a, P a → C a = true → P (f a)) :
    ∀ (n : Nat) (x : α), P x → P (bwhile n C f x) := by
  intro n
  induction n with
  | zero => intro x hx; exact hx
  | succ m ih =>
    intro x hx
    show P (if C x then bwhile m C f (f x) else x)
    split
    · exact ih (f x) (h x hx (by assumption))
    · exact hx

theorem bwhile_exit {α : Type} {C : α → Bool} {f : α → α} (P : α → Prop) (μ : α → Nat)
    (hpres : ∀ a, P a → C a = true → P (f a))
    (hdec : ∀ a, P a → C a = true → μ (f a) < μ a) :
    ∀ (n : Nat) (x : α), P x → μ x ≤ n → C (bwhile n C f x) = false := by
  intro n
  induction n with
  | zero =>
    intro x hx hμ
    cases hC : C x with
    | false => exact hC
    | true => exact absurd (hdec x hx hC) (by omega)
  | succ m ih =>
    intro x hx hμ
    show C (if C x then bwhile m C f (f x) else x) = false
    split
    · next hC => exact ih (f x) (hpres x hx hC) (by have := hdec x hx hC; omega)
    · next hC => simpa using hC

theorem foldl_min_le_init (t : List Int) (a : Int) : t.foldl min a ≤ a := by
  induction t generalizing a with
  | nil => exact le_refl a
  | cons y ys ih => exact le_trans (ih (min a y)) (min_le_left a y)

theorem foldl_min_le_mem (t : List Int) (a : Int) : ∀ x ∈ t, t.foldl min a ≤ x := by
  induction t generalizing a with
  | nil => intro x hx; cases hx
  | cons y ys ih =>
    intro x hx
    cases hx with
    | head => exact le_trans (foldl_min_le_init ys (min a y)) (min_le_right a y)
    | tail _ hm => exact ih (min a y) x hm

theorem foldl_max_ge_init (t : List Int) (a : Int) : a ≤ t.foldl max a := by
  induction t generalizing a with
  | nil => exact le_refl a
  | cons y ys ih => exact le_trans (le_max_left a y) (ih (max a y))

theorem foldl_max_ge_mem (t : List Int) (a : Int) : ∀ x ∈ t, x ≤ t.foldl max a := by
  induction t generalizing a with
  | nil => intro x hx; cases hx
  | cons y ys ih =>
    intro x hx
    cases hx with
    | head => exact le_trans (le_max_right a y) (foldl_max_ge_init ys (max a y))
    | tail _ hm => exact ih (max a y) x hm

theorem minL_le (l : List Int) : ∀ x ∈ l, minL l ≤ x := by
  cases l with
  | nil => intro x hx; cases hx
  | cons h t =>
    intro x hx
    cases hx with
    | head => exact foldl_min_le_init t h
    | tail _ hm => exact foldl_min_le_mem t h x hm

theorem maxL_ge (l : List Int) : ∀ x ∈ l, x ≤ maxL l := by
  cases l with
  | nil => intro x hx; cases hx
  | cons h t =>
    intro x hx
    cases hx with
    | head => exact foldl_max_ge_init t h
    | tail _ hm => exact foldl_max_ge_mem t h x hm

theorem foldl_min_map_add (t : List Int) (a c : Int) :
    (t.map (· + c)).foldl min (a + c) = t.foldl min a + c := by
  induction t generalizing a with
  | nil => rfl
  | cons y ys ih =>
    show (ys.map (· + c)).foldl min (min (a + c) (y + c)) = (ys.foldl min (min a y)) + c
    rw [show min (a + c) (y + c) = min a y + c by omega]
    exact ih (min a y)

theorem foldl_max_map_add (t : List Int) (a c : Int) :
    (t.map (· + c)).foldl max (a + c) = t.foldl max a + c := by
  induction t generalizing a with
  | nil => rfl
  | cons y ys ih =>
    show (ys.map (· + c)).foldl max (max (a + c) (y + c)) = (ys.foldl max (max a y)) + c
    rw [show max (a + c) (y + c) = max a y + c by omega]
    exact ih (max a y)

theorem minL_map_add (l : List Int) (c : Int) (h : l ≠ []) :
    minL (l.map (· + c)) = minL l + c := by
  cases l with
  | nil => exact absurd rfl h
  | cons a t => exact foldl_min_map_add t a c

theorem maxL_map_add (l : List Int) (c : Int) (h : l ≠ []) :
    maxL (l.map (· + c)) = maxL l + c := by
  cases l with
  | nil => exact absurd rfl h
  | cons a t => exact foldl_max_map_add t a c

theorem foldl_min_mem (t : List Int) (a : Int) : t.foldl min a ∈ a :: t := by
  induction t generalizing a with
  | nil => exact List.mem_singleton.mpr rfl
  | cons y ys ih =>
    show ys.foldl min (min a y) ∈ a :: y :: ys
    rcases List.mem_cons.mp (ih (min a y)) with h1 | h2
    · rw [h1]
      rcases le_total a y with hle | hle
      · rw [min_eq_left hle]; exact List.mem_cons_self _ _
      · rw [min_eq_right hle]; exact List.mem_cons_of_mem _ (List.mem_cons_self _ _)
    · exact List.mem_cons_of_mem _ (List.mem_cons_of_mem _ h2)

theorem foldl_max_mem (t : List Int) (a : Int) : t.foldl max a ∈ a :: t := by
  induction t generalizing a with
  | nil => exact List.mem_singleton.mpr rfl
  | cons y ys ih =>
    show ys.foldl max (max a y) ∈ a :: y :: ys
    rcases List.mem_cons.mp (ih (max a y)) with h1 | h2
    · rw [h1]
      rcases le_total a y with hle | hle
      · rw [max_eq_right hle]; exact List.mem_cons_of_mem _ (List.mem_cons_self _ _)
      · rw [max_eq_left hle]; exact List.mem_cons_self _ _
    · exact List.mem_cons_of_mem _ (List.mem_cons_of_mem _ h2)

theorem minL_mem (l : List Int) (h : l ≠ []) : minL l ∈ l := by
  cases l with
  | nil => exact absurd rfl h
  | cons a t => exact foldl_min_mem t a

theorem maxL_mem (l : List Int) (h : l ≠ []) : maxL l ∈ l := by
  cases l with
  | nil => exact absurd rfl h
  | cons a t => exact foldl_max_mem t a

theorem sortAsc_perm (l : List Int) : (sortAsc l).Perm l := List.perm_insertionSort (· ≤ ·) l

theorem sortAsc_mem (l : List Int) (x : Int) : x ∈ sortAsc l ↔ x ∈ l :=
  (sortAsc_perm l).mem_iff

theorem sortAsc_length (l : List Int) : (sortAsc l).length = l.length :=
  (sortAsc_perm l).length_eq

theorem sortAsc_sorted (l : List Int) : List.Sorted (· ≤ ·) (sortAsc l) :=
  List.sorted_insertionSort (· ≤ ·) l

theorem sortAsc_eq_self {l : List Int} (h : List.Sorted (· ≤ ·) l) : sortAsc l = l :=
  List.Sorted.insertionSort_eq h

theorem sorted_le_of_strictAsc {l : List Int} (h : StrictAsc l) : List.Sorted (· ≤ ·) l :=
  h.imp le_of_lt

theorem strictAsc_sortAsc_eq {l : List Int} (h : StrictAsc l) : sortAsc l = l :=
  sortAsc_eq_self (sorted_le_of_strictAsc h)

theorem strictAsc_nodup {l : List Int} (h : StrictAsc l) : l.Nodup :=
  h.imp ne_of_lt

theorem strictAsc_of_sorted_nodup {l : List Int} (hs : List.Sorted (· ≤ ·) l)
    (hn : l.Nodup) : StrictAsc l :=
  (hs.and hn).imp (fun hab => lt_of_le_of_ne hab.1 hab.2)

theorem sortAsc_nodup {l : List Int} (h : l.Nodup) : (sortAsc l).Nodup :=
  ((sortAsc_perm l).nodup_iff).mpr h

theorem sortAsc_strictAsc {l : List Int} (h : l.Nodup) : StrictAsc (sortAsc l) :=
  strictAsc_of_sorted_nodup (sortAsc_sorted l) (sortAsc_nodup h)

theorem pcOf_add_12 (m : Int) : pcOf (m + 12) = pcOf m := by
  unfold pcOf; omega

theorem pcOf_sub_12 (m : Int) : pcOf (m - 12) = pcOf m := by
  unfold pcOf; omega

theorem pcOf_add_mul_12 (m k : Int) : pcOf (m + 12 * k) = pcOf m := by
  unfold pcOf; omega

theorem pcOf_nonneg (m : Int) : 0 ≤ pcOf m := by
  unfold pcOf; omega

theorem pcOf_lt_12 (m : Int) : pcOf m < 12 := by
  unfold pcOf; omega

theorem clamp_eq_self {n a b : Int} (h1 : a ≤ n) (h2 : n ≤ b) : clamp n a b = n := by
  unfold clamp; omega

theorem clamp_mem {b : Int} (n : Int) {a : Int} (h : a ≤ b) :
    a ≤ clamp n a b ∧ clamp n a b ≤ b := by
  unfold clamp; omega

theorem map_add_add (l : List Int) (c d : Int) :
    (l.map (· + c)).map (· + d) = l.map (· + (c + d)) := by
  rw [List.map_map]
  apply List.map_congr_left
  intro x _
  show x + c + d = x + (c + d)
  omega

/-! ### Specifications of the small wrap loops -/

theorem wrapUp_ge_self (lo n : Int) : n ≤ wrapUp lo n := by
  unfold wrapUp
  exact bwhile_inv (fun m => n ≤ m) (fun a ha _ => by omega) 24 n (le_refl n)

theorem wrapUp_pc (lo n : Int) : pcOf (wrapUp lo n) = pcOf n := by
  unfold wrapUp
  exact bwhile_inv (fun m => pcOf m = pcOf n)
    (fun a ha _ => by
      have ha2 : pcOf a = pcOf n := ha
      show pcOf (a + 12) = pcOf n
      rw [pcOf_add_12]; exact ha2) 24 n rfl

theorem wrapUp_le_max (lo n : Int) : wrapUp lo n ≤ max n (lo + 11) := by
  unfold wrapUp
  exact bwhile_inv (fun m => m ≤ max n (lo + 11))
    (fun a ha hc => by simp only [decide_eq_true_eq] at hc; omega)
    24 n (le_max_left _ _)

theorem wrapUp_ge (lo n : Int) (h : lo - 288 ≤ n) : lo ≤ wrapUp lo n := by
  unfold wrapUp
  have hex := bwhile_exit (C := fun m => decide (m < lo)) (f := fun x => x + 12)
    (fun _ => True) (fun m => ((lo - m).toNat + 11) / 12)
    (fun a _ _ => trivial)
    (fun a _ hc => by
      simp only [decide_eq_true_eq] at hc
      show ((lo - (a + 12)).toNat + 11) / 12 < ((lo - a).toNat + 11) / 12
      omega)
    24 n trivial (by show ((lo - n).toNat + 11) / 12 ≤ 24; omega)
  have hex2 : decide (bwhile 24 (fun m => decide (m < lo)) (fun x => x + 12) n < lo) = false := hex
  have h3 := of_decide_eq_false hex2
  omega

theorem wrapUp_eq (lo n : Int) (h : lo ≤ n) : wrapUp lo n = n := by
  unfold wrapUp
  refine bwhile_of_neg ?h 24
  show decide (n < lo) = false
  simp only [decide_eq_false_iff_not, not_lt]
  exact h

theorem wrapDown_le_self (hi n : Int) : wrapDown hi n ≤ n := by
  unfold wrapDown
  exact bwhile_inv (fun m => m ≤ n) (fun a ha _ => by omega) 24 n (le_refl n)

theorem wrapDown_pc (hi n : Int) : pcOf (wrapDown hi n) = pcOf n := by
  unfold wrapDown
  exact bwhile_inv (fun m => pcOf m = pcOf n)
    (fun a ha _ => by
      have ha2 : pcOf a = pcOf n := ha
      show pcOf (a - 12) = pcOf n
      rw [pcOf_sub_12]; exact ha2) 24 n rfl

theorem wrapDown_ge_min (hi n : Int) : min n (hi - 11) ≤ wrapDown hi n := by
  unfold wrapDown
  exact bwhile_inv (fun m => min n (hi - 11) ≤ m)
    (fun a ha hc => by simp only [decide_eq_true_eq] at hc; omega)
    24 n (min_le_left _ _)

theorem wrapDown_le (hi n : Int) (h : n ≤ hi + 288) : wrapDown hi n ≤ hi := by
  unfold wrapDown
  have hex := bwhile_exit (C := fun m => decide (m > hi)) (f := fun x => x - 12)
    (fun _ => True) (fun m => ((m - hi).toNat + 11) / 12)
    (fun a _ _ => trivial)
    (fun a _ hc => by
      simp only [decide_eq_true_eq] at hc
      show ((a - 12 - hi).toNat + 11) / 12 < ((a - hi).toNat + 11) / 12
      omega)
    24 n trivial (by show ((n - hi).toNat + 11) / 12 ≤ 24; omega)
  have hex2 : decide (bwhile 24 (fun m => decide (m > hi)) (fun x => x - 12) n > hi) = false := hex
  have h3 := of_decide_eq_false hex2
  omega

theorem wrapDown_eq (hi n : Int) (h : n ≤ hi) : wrapDown hi n = n := by
  unfold wrapDown
  refine bwhile_of_neg ?h 24
  show decide (n > hi) = false
  simp only [decide_eq_false_iff_not, not_lt]
  exact h

theorem dropBelow_le_self (c n : Int) : dropBelow c n ≤ n := by
  unfold dropBelow
  exact bwhile_inv (fun m => m ≤ n) (fun a ha _ => by omega) 24 n (le_refl n)

theorem dropBelow_pc (c n : Int) : pcOf (dropBelow c n) = pcOf n := by
  unfold dropBelow
  exact bwhile_inv (fun m => pcOf m = pcOf n)
    (fun a ha _ => by
      have ha2 : pcOf a = pcOf n := ha
      show pcOf (a - 12) = pcOf n
      rw [pcOf_sub_12]; exact ha2) 24 n rfl

theorem dropBelow_ge_min (c n : Int) : min n (c - 12) ≤ dropBelow c n := by
  unfold dropBelow
  exact bwhile_inv (fun m => min n (c - 12) ≤ m)
    (fun a ha hc => by simp only [decide_eq_true_eq] at hc; omega)
    24 n (min_le_left _ _)

theorem dropBelow_lt (c n : Int) (h : n ≤ c + 287) : dropBelow c n < c := by
  unfold dropBelow
  have hex := bwhile_exit (C := fun m => decide (m ≥ c)) (f := fun x => x - 12)
    (fun _ => True) (fun m => (m + 12 - c).toNat / 12)
    (fun a _ _ => trivial)
    (fun a _ hc => by
      simp only [decide_eq_true_eq] at hc
      show (a - 12 + 12 - c).toNat / 12 < (a + 12 - c).toNat / 12
      omega)
    24 n trivial (by show (n + 12 - c).toNat / 12 ≤ 24; omega)
  have hex2 : decide (bwhile 24 (fun m => decide (m ≥ c)) (fun x => x - 12) n ≥ c) = false := hex
  have h3 := of_decide_eq_false hex2
  omega

theorem dropBelow_eq (c n : Int) (h : n < c) : dropBelow c n = n := by
  unfold dropBelow
  refine bwhile_of_neg ?h 24
  show decide (n ≥ c) = false
  simp only [decide_eq_false_iff_not, not_le]
  exact h

theorem raiseFrom_ge_self (p n : Int) : n ≤ raiseFrom p n := by
  unfold raiseFrom
  exact bwhile_inv (fun m => n ≤ m) (fun a ha _ => by omega) 24 n (le_refl n)

theorem raiseFrom_pc (p n : Int) : pcOf (raiseFrom p n) = pcOf n := by
  unfold raiseFrom
  exact bwhile_inv (fun m => pcOf m = pcOf n)
    (fun a ha _ => by
      have ha2 : pcOf a = pcOf n := ha
      show pcOf (a + 12) = pcOf n
      rw [pcOf_add_12]; exact ha2) 24 n rfl

theorem raiseFrom_le_max (p n : Int) : raiseFrom p n ≤ max n (p + 12) := by
  unfold raiseFrom
  exact bwhile_inv (fun m => m ≤ max n (p + 12))
    (fun a ha hc => by simp only [decide_eq_true_eq] at hc; omega)
    24 n (le_max_left _ _)

theorem raiseFrom_gt (p n : Int) (h : p - 287 ≤ n) : p < raiseFrom p n := by
  unfold raiseFrom
  have hex := bwhile_exit (C := fun m => decide (m ≤ p)) (f := fun x => x + 12)
    (fun _ => True) (fun m => (p + 12 - m).toNat / 12)
    (fun a _ _ => trivial)
    (fun a _ hc => by
      simp only [decide_eq_true_eq] at hc
      show (p + 12 - (a + 12)).toNat / 12 < (p + 12 - a).toNat / 12
      omega)
    24 n trivial (by show (p + 12 - n).toNat / 12 ≤ 24; omega)
  have hex2 : decide (bwhile 24 (fun m => decide (m ≤ p)) (fun x => x + 12) n ≤ p) = false := hex
  have h3 := of_decide_eq_false hex2
  omega

theorem raiseFrom_eq (p n : Int) (h : p < n) : raiseFrom p n = n := by
  unfold raiseFrom
  refine bwhile_of_neg ?h 24
  show decide (n ≤ p) = false
  simp only [decide_eq_false_iff_not, not_le]
  exact h

theorem raiseSep_ge_self (b sep n : Int) : n ≤ raiseSep b sep n := by
  unfold raiseSep
  exact bwhile_inv (fun m => n ≤ m) (fun a ha _ => by omega) 24 n (le_refl n)

theorem raiseSep_pc (b sep n : Int) : pcOf (raiseSep b sep n) = pcOf n := by
  unfold raiseSep
  exact bwhile_inv (fun m => pcOf m = pcOf n)
    (fun a ha _ => by
      have ha2 : pcOf a = pcOf n := ha
      show pcOf (a + 12) = pcOf n
      rw [pcOf_add_12]; exact ha2) 24 n rfl

theorem raiseSep_le_max (b sep n : Int) : raiseSep b sep n ≤ max n (b + sep + 11) := by
  unfold raiseSep
  exact bwhile_inv (fun m => m ≤ max n (b + sep + 11))
    (fun a ha hc => by simp only [decide_eq_true_eq] at hc; omega)
    24 n (le_max_left _ _)

theorem raiseSep_ge (b sep n : Int) (h : b + sep - 288 ≤ n) : b + sep ≤ raiseSep b sep n := by
  unfold raiseSep
  have hex := bwhile_exit (C := fun m => decide (m - b < sep)) (f := fun x => x + 12)
    (fun _ => True) (fun m => ((b + sep - m).toNat + 11) / 12)
    (fun a _ _ => trivial)
    (fun a _ hc => by
      simp only [decide_eq_true_eq] at hc
      show ((b + sep - (a + 12)).toNat + 11) / 12 < ((b + sep - a).toNat + 11) / 12
      omega)
    24 n trivial (by show ((b + sep - n).toNat + 11) / 12 ≤ 24; omega)
  have hex2 : decide (bwhile 24 (fun m => decide (m - b < sep)) (fun x => x + 12) n - b < sep) = false := hex
  have h3 := of_decide_eq_false hex2
  omega

theorem descGuard_le_self (lo hi p n : Int) : descGuard lo hi p n ≤ n := by
  unfold descGuard
  exact bwhile_inv (fun m => m ≤ n) (fun a ha _ => by omega) 24 n (le_refl n)

theorem descGuard_pc (lo hi p n : Int) : pcOf (descGuard lo hi p n) = pcOf n := by
  unfold descGuard
  exact bwhile_inv (fun m => pcOf m = pcOf n)
    (fun a ha _ => by
      have ha2 : pcOf a = pcOf n := ha
      show pcOf (a - 12) = pcOf n
      rw [pcOf_sub_12]; exact ha2) 24 n rfl

theorem descGuard_gt (lo hi p n : Int) (h : p < n) : p < descGuard lo hi p n := by
  unfold descGuard
  exact bwhile_inv (fun m => p < m)
    (fun a ha hc => by simp only [decide_eq_true_eq] at hc; omega)
    24 n h

theorem descGuard_ge (lo hi p n : Int) (h : lo ≤ n) : lo ≤ descGuard lo hi p n := by
  unfold descGuard
  exact bwhile_inv (fun m => lo ≤ m)
    (fun a ha hc => by simp only [decide_eq_true_eq] at hc; omega)
    24 n h

theorem descGuard_eq (lo hi p n : Int) (h : n ≤ hi) : descGuard lo hi p n = n := by
  unfold descGuard
  refine bwhile_of_neg ?c 24
  show decide (n > hi ∧ n - 12 > p ∧ n - 12 ≥ lo) = false
  simp only [decide_eq_false_iff_not]
  intro hc
  omega

theorem map_add_sub (l : List Int) (c : Int) :
    (l.map (· + c)).map (· - 12) = l.map (· + (c - 12)) := by
  rw [List.map_map]
  apply List.map_congr_left
  intro x _
  show x + c - 12 = x + (c - 12)
  omega

theorem map_sub_eq_add_neg (l : List Int) : l.map (· - 12) = l.map (· + (-12)) :=
  List.map_congr_left (fun x _ => by omega)

theorem minL_map_sub (a : List Int) (h : a ≠ []) : minL (a.map (· - 12)) = minL a - 12 := by
  rw [map_sub_eq_add_neg, minL_map_add a (-12) h]
  omega

theorem maxL_map_sub (a : List Int) (h : a ≠ []) : maxL (a.map (· - 12)) = maxL a - 12 := by
  rw [map_sub_eq_add_neg, maxL_map_add a (-12) h]
  omega

theorem strictAsc_map_add {l : List Int} (c : Int) (h : StrictAsc l) :
    StrictAsc (l.map (· + c)) := by
  unfold StrictAsc List.Sorted
  rw [List.pairwise_map]
  exact h.imp (fun hab => by omega)

theorem listUp_spec (lo : Int) (l : List Int) (h : l ≠ []) (hf : lo - 288 ≤ minL l) :
    ∃ k : Int, 0 ≤ k ∧ listUp lo l = l.map (· + 12 * k) ∧ lo ≤ minL (listUp lo l) ∧
      minL (listUp lo l) ≤ max (minL l) (lo + 11) := by
  have hbase0 : l.map (· + 12 * (0:Int)) = l := by simp
  have hstep : ∀ a : List Int,
      ((∃ k : Int, 0 ≤ k ∧ a = l.map (· + 12 * k)) ∧ minL a ≤ max (minL l) (lo + 11)) →
      decide (minL a < lo) = true →
      ((∃ k : Int, 0 ≤ k ∧ a.map (· + 12) = l.map (· + 12 * k)) ∧
        minL (a.map (· + 12)) ≤ max (minL l) (lo + 11)) := by
    intro a ha hc
    obtain ⟨⟨k, hk0, hka⟩, hb⟩ := ha
    simp only [decide_eq_true_eq] at hc
    have hane : a ≠ [] := by
      rw [hka]
      simp only [ne_eq, List.map_eq_nil_iff]
      exact h
    have hm : minL (a.map (· + 12)) = minL a + 12 := minL_map_add a 12 hane
    constructor
    · refine ⟨k + 1, by omega, ?_⟩
      rw [hka, map_add_add, show 12 * k + 12 = 12 * (k + 1) by ring]
    · omega
  have hinv := bwhile_inv (C := fun l' => decide (minL l' < lo)) (f := List.map (· + 12))
    (fun a => (∃ k : Int, 0 ≤ k ∧ a = l.map (· + 12 * k)) ∧ minL a ≤ max (minL l) (lo + 11))
    hstep 24 l ⟨⟨0, le_refl 0, hbase0.symm⟩, le_max_left _ _⟩
  have hexit := bwhile_exit (C := fun l' => decide (minL l' < lo)) (f := List.map (· + 12))
    (fun a => a ≠ []) (fun a => ((lo - minL a).toNat + 11) / 12)
    (fun a ha _ => by
      show a.map (· + 12) ≠ []
      simp only [ne_eq, List.map_eq_nil_iff]
      exact ha)
    (fun a ha hc => by
      simp only [decide_eq_true_eq] at hc
      have hm := minL_map_add a 12 ha
      show ((lo - minL (a.map (· + 12))).toNat + 11) / 12 < ((lo - minL a).toNat + 11) / 12
      omega)
    24 l h (by show ((lo - minL l).toNat + 11) / 12 ≤ 24; omega)
  have hexit2 : decide (minL (bwhile 24 (fun l' => decide (minL l' < lo)) (List.map (· + 12)) l) < lo) = false := hexit
  have hge := of_decide_eq_false hexit2
  unfold listUp
  have hinv2 : (∃ k : Int, 0 ≤ k ∧
      bwhile 24 (fun l' => decide (minL l' < lo)) (List.map (· + 12)) l = l.map (· + 12 * k)) ∧
      minL (bwhile 24 (fun l' => decide (minL l' < lo)) (List.map (· + 12)) l) ≤
        max (minL l) (lo + 11) := hinv
  obtain ⟨⟨k, hk0, hka⟩, hb⟩ := hinv2
  exact ⟨k, hk0, hka, by omega, hb⟩

theorem listDown_spec (hi : Int) (l : List Int) (h : l ≠ []) (hf : maxL l ≤ hi + 288) :
    ∃ k : Int, k ≤ 0 ∧ listDown hi l = l.map (· + 12 * k) ∧ maxL (listDown hi l) ≤ hi ∧
      min (maxL l) (hi - 11) ≤ maxL (listDown hi l) := by
  have hbase0 : l.map (· + 12 * (0:Int)) = l := by simp
  have hstep : ∀ a : List Int,
      ((∃ k : Int, k ≤ 0 ∧ a = l.map (· + 12 * k)) ∧ min (maxL l) (hi - 11) ≤ maxL a) →
      decide (maxL a > hi) = true →
      ((∃ k : Int, k ≤ 0 ∧ a.map (· - 12) = l.map (· + 12 * k)) ∧
        min (maxL l) (hi - 11) ≤ maxL (a.map (· - 12))) := by
    intro a ha hc
    obtain ⟨⟨k, hk0, hka⟩, hb⟩ := ha
    simp only [decide_eq_true_eq] at hc
    have hane : a ≠ [] := by
      rw [hka]
      simp only [ne_eq, List.map_eq_nil_iff]
      exact h
    have hm : maxL (a.map (· - 12)) = maxL a - 12 := maxL_map_sub a hane
    constructor
    · refine ⟨k - 1, by omega, ?_⟩
      rw [hka, map_add_sub, show 12 * k - 12 = 12 * (k - 1) by ring]
    · omega
  have hinv := bwhile_inv (C := fun l' => decide (maxL l' > hi)) (f := List.map (· - 12))
    (fun a => (∃ k : Int, k ≤ 0 ∧ a = l.map (· + 12 * k)) ∧ min (maxL l) (hi - 11) ≤ maxL a)
    hstep 24 l ⟨⟨0, le_refl 0, hbase0.symm⟩, min_le_left _ _⟩
  have hexit := bwhile_exit (C := fun l' => decide (maxL l' > hi)) (f := List.map (· - 12))
    (fun a => a ≠ []) (fun a => ((maxL a - hi).toNat + 11) / 12)
    (fun a ha _ => by
      show a.map (· - 12) ≠ []
      simp only [ne_eq, List.map_eq_nil_iff]
      exact ha)
    (fun a ha hc => by
      simp only [decide_eq_true_eq] at hc
      have hm := maxL_map_sub a ha
      show ((maxL (a.map (· - 12)) - hi).toNat + 11) / 12 < ((maxL a - hi).toNat + 11) / 12
      omega)
    24 l h (by show ((maxL l - hi).toNat + 11) / 12 ≤ 24; omega)
  have hexit2 : decide (maxL (bwhile 24 (fun l' => decide (maxL l' > hi)) (List.map (· - 12)) l) > hi) = false := hexit
  have hge := of_decide_eq_false hexit2
  unfold listDown
  have hinv2 : (∃ k : Int, k ≤ 0 ∧
      bwhile 24 (fun l' => decide (maxL l' > hi)) (List.map (· - 12)) l = l.map (· + 12 * k)) ∧
      min (maxL l) (hi - 11) ≤
        maxL (bwhile 24 (fun l' => decide (maxL l' > hi)) (List.map (· - 12)) l) := hinv
  obtain ⟨⟨k, hk0, hka⟩, hb⟩ := hinv2
  exact ⟨k, hk0, hka, by omega, hb⟩

/-! ### Specification of the per-note repair -/

theorem fitNote_none_eq (lo hi n : Int) :
    fitNote lo hi none n = clamp (wrapDown hi (wrapUp lo n)) 0 127 := rfl

theorem fitNote_some_eq (lo hi p n : Int) :
    fitNote lo hi (some p) n =
      clamp (descGuard lo hi p (raiseFrom p (wrapDown hi (wrapUp lo n)))) 0 127 := rfl

theorem fitNote_none_spec (lo hi n : Int) (h0 : 0 ≤ lo) (hw : lo + 11 ≤ hi)
    (h127 : hi ≤ 127) (hn1 : lo - 288 ≤ n) (hn2 : n ≤ hi) :
    lo ≤ fitNote lo hi none n ∧ fitNote lo hi none n ≤ hi ∧
    fitNote lo hi none n ≤ max n (lo + 11) ∧ n ≤ fitNote lo hi none n ∧
    pcOf (fitNote lo hi none n) = pcOf n ∧
    (lo ≤ n → fitNote lo hi none n = n) := by
  rw [fitNote_none_eq]
  have h1 := wrapUp_ge lo n hn1
  have h2 := wrapUp_le_max lo n
  have h3 := wrapUp_ge_self lo n
  have h4 := wrapUp_pc lo n
  have hwd : wrapDown hi (wrapUp lo n) = wrapUp lo n := wrapDown_eq _ _ (by omega)
  rw [hwd, clamp_eq_self (by omega) (by omega)]
  refine ⟨h1, by omega, h2, h3, h4, ?_⟩
  intro hn
  rw [wrapUp_eq lo n hn]

theorem fitNote_pass (lo hi p n : Int) (h0 : 0 ≤ lo) (h127 : hi ≤ 127)
    (hp : p < n) (hlo : lo ≤ n) (hhi : n ≤ hi) : fitNote lo hi (some p) n = n := by
  rw [fitNote_some_eq, wrapUp_eq _ _ hlo, wrapDown_eq _ _ hhi, raiseFrom_eq _ _ hp,
    descGuard_eq _ _ _ _ hhi, clamp_eq_self (by omega) (by omega)]

theorem fitNote_raise (lo hi p n : Int) (h0 : 0 ≤ lo) (hw : lo + 11 ≤ hi)
    (_h127 : hi ≤ 127) (hn1 : lo - 288 ≤ n) (hn2 : n ≤ hi)
    (hp1 : lo ≤ p) (hp2 : p + 12 ≤ 127) (hnp : n ≤ p ∨ n < lo) :
    p < fitNote lo hi (some p) n ∧ lo ≤ fitNote lo hi (some p) n ∧
    fitNote lo hi (some p) n ≤ max (lo + 11) (p + 12) ∧
    pcOf (fitNote lo hi (some p) n) = pcOf n := by
  rw [fitNote_some_eq]
  have hw1 := wrapUp_ge lo n hn1
  have hw2 := wrapUp_le_max lo n
  have hw3 := wrapUp_ge_self lo n
  have hw4 := wrapUp_pc lo n
  have hwd : wrapDown hi (wrapUp lo n) = wrapUp lo n := wrapDown_eq _ _ (by omega)
  rw [hwd]
  have hr1 := raiseFrom_gt p (wrapUp lo n) (by omega)
  have hr2 := raiseFrom_le_max p (wrapUp lo n)
  have hr3 := raiseFrom_ge_self p (wrapUp lo n)
  have hr4 := raiseFrom_pc p (wrapUp lo n)
  have hwb : wrapUp lo n ≤ max (lo + 11) (p + 12) := by omega
  have hd1 := descGuard_gt lo hi p (raiseFrom p (wrapUp lo n)) hr1
  have hd2 := descGuard_ge lo hi p (raiseFrom p (wrapUp lo n)) (by omega)
  have hd3 := descGuard_le_self lo hi p (raiseFrom p (wrapUp lo n))
  have hd4 := descGuard_pc lo hi p (raiseFrom p (wrapUp lo n))
  rw [clamp_eq_self (by omega) (by omega)]
  refine ⟨hd1, hd2, by omega, by rw [hd4, hr4, hw4]⟩

theorem fitNotesGo_nil (lo hi prev : Int) : fitNotesGo lo hi prev [] = [] := rfl

theorem fitNotesGo_cons (lo hi prev y : Int) (yt : List Int) :
    fitNotesGo lo hi prev (y :: yt) =
      fitNote lo hi (some prev) y :: fitNotesGo lo hi (fitNote lo hi (some prev) y) yt := rfl

theorem fitNotes_cons (lo hi y : Int) (yt : List Int) :
    fitNotes lo hi (y :: yt) =
      fitNote lo hi none y :: fitNotesGo lo hi (fitNote lo hi none y) yt := rfl

theorem fitNotesGo_spec (lo hi : Int) (h0 : 0 ≤ lo) (h127 : hi ≤ 127) :
    ∀ (ys : List Int) (prev : Int) (i : Nat),
      lo + 11 + 12 * ((i : Int) + (ys.length : Int)) ≤ hi →
      List.Sorted (· ≤ ·) ys →
      List.Chain' (fun a b => a = b → a ≤ lo + 11) ys →
      (∀ y ∈ ys, lo - 288 ≤ y ∧ y ≤ hi) →
      lo ≤ prev → prev ≤ hi →
      (prev ≤ lo + 11 + 12 * (i : Int) ∨ ∀ y ∈ ys, prev < y) →
      (∀ z ∈ fitNotesGo lo hi prev ys, lo ≤ z ∧ z ≤ hi) ∧
      StrictAsc (prev :: fitNotesGo lo hi prev ys) ∧
      List.Forall₂ (fun y z => pcOf z = pcOf y) ys (fitNotesGo lo hi prev ys) := by
  intro ys
  induction ys with
  | nil =>
    intro prev i hwidth hsa hch hbnd hp1 hp2 hdisj
    refine ⟨fun z hz => absurd hz (by simp [fitNotesGo_nil]), ?_, by simp [fitNotesGo_nil]⟩
    rw [fitNotesGo_nil]
    exact List.sorted_singleton prev
  | cons y yt ih =>
    intro prev i hwidth hsa hch hbnd hp1 hp2 hdisj
    rw [fitNotesGo_cons]
    have hlen : ((y :: yt).length : Int) = (yt.length : Int) + 1 := by
      simp [List.length_cons]
    have hyb := hbnd y (List.mem_cons_self _ _)
    have hsatail : List.Sorted (· ≤ ·) yt := (List.pairwise_cons.mp hsa).2
    have hyle : ∀ y' ∈ yt, y ≤ y' := (List.pairwise_cons.mp hsa).1
    have hchtail : List.Chain' (fun a b => a = b → a ≤ lo + 11) yt := hch.tail
    have hbt : ∀ y' ∈ yt, lo - 288 ≤ y' ∧ y' ≤ hi :=
      fun y' hy' => hbnd y' (List.mem_cons_of_mem _ hy')
    have hwidtht : lo + 11 + 12 * (((i + 1 : Nat) : Int) + (yt.length : Int)) ≤ hi := by
      push_cast
      rw [hlen] at hwidth
      omega
    by_cases hcase : prev < y ∧ lo ≤ y
    · have hz : fitNote lo hi (some prev) y = y :=
        fitNote_pass lo hi prev y h0 h127 hcase.1 hcase.2 hyb.2
      rw [hz]
      have hdisj' : y ≤ lo + 11 + 12 * ((i + 1 : Nat) : Int) ∨ ∀ y' ∈ yt, y < y' := by
        by_cases hnext : ∀ y' ∈ yt, y < y'
        · exact Or.inr hnext
        · left
          push_neg at hnext
          obtain ⟨y', hy', hy'le⟩ := hnext
          have hyy' : y' = y := le_antisymm hy'le (hyle y' hy')
          match yt, hy', hchtail, hyle with
          | h' :: t', hy', hchtail, hyle =>
            have hhead : h' = y := by
              rcases List.mem_cons.mp hy' with h1 | h2
              · omega
              · have h3 := (List.pairwise_cons.mp hsatail).1 y' h2
                have h4 := hyle h' (List.mem_cons_self _ _)
                omega
            have := (List.chain'_cons.mp hch).1
            have hbound : y ≤ lo + 11 := this hhead.symm
            push_cast
            omega
      obtain ⟨ihb, ihs, ihf⟩ := ih y (i + 1) hwidtht hsatail hchtail hbt (by omega) hyb.2
        hdisj'
      refine ⟨?_, ?_, List.Forall₂.cons rfl ihf⟩
      · intro z hz'
        rcases List.mem_cons.mp hz' with h1 | h2
        · omega
        · exact ihb z h2
      · unfold StrictAsc
        rw [List.sorted_cons]
        refine ⟨?_, ihs⟩
        intro b hb
        rcases List.mem_cons.mp hb with h1 | h2
        · omega
        · have := (List.sorted_cons.mp ihs).1 b h2
          omega
    · have hleft : prev ≤ lo + 11 + 12 * (i : Int) := by
        rcases hdisj with h | h
        · exact h
        · exfalso
          have := h y (List.mem_cons_self _ _)
          omega
      have hwyt : lo + 11 + 12 * ((i : Int) + ((y :: yt).length : Int)) ≤ hi := hwidth
      have hylen1 : (1 : Int) ≤ ((y :: yt).length : Int) := by
        simp [List.length_cons]
      have hraise := fitNote_raise lo hi prev y h0 (by omega) h127 hyb.1 hyb.2 hp1
        (by omega) (by omega)
      obtain ⟨hz1, hz2, hz3, hz4⟩ := hraise
      have hzhi : fitNote lo hi (some prev) y ≤ hi := by omega
      obtain ⟨ihb, ihs, ihf⟩ := ih (fitNote lo hi (some prev) y) (i + 1) hwidtht hsatail
        hchtail hbt hz2 hzhi (Or.inl (by push_cast; omega))
      refine ⟨?_, ?_, List.Forall₂.cons hz4 ihf⟩
      · intro z hz'
        rcases List.mem_cons.mp hz' with h1 | h2
        · constructor
          · omega
          · rw [h1]; exact hzhi
        · exact ihb z h2
      · unfold StrictAsc
        rw [List.sorted_cons]
        refine ⟨?_, ihs⟩
        intro b hb
        rcases List.mem_cons.mp hb with h1 | h2
        · omega
        · have := (List.sorted_cons.mp ihs).1 b h2
          omega

theorem listUp_eq (lo : Int) (l : List Int) (h : lo ≤ minL l) : listUp lo l = l := by
  unfold listUp
  refine bwhile_of_neg ?h 24
  show decide (minL l < lo) = false
  simp only [decide_eq_false_iff_not, not_lt]
  exact h

theorem listDown_eq (hi : Int) (l : List Int) (h : maxL l ≤ hi) : listDown hi l = l := by
  unfold listDown
  refine bwhile_of_neg ?h 24
  show decide (maxL l > hi) = false
  simp only [decide_eq_false_iff_not, not_lt]
  exact h

theorem forall2_map_self {R : Int → Int → Prop} (l : List Int) (g : Int → Int)
    (h : ∀ x ∈ l, R x (g x)) : List.Forall₂ R l (l.map g) := by
  induction l with
  | nil => exact List.Forall₂.nil
  | cons a t ih =>
    exact List.Forall₂.cons (h a (List.mem_cons_self _ _))
      (ih (fun x hx => h x (List.mem_cons_of_mem _ hx)))

theorem forall2_pc_trans {a b c : List Int}
    (h1 : List.Forall₂ (fun x y => pcOf y = pcOf x) a b)
    (h2 : List.Forall₂ (fun x y => pcOf y = pcOf x) b c) :
    List.Forall₂ (fun x y => pcOf y = pcOf x) a c := by
  induction h1 generalizing c with
  | nil =>
    cases h2
    exact List.Forall₂.nil
  | cons hxy hrest ih =>
    cases h2 with
    | cons hyz h2rest => exact List.Forall₂.cons (hyz.trans hxy) (ih h2rest)

theorem fitChordToRange_eq (ch : List Int) (lo hi : Int) (h : sortAsc ch ≠ []) :
    fitChordToRange ch lo hi =
      sortAsc ((listDown hi (listUp lo
        (fitNotes lo hi (listDown hi (listUp lo (sortAsc ch)))))).map
          (fun n => clamp n 0 127)) := by
  show (if (sortAsc ch).isEmpty then sortAsc ch
    else sortAsc ((listDown hi (listUp lo
      (fitNotes lo hi (listDown hi (listUp lo (sortAsc ch)))))).map
        (fun n => clamp n 0 127))) = _
  rw [if_neg]
  intro hempty
  exact h (List.isEmpty_iff.mp hempty)

theorem fitChordToRange_spec (ch : List Int) (lo hi : Int)
    (h0 : 0 ≤ lo) (h127 : hi ≤ 127) (hne : ch ≠ []) (hnd : ch.Nodup)
    (hbnd : ∀ n ∈ ch, -24 ≤ n ∧ n ≤ 199)
    (hw : lo + 11 + 12 * ((ch.length : Int) - 1) ≤ hi) :
    StrictAsc (fitChordToRange ch lo hi) ∧
    (∀ n ∈ fitChordToRange ch lo hi, lo ≤ n ∧ n ≤ hi) ∧
    (fitChordToRange ch lo hi).length = ch.length ∧
    List.Forall₂ (fun a b => pcOf b = pcOf a) (sortAsc ch) (fitChordToRange ch lo hi) := by
  have hslen : (sortAsc ch).length = ch.length := sortAsc_length ch
  have hchpos : 0 < ch.length := List.length_pos.mpr hne
  have hsne : sortAsc ch ≠ [] := by
    intro h0'
    rw [h0', List.length_nil] at hslen
    omega
  have hss : StrictAsc (sortAsc ch) := sortAsc_strictAsc hnd
  have hsb : ∀ n ∈ sortAsc ch, -24 ≤ n ∧ n ≤ 199 :=
    fun n hn => hbnd n ((sortAsc_mem ch n).mp hn)
  have hminmem := minL_mem (sortAsc ch) hsne
  have hmaxmem := maxL_mem (sortAsc ch) hsne
  have hminb := hsb _ hminmem
  have hmaxb := hsb _ hmaxmem
  have hminmax : minL (sortAsc ch) ≤ maxL (sortAsc ch) := maxL_ge _ _ hminmem
  have hchlen1 : (1 : Int) ≤ (ch.length : Int) := by exact_mod_cast hchpos
  have hwl : lo + 11 ≤ hi := by omega
  -- step 1: whole-chord raise
  obtain ⟨k1, hk1, hu_eq, hu_min_ge, hu_min_le⟩ :=
    listUp_spec lo (sortAsc ch) hsne (by omega)
  have hu_ne : listUp lo (sortAsc ch) ≠ [] := by
    rw [hu_eq]
    simp only [ne_eq, List.map_eq_nil_iff]
    exact hsne
  have hu_min : minL (listUp lo (sortAsc ch)) = minL (sortAsc ch) + 12 * k1 := by
    rw [hu_eq, minL_map_add _ _ hsne]
  have hu_max : maxL (listUp lo (sortAsc ch)) = maxL (sortAsc ch) + 12 * k1 := by
    rw [hu_eq, maxL_map_add _ _ hsne]
  -- step 2: whole-chord drop
  obtain ⟨k2, hk2, hd_eq, hd_max_le, hd_max_ge⟩ :=
    listDown_spec hi (listUp lo (sortAsc ch)) hu_ne (by omega)
  have hdK : listDown hi (listUp lo (sortAsc ch)) = (sortAsc ch).map (· + 12 * (k1 + k2)) := by
    rw [hd_eq, hu_eq, map_add_add, show 12 * k1 + 12 * k2 = 12 * (k1 + k2) by ring]
  have hd_ne : listDown hi (listUp lo (sortAsc ch)) ≠ [] := by
    rw [hdK]
    simp only [ne_eq, List.map_eq_nil_iff]
    exact hsne
  have hd_min : minL (listDown hi (listUp lo (sortAsc ch))) =
      minL (sortAsc ch) + 12 * (k1 + k2) := by
    rw [hdK, minL_map_add _ _ hsne]
  have hd_max : maxL (listDown hi (listUp lo (sortAsc ch))) =
      maxL (sortAsc ch) + 12 * (k1 + k2) := by
    rw [hdK, maxL_map_add _ _ hsne]
  have hd_sa : StrictAsc (listDown hi (listUp lo (sortAsc ch))) := by
    rw [hdK]
    exact strictAsc_map_add _ hss
  have hd_pc : List.Forall₂ (fun a b => pcOf b = pcOf a) (sortAsc ch)
      (listDown hi (listUp lo (sortAsc ch))) := by
    rw [hdK]
    exact forall2_map_self _ _ (fun x _ => pcOf_add_mul_12 x (k1 + k2))
  have hd_len : (listDown hi (listUp lo (sortAsc ch))).length = ch.length := by
    rw [hdK, List.length_map, hslen]
  have hd_bnd : ∀ y ∈ listDown hi (listUp lo (sortAsc ch)), lo - 288 ≤ y ∧ y ≤ hi := by
    intro y hy
    have h1 := minL_le _ y hy
    have h2 := maxL_ge _ y hy
    omega
  -- step 3: per-note repair
  obtain ⟨y0, yt, hd_cons⟩ := List.exists_cons_of_ne_nil hd_ne
  have hy0mem : y0 ∈ listDown hi (listUp lo (sortAsc ch)) := by
    rw [hd_cons]
    exact List.mem_cons_self _ _
  have hy0b := hd_bnd y0 hy0mem
  obtain ⟨hz0lo, hz0hi, hz0max, hz0ge, hz0pc, hz0id⟩ :=
    fitNote_none_spec lo hi y0 h0 hwl h127 hy0b.1 hy0b.2
  have hytlen : (yt.length : Int) = (ch.length : Int) - 1 := by
    have : (listDown hi (listUp lo (sortAsc ch))).length = yt.length + 1 := by
      rw [hd_cons, List.length_cons]
    rw [hd_len] at this
    omega
  have hdisj : fitNote lo hi none y0 ≤ lo + 11 + 12 * ((0 : Nat) : Int) ∨
      ∀ y ∈ yt, fitNote lo hi none y0 < y := by
    by_cases hy0lo : lo ≤ y0
    · right
      rw [hz0id hy0lo]
      have := hd_cons ▸ hd_sa
      exact (List.pairwise_cons.mp this).1
    · left
      push_cast
      omega
  have hd_sa' : StrictAsc (y0 :: yt) := hd_cons ▸ hd_sa
  obtain ⟨hgb, hgs, hgf⟩ := fitNotesGo_spec lo hi h0 h127 yt (fitNote lo hi none y0) 0
    (by push_cast; omega)
    (sorted_le_of_strictAsc (List.pairwise_cons.mp hd_sa').2)
    (((List.pairwise_cons.mp hd_sa').2.chain').imp (fun a b hab heq => absurd heq (by omega)))
    (fun y' hy' => hd_bnd y' (by rw [hd_cons]; exact List.mem_cons_of_mem _ hy'))
    hz0lo hz0hi hdisj
  have hfin : fitNotes lo hi (listDown hi (listUp lo (sortAsc ch))) =
      fitNote lo hi none y0 :: fitNotesGo lo hi (fitNote lo hi none y0) yt := by
    rw [hd_cons, fitNotes_cons]
  have hf_b : ∀ n ∈ fitNote lo hi none y0 :: fitNotesGo lo hi (fitNote lo hi none y0) yt,
      lo ≤ n ∧ n ≤ hi := by
    intro n hn
    rcases List.mem_cons.mp hn with h1 | h2
    · constructor
      · rw [h1]; exact hz0lo
      · rw [h1]; exact hz0hi
    · exact hgb n h2
  have hf_pc : List.Forall₂ (fun a b => pcOf b = pcOf a)
      (listDown hi (listUp lo (sortAsc ch)))
      (fitNote lo hi none y0 :: fitNotesGo lo hi (fitNote lo hi none y0) yt) := by
    rw [hd_cons]
    exact List.Forall₂.cons hz0pc hgf
  have hf_ne : fitNote lo hi none y0 :: fitNotesGo lo hi (fitNote lo hi none y0) yt ≠ [] :=
    List.cons_ne_nil _ _
  have hf_minmem := minL_mem _ hf_ne
  have hf_maxmem := maxL_mem _ hf_ne
  have hf_minb := hf_b _ hf_minmem
  have hf_maxb := hf_b _ hf_maxmem
  -- step 4: final whole-chord loops are no-ops, clamp is the identity, sort is the identity
  have hup2 : listUp lo (fitNote lo hi none y0 :: fitNotesGo lo hi (fitNote lo hi none y0) yt) =
      fitNote lo hi none y0 :: fitNotesGo lo hi (fitNote lo hi none y0) yt :=
    listUp_eq _ _ hf_minb.1
  have hdown2 : listDown hi (fitNote lo hi none y0 :: fitNotesGo lo hi (fitNote lo hi none y0) yt) =
      fitNote lo hi none y0 :: fitNotesGo lo hi (fitNote lo hi none y0) yt :=
    listDown_eq _ _ hf_maxb.2
  have hclamp : (fitNote lo hi none y0 :: fitNotesGo lo hi (fitNote lo hi none y0) yt).map
      (fun n => clamp n 0 127) =
      fitNote lo hi none y0 :: fitNotesGo lo hi (fitNote lo hi none y0) yt := by
    have h1 : (fitNote lo hi none y0 :: fitNotesGo lo hi (fitNote lo hi none y0) yt).map
        (fun n => clamp n 0 127) =
        (fitNote lo hi none y0 :: fitNotesGo lo hi (fitNote lo hi none y0) yt).map id := by
      apply List.map_congr_left
      intro x hx
      have := hf_b x hx
      show clamp x 0 127 = x
      exact clamp_eq_self (by omega) (by omega)
    rw [h1, List.map_id]
  have hfit : fitChordToRange ch lo hi =
      fitNote lo hi none y0 :: fitNotesGo lo hi (fitNote lo hi none y0) yt := by
    rw [fitChordToRange_eq ch lo hi hsne, hfin, hup2, hdown2, hclamp,
      strictAsc_sortAsc_eq hgs]
  rw [hfit]
  refine ⟨hgs, hf_b, ?_, forall2_pc_trans hd_pc hf_pc⟩
  have := List.Forall₂.length_eq hf_pc
  rw [← this, hd_len]

theorem fitNotesGo_pass (lo hi : Int) (h0 : 0 ≤ lo) (h127 : hi ≤ 127) :
    ∀ (ys : List Int) (prev : Int),
      StrictAsc (prev :: ys) → (∀ y ∈ ys, lo ≤ y ∧ y ≤ hi) →
      fitNotesGo lo hi prev ys = ys := by
  intro ys
  induction ys with
  | nil => intro prev _ _; rfl
  | cons y yt ih =>
    intro prev hsa hb
    rw [fitNotesGo_cons]
    have hyb := hb y (List.mem_cons_self _ _)
    have hpy : prev < y := (List.pairwise_cons.mp hsa).1 y (List.mem_cons_self _ _)
    have hz : fitNote lo hi (some prev) y = y :=
      fitNote_pass lo hi prev y h0 h127 hpy hyb.1 hyb.2
    rw [hz]
    congr 1
    exact ih y (List.pairwise_cons.mp hsa).2 (fun y' hy' => hb y' (List.mem_cons_of_mem _ hy'))

theorem fitChordToRange_fixed (l : List Int) (lo hi : Int)
    (h0 : 0 ≤ lo) (h127 : hi ≤ 127) (hne : l ≠ [])
    (hsa : StrictAsc l) (hb : ∀ n ∈ l, lo ≤ n ∧ n ≤ hi) :
    fitChordToRange l lo hi = l := by
  have hsl : sortAsc l = l := strictAsc_sortAsc_eq hsa
  have hsne : sortAsc l ≠ [] := by rw [hsl]; exact hne
  have hminmem := minL_mem l hne
  have hmaxmem := maxL_mem l hne
  have hub := hb _ hminmem
  have hdb := hb _ hmaxmem
  have hfid : fitNotes lo hi l = l := by
    obtain ⟨y0, yt, hc⟩ := List.exists_cons_of_ne_nil hne
    subst hc
    rw [fitNotes_cons]
    have hyb := hb y0 (List.mem_cons_self _ _)
    have hz0 : fitNote lo hi none y0 = y0 := by
      rw [fitNote_none_eq, wrapUp_eq _ _ hyb.1, wrapDown_eq _ _ hyb.2,
        clamp_eq_self (by omega) (by omega)]
    rw [hz0, fitNotesGo_pass lo hi h0 h127 yt y0 hsa
      (fun y hy => hb y (List.mem_cons_of_mem _ hy))]
  have hclamp : l.map (fun n => clamp n 0 127) = l := by
    have h1 : l.map (fun n => clamp n 0 127) = l.map id := by
      apply List.map_congr_left
      intro x hx
      have := hb x hx
      show clamp x 0 127 = x
      exact clamp_eq_self (by omega) (by omega)
    rw [h1, List.map_id]
  rw [fitChordToRange_eq l lo hi hsne, hsl, listUp_eq lo l hub.1, listDown_eq hi l hdb.2,
    hfid, listUp_eq lo l hub.1, listDown_eq hi l hdb.2, hclamp, hsl]

/-! ### The re-ascending pass and the spacing chain -/

theorem raiseTail_nil (prev : Int) : raiseTail prev [] = [] := rfl

theorem raiseTail_cons (prev h : Int) (t : List Int) :
    raiseTail prev (h :: t) = raiseFrom prev h :: raiseTail (raiseFrom prev h) t := rfl

theorem forall2_pc_refl (l : List Int) :
    List.Forall₂ (fun x y => pcOf y = pcOf x) l l := by
  induction l with
  | nil => exact List.Forall₂.nil
  | cons a t ih => exact List.Forall₂.cons rfl ih

theorem strictAsc_cons_of (p : Int) {l : List Int} (hl : StrictAsc l)
    (hp : ∀ z ∈ l, p < z) : StrictAsc (p :: l) := by
  unfold StrictAsc
  rw [List.sorted_cons]
  exact ⟨hp, hl⟩

theorem strictAsc_cons_cons {p q : Int} {l : List Int} (hpq : p < q)
    (h : StrictAsc (q :: l)) : StrictAsc (p :: q :: l) := by
  refine strictAsc_cons_of p h ?_
  intro z hz
  rcases List.mem_cons.mp hz with h1 | h2
  · omega
  · have := (List.pairwise_cons.mp h).1 z h2
    omega

theorem raiseTail_spec (W M : Int) :
    ∀ (l : List Int) (prev : Int),
      (∀ y ∈ l, W ≤ y ∧ y ≤ M) →
      prev + 12 * (l.length : Int) ≤ W + 299 →
      M + 12 * (l.length : Int) ≤ W + 299 →
      StrictAsc (prev :: raiseTail prev l) ∧
      List.Forall₂ (fun y z => pcOf z = pcOf y) l (raiseTail prev l) ∧
      (∀ z ∈ raiseTail prev l, z ≤ max M prev + 12 * (l.length : Int)) := by
  intro l
  induction l with
  | nil =>
    intro prev _ _ _
    rw [raiseTail_nil]
    exact ⟨List.sorted_singleton prev, List.Forall₂.nil, fun z hz => absurd hz (by simp)⟩
  | cons h t ih =>
    intro prev hb hf1 hf2
    rw [raiseTail_cons]
    have hlen : ((h :: t).length : Int) = (t.length : Int) + 1 := by
      simp [List.length_cons]
    have hhb := hb h (List.mem_cons_self _ _)
    have htlen : (0 : Int) ≤ (t.length : Int) := by positivity
    have hgt := raiseFrom_gt prev h (by omega)
    have hle := raiseFrom_le_max prev h
    have hpc := raiseFrom_pc prev h
    obtain ⟨ihs, ihf, ihb⟩ := ih (raiseFrom prev h)
      (fun y hy => hb y (List.mem_cons_of_mem _ hy))
      (by omega) (by omega)
    refine ⟨strictAsc_cons_cons hgt ihs, List.Forall₂.cons hpc ihf, ?_⟩
    intro z hz
    rcases List.mem_cons.mp hz with h1 | h2
    · omega
    · have := ihb z h2
      omega

theorem raiseTail_id : ∀ (l : List Int) (prev : Int), StrictAsc (prev :: l) →
    raiseTail prev l = l := by
  intro l
  induction l with
  | nil => intro prev _; rfl
  | cons h t ih =>
    intro prev hsa
    rw [raiseTail_cons]
    have hph : prev < h := (List.pairwise_cons.mp hsa).1 h (List.mem_cons_self _ _)
    rw [raiseFrom_eq prev h hph]
    rw [ih h (List.pairwise_cons.mp hsa).2]

theorem spacingStep1_nil (lo hi ms : Int) : spacingStep1 lo hi ms [] = [] := rfl

theorem spacingStep1_single (lo hi ms a : Int) : spacingStep1 lo hi ms [a] = [a] := rfl

theorem spacingStep1_cons (lo hi ms x0 x1 : Int) (rest : List Int) :
    spacingStep1 lo hi ms (x0 :: x1 :: rest) =
      fitChordToRange (x0 :: raiseSep x0 ms x1 :: raiseTail (raiseSep x0 ms x1) rest) lo hi :=
  rfl

theorem spacingStep1_spec (lo hi ms : Int) (x : List Int)
    (h0 : 0 ≤ lo) (h127 : hi ≤ 127) (hms0 : 0 ≤ ms) (hms1 : ms ≤ 30)
    (hsa : StrictAsc x) (hin : InRange lo hi x)
    (hlen : (x.length : Int) ≤ 4)
    (hw : lo + 11 + 12 * ((x.length : Int) - 1) ≤ hi) :
    StrictAsc (spacingStep1 lo hi ms x) ∧ InRange lo hi (spacingStep1 lo hi ms x) ∧
    (spacingStep1 lo hi ms x).length = x.length ∧
    List.Forall₂ (fun a b => pcOf b = pcOf a) x (spacingStep1 lo hi ms x) := by
  match x with
  | [] =>
    rw [spacingStep1_nil]
    exact ⟨hsa, hin, rfl, List.Forall₂.nil⟩
  | [a] =>
    rw [spacingStep1_single]
    exact ⟨hsa, hin, rfl, forall2_pc_refl [a]⟩
  | x0 :: x1 :: rest =>
    rw [spacingStep1_cons]
    have hx0 := hin x0 (List.mem_cons_self _ _)
    have hx1 := hin x1 (List.mem_cons_of_mem _ (List.mem_cons_self _ _))
    have hrest : ∀ y ∈ rest, lo ≤ y ∧ y ≤ hi :=
      fun y hy => hin y (List.mem_cons_of_mem _ (List.mem_cons_of_mem _ hy))
    have hx01 : x0 < x1 := (List.pairwise_cons.mp hsa).1 x1
      (List.mem_cons_self _ _)
    have hsarest : StrictAsc (x1 :: rest) := (List.pairwise_cons.mp hsa).2
    have hrlen : ((x0 :: x1 :: rest).length : Int) = (rest.length : Int) + 2 := by
      simp [List.length_cons]
      omega
    have hrlen2 : (rest.length : Int) ≤ 2 := by omega
    have hrlen0 : (0 : Int) ≤ (rest.length : Int) := by positivity
    -- the raised second voice
    have hs1a := raiseSep_ge_self x0 ms x1
    have hs1b := raiseSep_ge x0 ms x1 (by omega)
    have hs1c := raiseSep_le_max x0 ms x1
    have hs1pc := raiseSep_pc x0 ms x1
    -- the re-ascended upper voices
    obtain ⟨hrt_sa, hrt_pc, hrt_b⟩ := raiseTail_spec lo hi rest (raiseSep x0 ms x1)
      hrest (by omega) (by omega)
    have hrt_len : (raiseTail (raiseSep x0 ms x1) rest).length = rest.length :=
      (List.Forall₂.length_eq hrt_pc).symm
    have hLsa : StrictAsc (x0 :: raiseSep x0 ms x1 :: raiseTail (raiseSep x0 ms x1) rest) :=
      strictAsc_cons_cons (by omega) hrt_sa
    have hLgt : ∀ z ∈ raiseTail (raiseSep x0 ms x1) rest, raiseSep x0 ms x1 < z :=
      (List.pairwise_cons.mp hrt_sa).1
    have hLbnd : ∀ n ∈ x0 :: raiseSep x0 ms x1 :: raiseTail (raiseSep x0 ms x1) rest,
        -24 ≤ n ∧ n ≤ 199 := by
      intro n hn
      rcases List.mem_cons.mp hn with h1 | hn'
      · omega
      rcases List.mem_cons.mp hn' with h2 | hn''
      · constructor <;> omega
      · have hb := hrt_b n hn''
        have hg := hLgt n hn''
        constructor <;> omega
    have hLlen : ((x0 :: raiseSep x0 ms x1 :: raiseTail (raiseSep x0 ms x1) rest).length : Int)
        = ((x0 :: x1 :: rest).length : Int) := by
      simp [List.length_cons, hrt_len]
    obtain ⟨hfa, hfb, hfc, hfd⟩ := fitChordToRange_spec
      (x0 :: raiseSep x0 ms x1 :: raiseTail (raiseSep x0 ms x1) rest) lo hi h0 h127
      (List.cons_ne_nil _ _) (strictAsc_nodup hLsa) hLbnd (by omega)
    have hsorteq : sortAsc (x0 :: raiseSep x0 ms x1 :: raiseTail (raiseSep x0 ms x1) rest) =
        x0 :: raiseSep x0 ms x1 :: raiseTail (raiseSep x0 ms x1) rest :=
      strictAsc_sortAsc_eq hLsa
    rw [hsorteq] at hfd
    have hpcL : List.Forall₂ (fun a b => pcOf b = pcOf a) (x0 :: x1 :: rest)
        (x0 :: raiseSep x0 ms x1 :: raiseTail (raiseSep x0 ms x1) rest) :=
      List.Forall₂.cons rfl (List.Forall₂.cons hs1pc hrt_pc)
    refine ⟨hfa, hfb, ?_, forall2_pc_trans hpcL hfd⟩
    rw [hfc]
    exact_mod_cast hLlen

theorem forall2_mem_right {R : Int → Int → Prop} :
    ∀ {a b : List Int}, List.Forall₂ R a b → ∀ z ∈ b, ∃ y ∈ a, R y z := by
  intro a b h
  induction h with
  | nil => intro z hz; cases hz
  | cons hr hrest ih =>
    intro z hz
    rcases List.mem_cons.mp hz with h1 | h2
    · exact ⟨_, List.mem_cons_self _ _, h1 ▸ hr⟩
    · obtain ⟨y, hy, hyz⟩ := ih z h2
      exact ⟨y, List.mem_cons_of_mem _ hy, hyz⟩

theorem pullDownGo_nil (lo prev : Int) : pullDownPass.go lo prev [] = ([], false) := rfl

theorem pullDownGo_cons (lo prev y : Int) (ys : List Int) :
    pullDownPass.go lo prev (y :: ys) =
      (match pullDownPass.go lo y ys with
       | (rest, ch) =>
         if y - 12 > prev ∧ y - 12 ≥ lo then ((y - 12) :: rest, true)
         else (y :: rest, ch)) := rfl

theorem pullDownGo_spec (lo hi : Int) : ∀ (ys : List Int) (prev : Int),
    StrictAsc (prev :: ys) → (∀ y ∈ ys, lo ≤ y ∧ y ≤ hi) →
    StrictAsc (prev :: (pullDownPass.go lo prev ys).1) ∧
    List.Forall₂ (fun y z => pcOf z = pcOf y ∧ lo ≤ z ∧ z ≤ y) ys
      (pullDownPass.go lo prev ys).1 := by
  intro ys
  induction ys with
  | nil =>
    intro prev _ _
    rw [pullDownGo_nil]
    exact ⟨List.sorted_singleton prev, List.Forall₂.nil⟩
  | cons y ys ih =>
    intro prev hsa hb
    have hpy : prev < y := (List.pairwise_cons.mp hsa).1 y (List.mem_cons_self _ _)
    have hyb := hb y (List.mem_cons_self _ _)
    have htail : StrictAsc (y :: ys) := (List.pairwise_cons.mp hsa).2
    have hbt : ∀ y' ∈ ys, lo ≤ y' ∧ y' ≤ hi := fun y' h => hb y' (List.mem_cons_of_mem _ h)
    obtain ⟨ihs, ihf⟩ := ih y htail hbt
    rw [pullDownGo_cons]
    rcases hE : pullDownPass.go lo y ys with ⟨zs, c⟩
    rw [hE] at ihs ihf
    dsimp only at ihs ihf ⊢
    by_cases hkeep : y - 12 > prev ∧ y - 12 ≥ lo
    · rw [if_pos hkeep]
      have hzgt : ∀ z ∈ zs, y - 12 < z := by
        intro z hz
        have := (List.pairwise_cons.mp ihs).1 z hz
        omega
      exact ⟨strictAsc_cons_cons (by omega)
          (strictAsc_cons_of (y - 12) (List.pairwise_cons.mp ihs).2 hzgt),
        List.Forall₂.cons ⟨pcOf_sub_12 y, by omega, by omega⟩ ihf⟩
    · rw [if_neg hkeep]
      exact ⟨strictAsc_cons_cons hpy ihs,
        List.Forall₂.cons ⟨rfl, hyb.1, le_refl y⟩ ihf⟩

theorem pullDownPass_nil (lo : Int) : pullDownPass lo [] = ([], false) := rfl

theorem pullDownPass_cons (lo h : Int) (t : List Int) :
    pullDownPass lo (h :: t) =
      ((h :: (pullDownPass.go lo h t).1), (pullDownPass.go lo h t).2) := rfl

theorem pullDownPass_spec (lo hi : Int) (x : List Int) (hsa : StrictAsc x)
    (hin : InRange lo hi x) :
    StrictAsc (pullDownPass lo x).1 ∧ InRange lo hi (pullDownPass lo x).1 ∧
    (pullDownPass lo x).1.length = x.length ∧
    List.Forall₂ (fun a b => pcOf b = pcOf a) x (pullDownPass lo x).1 := by
  match x with
  | [] =>
    rw [pullDownPass_nil]
    exact ⟨hsa, hin, rfl, List.Forall₂.nil⟩
  | h :: t =>
    have hhb := hin h (List.mem_cons_self _ _)
    have hbt : ∀ y ∈ t, lo ≤ y ∧ y ≤ hi := fun y hy => hin y (List.mem_cons_of_mem _ hy)
    obtain ⟨hgs, hgf⟩ := pullDownGo_spec lo hi t h hsa hbt
    rw [pullDownPass_cons]
    refine ⟨hgs, ?_, ?_, ?_⟩
    · intro n hn
      rcases List.mem_cons.mp hn with h1 | h2
      · omega
      · obtain ⟨y, hy, hyz⟩ := forall2_mem_right hgf n h2
        have := hbt y hy
        exact ⟨hyz.2.1, by omega⟩
    · have hl : (pullDownPass.go lo h t).1.length = t.length :=
        (List.Forall₂.length_eq hgf).symm
      simp [List.length_cons, hl]
    · exact List.Forall₂.cons rfl (List.Forall₂.imp (fun a b hab => hab.1) hgf)

theorem tighten_zero (lo hi ms : Int) (x : List Int) : tighten lo hi ms 0 x = x := rfl

theorem tighten_succ (lo hi ms : Int) (f : Nat) (x : List Int) :
    tighten lo hi ms (f + 1) x =
      (if (sortAsc x).getLast?.getD 0 - (sortAsc x).headD 0 ≤ ms then sortAsc x
       else match pullDownPass lo (sortAsc x) with
        | (x', changed) =>
          if changed then
            tighten lo hi ms f (fitChordToRange
              (match x' with | [] => [] | h :: t => h :: raiseTail h t) lo hi)
          else fitChordToRange
            (match x' with | [] => [] | h :: t => h :: raiseTail h t) lo hi) := rfl

theorem tighten_spec (lo hi ms : Int) (h0 : 0 ≤ lo) (h127 : hi ≤ 127) (hms0 : 0 ≤ ms) :
    ∀ (f : Nat) (x : List Int), StrictAsc x → InRange lo hi x →
    StrictAsc (tighten lo hi ms f x) ∧ InRange lo hi (tighten lo hi ms f x) ∧
    (tighten lo hi ms f x).length = x.length ∧
    List.Forall₂ (fun a b => pcOf b = pcOf a) x (tighten lo hi ms f x) := by
  intro f
  induction f with
  | zero =>
    intro x hsa hin
    rw [tighten_zero]
    exact ⟨hsa, hin, rfl, forall2_pc_refl x⟩
  | succ f ih =>
    intro x hsa hin
    have hso : sortAsc x = x := strictAsc_sortAsc_eq hsa
    rw [tighten_succ, hso]
    by_cases hsp : x.getLast?.getD 0 - x.headD 0 ≤ ms
    · rw [if_pos hsp]
      exact ⟨hsa, hin, rfl, forall2_pc_refl x⟩
    · rw [if_neg hsp]
      obtain ⟨hps, hpi, hpl, hpf⟩ := pullDownPass_spec lo hi x hsa hin
      have hxne : x ≠ [] := by
        intro hnil
        rw [hnil] at hsp
        simp only [List.getLast?_nil, Option.getD_none, List.headD_nil] at hsp
        omega
      generalize hE : pullDownPass lo x = p
      rw [hE] at hps hpi hpl hpf
      clear hE
      rcases p with ⟨x2, c⟩
      dsimp only at hps hpi hpl hpf ⊢
      have hx2ne : x2 ≠ [] := by
        intro hnil
        rw [hnil, List.length_nil] at hpl
        exact hxne (List.length_eq_zero.mp hpl.symm)
      rcases x2 with _ | ⟨h2, t2⟩
      · exact absurd rfl hx2ne
      dsimp only
      have hx2id : h2 :: raiseTail h2 t2 = h2 :: t2 := by
        rw [raiseTail_id t2 h2 hps]
      rw [hx2id]
      have hfix : fitChordToRange (h2 :: t2) lo hi = h2 :: t2 :=
        fitChordToRange_fixed (h2 :: t2) lo hi h0 h127 hx2ne hps hpi
      rw [hfix]
      cases c with
      | false =>
        rw [if_neg (by simp)]
        exact ⟨hps, hpi, hpl, hpf⟩
      | true =>
        rw [if_pos rfl]
        obtain ⟨ihs, ihi, ihl, ihf⟩ := ih (h2 :: t2) hps hpi
        exact ⟨ihs, ihi, by rw [ihl, hpl], forall2_pc_trans hpf ihf⟩

theorem enforceBassBelowC4Safe_nil (lo hi : Int) : enforceBassBelowC4Safe [] lo hi = [] := rfl

theorem enforceBassBelowC4Safe_cons (x0 : Int) (rest : List Int) (lo hi : Int) :
    enforceBassBelowC4Safe (x0 :: rest) lo hi =
      (if lo ≥ 60 then fitChordToRange (x0 :: rest) lo hi
       else match (sortAsc (x0 :: rest)).map (fun n => clamp n 0 127) with
        | [] => []
        | y0 :: yrest =>
          fitChordToRange (wrapUp lo (dropBelow 60 y0) ::
            raiseTail (wrapUp lo (dropBelow 60 y0)) yrest) lo hi) := rfl

theorem enforceBassBelowC4Safe_spec (x : List Int) (lo hi : Int)
    (h0 : 0 ≤ lo) (h127 : hi ≤ 127)
    (hsa : StrictAsc x) (hin : InRange lo hi x)
    (hlen : (x.length : Int) ≤ 4)
    (hw : lo + 11 + 12 * ((x.length : Int) - 1) ≤ hi) :
    StrictAsc (enforceBassBelowC4Safe x lo hi) ∧ InRange lo hi (enforceBassBelowC4Safe x lo hi) ∧
    (enforceBassBelowC4Safe x lo hi).length = x.length ∧
    List.Forall₂ (fun a b => pcOf b = pcOf a) x (enforceBassBelowC4Safe x lo hi) := by
  match x with
  | [] =>
    rw [enforceBassBelowC4Safe_nil]
    exact ⟨hsa, hin, rfl, List.Forall₂.nil⟩
  | x0 :: rest =>
    rw [enforceBassBelowC4Safe_cons]
    have hx0 := hin x0 (List.mem_cons_self _ _)
    have hrest : ∀ y ∈ rest, lo ≤ y ∧ y ≤ hi :=
      fun y hy => hin y (List.mem_cons_of_mem _ hy)
    have hxlen : ((x0 :: rest).length : Int) = (rest.length : Int) + 1 := by
      simp [List.length_cons]
    have hrlen0 : (0 : Int) ≤ (rest.length : Int) := by positivity
    have hwl : lo + 11 ≤ hi := by omega
    by_cases h60 : lo ≥ 60
    · rw [if_pos h60]
      rw [fitChordToRange_fixed (x0 :: rest) lo hi h0 h127 (List.cons_ne_nil _ _) hsa hin]
      exact ⟨hsa, hin, rfl, forall2_pc_refl _⟩
    · rw [if_neg h60]
      have hscl : (sortAsc (x0 :: rest)).map (fun n => clamp n 0 127) = x0 :: rest := by
        rw [strictAsc_sortAsc_eq hsa]
        have h1 : (x0 :: rest).map (fun n => clamp n 0 127) = (x0 :: rest).map id := by
          apply List.map_congr_left
          intro n hn
          have := hin n hn
          show clamp n 0 127 = n
          exact clamp_eq_self (by omega) (by omega)
        rw [h1, List.map_id]
      rw [hscl]
      dsimp only
      -- the new bass
      have hd1 := dropBelow_le_self 60 x0
      have hd2 := dropBelow_ge_min 60 x0
      have hd3 := dropBelow_pc 60 x0
      have hb1 := wrapUp_ge lo (dropBelow 60 x0) (by omega)
      have hb2 := wrapUp_le_max lo (dropBelow 60 x0)
      have hb3 := wrapUp_pc lo (dropBelow 60 x0)
      obtain ⟨hrt_sa, hrt_pc, hrt_b⟩ := raiseTail_spec lo hi rest (wrapUp lo (dropBelow 60 x0))
        hrest (by omega) (by omega)
      have hrt_gt : ∀ z ∈ raiseTail (wrapUp lo (dropBelow 60 x0)) rest,
          wrapUp lo (dropBelow 60 x0) < z := (List.pairwise_cons.mp hrt_sa).1
      have hLbnd : ∀ n ∈ wrapUp lo (dropBelow 60 x0) ::
          raiseTail (wrapUp lo (dropBelow 60 x0)) rest, -24 ≤ n ∧ n ≤ 199 := by
        intro n hn
        rcases List.mem_cons.mp hn with h1 | h2
        · constructor <;> omega
        · have := hrt_b n h2
          have := hrt_gt n h2
          constructor <;> omega
      have hrt_len : (raiseTail (wrapUp lo (dropBelow 60 x0)) rest).length = rest.length :=
        (List.Forall₂.length_eq hrt_pc).symm
      obtain ⟨hfa, hfb, hfc, hfd⟩ := fitChordToRange_spec
        (wrapUp lo (dropBelow 60 x0) :: raiseTail (wrapUp lo (dropBelow 60 x0)) rest) lo hi
        h0 h127 (List.cons_ne_nil _ _) (strictAsc_nodup hrt_sa) hLbnd
        (by simp only [List.length_cons, hrt_len]; push_cast; omega)
      rw [strictAsc_sortAsc_eq hrt_sa] at hfd
      have hpcL : List.Forall₂ (fun a b => pcOf b = pcOf a) (x0 :: rest)
          (wrapUp lo (dropBelow 60 x0) :: raiseTail (wrapUp lo (dropBelow 60 x0)) rest) :=
        List.Forall₂.cons (by rw [hb3, hd3]) hrt_pc
      refine ⟨hfa, hfb, ?_, forall2_pc_trans hpcL hfd⟩
      rw [hfc]
      simp [List.length_cons, hrt_len]

theorem lastResortBody_small (lo hi : Int) (x : List Int)
    (h0 : 0 ≤ lo) (h127 : hi ≤ 127) (hne : x ≠ [])
    (hsa : StrictAsc x) (hin : InRange lo hi x) (hlen : x.length < 3) :
    lastResortBody lo hi x = x := by
  have hfix := fitChordToRange_fixed x lo hi h0 h127 hne hsa hin
  match x, hlen with
  | [a], _ =>
    show sortAsc (fitChordToRange [a] lo hi) = [a]
    rw [hfix]
    exact strictAsc_sortAsc_eq hsa
  | [a, b], _ =>
    show sortAsc (fitChordToRange [a, b] lo hi) = [a, b]
    rw [hfix]
    exact strictAsc_sortAsc_eq hsa

theorem lastResortBody_cons (lo hi a b c : Int) (rest : List Int) :
    lastResortBody lo hi (a :: b :: c :: rest) =
      sortAsc (fitChordToRange
        (a :: b :: (if c - 12 ≤ b then c - 12 + 12 else c - 12) :: rest) lo hi) := rfl

theorem lastResortBody_spec (lo hi : Int) (x : List Int)
    (h0 : 0 ≤ lo) (h127 : hi ≤ 127) (hne : x ≠ [])
    (hsa : StrictAsc x) (hin : InRange lo hi x) :
    StrictAsc (lastResortBody lo hi x) ∧ InRange lo hi (lastResortBody lo hi x) ∧
    (lastResortBody lo hi x).length = x.length ∧
    List.Forall₂ (fun p q => pcOf q = pcOf p) x (lastResortBody lo hi x) := by
  match x with
  | [a] =>
    rw [lastResortBody_small lo hi [a] h0 h127 hne hsa hin (by simp)]
    exact ⟨hsa, hin, rfl, forall2_pc_refl _⟩
  | [a, b] =>
    rw [lastResortBody_small lo hi [a, b] h0 h127 hne hsa hin (by simp)]
    exact ⟨hsa, hin, rfl, forall2_pc_refl _⟩
  | a :: b :: c :: rest =>
    rw [lastResortBody_cons]
    have hab : a < b := (List.pairwise_cons.mp hsa).1 b (List.mem_cons_self _ _)
    have hsb : StrictAsc (b :: c :: rest) := (List.pairwise_cons.mp hsa).2
    have hbc : b < c := (List.pairwise_cons.mp hsb).1 c (List.mem_cons_self _ _)
    have hsc : StrictAsc (c :: rest) := (List.pairwise_cons.mp hsb).2
    have hcr : ∀ z ∈ rest, c < z := (List.pairwise_cons.mp hsc).1
    have hsr : StrictAsc rest := (List.pairwise_cons.mp hsc).2
    have ha := hin a (List.mem_cons_self _ _)
    have hb := hin b (List.mem_cons_of_mem _ (List.mem_cons_self _ _))
    have hc := hin c (List.mem_cons_of_mem _ (List.mem_cons_of_mem _ (List.mem_cons_self _ _)))
    have hrb : ∀ z ∈ rest, lo ≤ z ∧ z ≤ hi := fun z hz =>
      hin z (List.mem_cons_of_mem _ (List.mem_cons_of_mem _ (List.mem_cons_of_mem _ hz)))
    have hgen : ∀ c2 : Int, b < c2 → c2 ≤ c → pcOf c2 = pcOf c →
        StrictAsc (sortAsc (fitChordToRange (a :: b :: c2 :: rest) lo hi)) ∧
        InRange lo hi (sortAsc (fitChordToRange (a :: b :: c2 :: rest) lo hi)) ∧
        (sortAsc (fitChordToRange (a :: b :: c2 :: rest) lo hi)).length =
          (a :: b :: c :: rest).length ∧
        List.Forall₂ (fun p q => pcOf q = pcOf p) (a :: b :: c :: rest)
          (sortAsc (fitChordToRange (a :: b :: c2 :: rest) lo hi)) := by
      intro c2 hbc2 hc2c hpc2
      have hLsa : StrictAsc (a :: b :: c2 :: rest) := by
        refine strictAsc_cons_cons hab (strictAsc_cons_cons hbc2
          (strictAsc_cons_of c2 hsr ?_))
        intro z hz
        have := hcr z hz
        omega
      have hLin : InRange lo hi (a :: b :: c2 :: rest) := by
        intro n hn
        rcases List.mem_cons.mp hn with h1 | hn'
        · omega
        rcases List.mem_cons.mp hn' with h2 | hn''
        · omega
        rcases List.mem_cons.mp hn'' with h3 | hn3
        · constructor <;> omega
        · exact hrb n hn3
      have hfix := fitChordToRange_fixed (a :: b :: c2 :: rest) lo hi h0 h127
        (List.cons_ne_nil _ _) hLsa hLin
      rw [hfix, strictAsc_sortAsc_eq hLsa]
      exact ⟨hLsa, hLin, rfl,
        List.Forall₂.cons rfl (List.Forall₂.cons rfl (List.Forall₂.cons hpc2
          (forall2_pc_refl rest)))⟩
    by_cases hcb : c - 12 ≤ b
    · rw [if_pos hcb]
      exact hgen (c - 12 + 12) (by omega) (by omega) (by rw [show c - 12 + 12 = c by omega])
    · rw [if_neg hcb]
      exact hgen (c - 12) (by omega) (by omega) (pcOf_sub_12 c)

theorem lastResortLoop_zero (lo hi ms : Int) (x : List Int) :
    lastResortLoop lo hi ms 0 x = x := rfl

theorem lastResortLoop_succ (lo hi ms : Int) (f : Nat) (x : List Int) :
    lastResortLoop lo hi ms (f + 1) x =
      (if x.length ≥ 3 ∧ x.getD 2 0 - x.getD 0 0 > ms + 12 then
        lastResortLoop lo hi ms f (lastResortBody lo hi x)
       else x) := rfl

theorem lastResortLoop_spec (lo hi ms : Int) (h0 : 0 ≤ lo) (h127 : hi ≤ 127) :
    ∀ (f : Nat) (x : List Int), StrictAsc x → InRange lo hi x →
    StrictAsc (lastResortLoop lo hi ms f x) ∧ InRange lo hi (lastResortLoop lo hi ms f x) ∧
    (lastResortLoop lo hi ms f x).length = x.length ∧
    List.Forall₂ (fun p q => pcOf q = pcOf p) x (lastResortLoop lo hi ms f x) := by
  intro f
  induction f with
  | zero =>
    intro x hsa hin
    rw [lastResortLoop_zero]
    exact ⟨hsa, hin, rfl, forall2_pc_refl x⟩
  | succ f ih =>
    intro x hsa hin
    rw [lastResortLoop_succ]
    by_cases hcond : x.length ≥ 3 ∧ x.getD 2 0 - x.getD 0 0 > ms + 12
    · rw [if_pos hcond]
      have hne : x ≠ [] := by
        intro hnil
        rw [hnil] at hcond
        simp at hcond
      obtain ⟨hbs, hbi, hbl, hbf⟩ := lastResortBody_spec lo hi x h0 h127 hne hsa hin
      obtain ⟨ihs, ihi, ihl, ihf⟩ := ih (lastResortBody lo hi x) hbs hbi
      exact ⟨ihs, ihi, by rw [ihl, hbl], forall2_pc_trans hbf ihf⟩
    · rw [if_neg hcond]
      exact ⟨hsa, hin, rfl, forall2_pc_refl x⟩

theorem enforceTriadSpacingSafe_eq (ch : List Int) (lo hi minSep ms : Int)
    (h : ¬ ch.length < 2) :
    enforceTriadSpacingSafe ch lo hi minSep ms =
      sortAsc (lastResortLoop lo hi ms 8 (sortAsc (enforceBassBelowC4Safe
        (tighten lo hi ms 8 (spacingStep1 lo hi minSep
          (fitChordToRange (sortAsc ch) lo hi))) lo hi))) := by
  unfold enforceTriadSpacingSafe
  rw [if_neg h]

theorem enforceTriadSpacingSafe_spec (ch : List Int) (lo hi minSep ms : Int)
    (h0 : 0 ≤ lo) (h127 : hi ≤ 127)
    (hmsep0 : 0 ≤ minSep) (hmsep1 : minSep ≤ 30) (hms0 : 0 ≤ ms)
    (hlen2 : 2 ≤ ch.length) (hlen4 : (ch.length : Int) ≤ 4)
    (hnd : ch.Nodup) (hbnd : ∀ n ∈ ch, -24 ≤ n ∧ n ≤ 199)
    (hw : lo + 11 + 12 * ((ch.length : Int) - 1) ≤ hi) :
    StrictAsc (enforceTriadSpacingSafe ch lo hi minSep ms) ∧
    InRange lo hi (enforceTriadSpacingSafe ch lo hi minSep ms) ∧
    (enforceTriadSpacingSafe ch lo hi minSep ms).length = ch.length ∧
    List.Forall₂ (fun a b => pcOf b = pcOf a) (sortAsc ch)
      (enforceTriadSpacingSafe ch lo hi minSep ms) := by
  rw [enforceTriadSpacingSafe_eq ch lo hi minSep ms (by omega)]
  have hne : ch ≠ [] := by
    intro hnil
    rw [hnil] at hlen2
    simp at hlen2
  -- stage 1: fit to range
  obtain ⟨h1s, h1i, h1l, h1f⟩ := fitChordToRange_spec (sortAsc ch) lo hi h0 h127
    (by
      intro hnil
      have := sortAsc_length ch
      rw [hnil, List.length_nil] at this
      exact hne (List.length_eq_zero.mp this.symm))
    (sortAsc_nodup hnd)
    (fun n hn => hbnd n ((sortAsc_mem ch n).mp hn))
    (by rw [sortAsc_length]; exact hw)
  rw [sortAsc_eq_self (sortAsc_sorted ch)] at h1f
  rw [sortAsc_length] at h1l
  -- stage 2: minimum separation above the bass
  obtain ⟨h2s, h2i, h2l, h2f⟩ := spacingStep1_spec lo hi minSep
    (fitChordToRange (sortAsc ch) lo hi) h0 h127 hmsep0 hmsep1 h1s h1i
    (by rw [h1l]; exact hlen4) (by rw [h1l]; exact hw)
  -- stage 3: spread tightening
  obtain ⟨h3s, h3i, h3l, h3f⟩ := tighten_spec lo hi ms h0 h127 hms0 8
    (spacingStep1 lo hi minSep (fitChordToRange (sortAsc ch) lo hi)) h2s h2i
  -- stage 4: bass below C4
  obtain ⟨h4s, h4i, h4l, h4f⟩ := enforceBassBelowC4Safe_spec
    (tighten lo hi ms 8 (spacingStep1 lo hi minSep (fitChordToRange (sortAsc ch) lo hi)))
    lo hi h0 h127 h3s h3i (by rw [h3l, h2l, h1l]; exact hlen4)
    (by rw [h3l, h2l, h1l]; exact hw)
  -- stage 5: the sort is the identity
  rw [strictAsc_sortAsc_eq h4s]
  -- stage 6: last resort loop
  obtain ⟨h6s, h6i, h6l, h6f⟩ := lastResortLoop_spec lo hi ms h0 h127 8
    (enforceBassBelowC4Safe
      (tighten lo hi ms 8 (spacingStep1 lo hi minSep (fitChordToRange (sortAsc ch) lo hi)))
      lo hi) h4s h4i
  rw [strictAsc_sortAsc_eq h6s]
  refine ⟨h6s, h6i, by rw [h6l, h4l, h3l, h2l, h1l], ?_⟩
  exact forall2_pc_trans h1f (forall2_pc_trans h2f (forall2_pc_trans h3f
    (forall2_pc_trans h4f h6f)))

theorem chain'_of_count (P : Int → Prop) :
    ∀ l : List Int, (∀ a : Int, 2 ≤ l.count a → P a) →
    List.Chain' (fun a b => a = b → P a) l := by
  intro l
  induction l with
  | nil => intro _; exact List.chain'_nil
  | cons x t iht =>
    intro h
    cases t with
    | nil => exact List.chain'_singleton x
    | cons y t2 =>
      rw [List.chain'_cons]
      constructor
      · intro hxy
        apply h x
        subst hxy
        rw [List.count_cons_self, List.count_cons_self]
        omega
      · apply iht
        intro a ha
        apply h a
        have hmono : (x :: y :: t2).count a = (y :: t2).count a + if x == a then 1 else 0 :=
          List.count_cons a x (y :: t2)
        split at hmono <;> omega

theorem chain'_sortAsc_cons_bass (P : Int → Prop) (bass : Int) (chord : List Int)
    (hnd : chord.Nodup) (hP : P bass) :
    List.Chain' (fun a b => a = b → P a) (sortAsc (bass :: chord)) := by
  apply chain'_of_count
  intro a ha
  have hperm : (sortAsc (bass :: chord)).count a = (bass :: chord).count a :=
    (sortAsc_perm _).count_eq a
  rw [hperm] at ha
  have hcons : (bass :: chord).count a = chord.count a + if bass == a then 1 else 0 :=
    List.count_cons a bass chord
  have hle1 : chord.count a ≤ 1 := List.nodup_iff_count_le_one.mp hnd a
  have haeq : a = bass := by
    by_contra hne
    rw [hcons] at ha
    have : (bass == a) = false := beq_eq_false_iff_ne.mpr (fun h => hne h.symm)
    rw [this] at ha
    simp at ha
    omega
  rw [haeq]
  exact hP

theorem chain'_of_strictAsc (P : Int → Prop) {l : List Int} (h : StrictAsc l) :
    List.Chain' (fun a b => a = b → P a) l :=
  (h.chain').imp (fun a b hab heq => absurd heq (by omega))

theorem fitChordToRange_spec_dup (ch : List Int) (lo hi : Int)
    (h0 : 0 ≤ lo) (h127 : hi ≤ 127) (hne : ch ≠ [])
    (hin : ∀ n ∈ ch, lo ≤ n ∧ n ≤ hi)
    (hdup : List.Chain' (fun a b => a = b → a ≤ lo + 11) (sortAsc ch))
    (hw : lo + 11 + 12 * ((ch.length : Int) - 1) ≤ hi) :
    StrictAsc (fitChordToRange ch lo hi) ∧
    (∀ n ∈ fitChordToRange ch lo hi, lo ≤ n ∧ n ≤ hi) ∧
    (fitChordToRange ch lo hi).length = ch.length ∧
    List.Forall₂ (fun a b => pcOf b = pcOf a) (sortAsc ch) (fitChordToRange ch lo hi) := by
  have hslen : (sortAsc ch).length = ch.length := sortAsc_length ch
  have hchpos : 0 < ch.length := List.length_pos.mpr hne
  have hsne : sortAsc ch ≠ [] := by
    intro h0'
    rw [h0', List.length_nil] at hslen
    omega
  have hss : List.Sorted (· ≤ ·) (sortAsc ch) := sortAsc_sorted ch
  have hsb : ∀ n ∈ sortAsc ch, lo ≤ n ∧ n ≤ hi :=
    fun n hn => hin n ((sortAsc_mem ch n).mp hn)
  have hchlen1 : (1 : Int) ≤ (ch.length : Int) := by exact_mod_cast hchpos
  have hwl : lo + 11 ≤ hi := by omega
  have hminmem := minL_mem (sortAsc ch) hsne
  have hmaxmem := maxL_mem (sortAsc ch) hsne
  have hup : listUp lo (sortAsc ch) = sortAsc ch :=
    listUp_eq lo (sortAsc ch) (hsb _ hminmem).1
  have hdown : listDown hi (sortAsc ch) = sortAsc ch :=
    listDown_eq hi (sortAsc ch) (hsb _ hmaxmem).2
  obtain ⟨y0, yt, hd_cons⟩ := List.exists_cons_of_ne_nil hsne
  have hy0b : lo ≤ y0 ∧ y0 ≤ hi := hsb y0 (by rw [hd_cons]; exact List.mem_cons_self _ _)
  obtain ⟨hz0lo, hz0hi, hz0max, hz0ge, hz0pc, hz0id⟩ :=
    fitNote_none_spec lo hi y0 h0 hwl h127 (by omega) hy0b.2
  have hz0 : fitNote lo hi none y0 = y0 := hz0id hy0b.1
  have hytlen : (yt.length : Int) = (ch.length : Int) - 1 := by
    have : (sortAsc ch).length = yt.length + 1 := by
      rw [hd_cons, List.length_cons]
    rw [hslen] at this
    omega
  have hss' : List.Sorted (· ≤ ·) (y0 :: yt) := hd_cons ▸ hss
  have hch' : List.Chain' (fun a b => a = b → a ≤ lo + 11) (y0 :: yt) := hd_cons ▸ hdup
  have hyle : ∀ y' ∈ yt, y0 ≤ y' := (List.pairwise_cons.mp hss').1
  have hdisj : fitNote lo hi none y0 ≤ lo + 11 + 12 * ((0 : Nat) : Int) ∨
      ∀ y ∈ yt, fitNote lo hi none y0 < y := by
    rw [hz0]
    by_cases hnext : ∀ y' ∈ yt, y0 < y'
    · exact Or.inr hnext
    · left
      push_neg at hnext
      obtain ⟨y', hy', hy'le⟩ := hnext
      match yt, hy', hyle with
      | h' :: t', hy', hyle =>
        have hh'y0 : h' = y0 := by
          rcases List.mem_cons.mp hy' with h1 | h2
          · have h4 := hyle h' (List.mem_cons_self _ _)
            omega
          · have h3 := (List.pairwise_cons.mp (List.pairwise_cons.mp hss').2).1 y' h2
            have h4 := hyle h' (List.mem_cons_self _ _)
            omega
        have hbound : y0 ≤ lo + 11 := (List.chain'_cons.mp hch').1 hh'y0.symm
        push_cast
        omega
  obtain ⟨hgb, hgs, hgf⟩ := fitNotesGo_spec lo hi h0 h127 yt (fitNote lo hi none y0) 0
    (by push_cast; omega)
    (List.pairwise_cons.mp hss').2
    hch'.tail
    (fun y' hy' => by
      have := hsb y' (by rw [hd_cons]; exact List.mem_cons_of_mem _ hy')
      omega)
    hz0lo hz0hi hdisj
  have hfin : fitNotes lo hi (sortAsc ch) =
      fitNote lo hi none y0 :: fitNotesGo lo hi (fitNote lo hi none y0) yt := by
    rw [hd_cons, fitNotes_cons]
  have hf_b : ∀ n ∈ fitNote lo hi none y0 :: fitNotesGo lo hi (fitNote lo hi none y0) yt,
      lo ≤ n ∧ n ≤ hi := by
    intro n hn
    rcases List.mem_cons.mp hn with h1 | h2
    · constructor
      · rw [h1]; exact hz0lo
      · rw [h1]; exact hz0hi
    · exact hgb n h2
  have hf_pc : List.Forall₂ (fun a b => pcOf b = pcOf a) (sortAsc ch)
      (fitNote lo hi none y0 :: fitNotesGo lo hi (fitNote lo hi none y0) yt) := by
    rw [hd_cons]
    exact List.Forall₂.cons hz0pc hgf
  have hf_ne : fitNote lo hi none y0 :: fitNotesGo lo hi (fitNote lo hi none y0) yt ≠ [] :=
    List.cons_ne_nil _ _
  have hf_minb := hf_b _ (minL_mem _ hf_ne)
  have hf_maxb := hf_b _ (maxL_mem _ hf_ne)
  have hup2 := listUp_eq lo (fitNote lo hi none y0 ::
    fitNotesGo lo hi (fitNote lo hi none y0) yt) hf_minb.1
  have hdown2 := listDown_eq hi (fitNote lo hi none y0 ::
    fitNotesGo lo hi (fitNote lo hi none y0) yt) hf_maxb.2
  have hclamp : (fitNote lo hi none y0 :: fitNotesGo lo hi (fitNote lo hi none y0) yt).map
      (fun n => clamp n 0 127) =
      fitNote lo hi none y0 :: fitNotesGo lo hi (fitNote lo hi none y0) yt := by
    have h1 : (fitNote lo hi none y0 :: fitNotesGo lo hi (fitNote lo hi none y0) yt).map
        (fun n => clamp n 0 127) =
        (fitNote lo hi none y0 :: fitNotesGo lo hi (fitNote lo hi none y0) yt).map id := by
      apply List.map_congr_left
      intro x hx
      have := hf_b x hx
      show clamp x 0 127 = x
      exact clamp_eq_self (by omega) (by omega)
    rw [h1, List.map_id]
  have hfit : fitChordToRange ch lo hi =
      fitNote lo hi none y0 :: fitNotesGo lo hi (fitNote lo hi none y0) yt := by
    rw [fitChordToRange_eq ch lo hi hsne, hup, hdown, hfin, hup2, hdown2, hclamp,
      strictAsc_sortAsc_eq hgs]
  rw [hfit]
  refine ⟨hgs, hf_b, ?_, hf_pc⟩
  have := List.Forall₂.length_eq hf_pc
  rw [← this, hslen]

set_option maxHeartbeats 2000000 in
theorem midiNear_chk : midiNearChk = true := by decide

theorem midiNear_spec (pc t : Int) (hpc0 : 0 ≤ pc) (hpc1 : pc < 12)
    (ht0 : -24 ≤ t) (ht1 : t ≤ 166) :
    0 ≤ midiNear pc t ∧ midiNear pc t ≤ 127 ∧ (0 ≤ t → t ≤ 143 → pcOf (midiNear pc t) = pc) ∧
    (0 ≤ t → t ≤ 127 → midiNear pc t - t ≤ 11 ∧ t - midiNear pc t ≤ 11) ∧
    (6 ≤ t → t ≤ 121 → midiNear pc t - t ≤ 6 ∧ t - midiNear pc t ≤ 6) := by
  have h := midiNear_chk
  unfold midiNearChk at h
  simp only [List.all_eq_true, List.mem_range, decide_eq_true_eq] at h
  have h2 := h (t + 24).toNat (by omega) pc.toNat (by omega)
  rw [show (((t + 24).toNat : Nat) : Int) - 24 = t by omega,
    show ((pc.toNat : Nat) : Int) = pc by omega] at h2
  exact h2

theorem sortAsc_congr_perm {a b : List Int} (h : a.Perm b) : sortAsc a = sortAsc b :=
  List.eq_of_perm_of_sorted ((sortAsc_perm a).trans (h.trans (sortAsc_perm b).symm))
    (sortAsc_sorted a) (sortAsc_sorted b)

theorem triadPCs_parts (p : Int) (q : String) :
    triadPCs p q = [p, (p + if q = "min" then 3 else 4) % 12, (p + 7) % 12] := rfl

theorem voiceClose_eq (r : Int) (q : String) :
    voiceClose r q =
      sortAsc ((match sortAsc [r, midiNear ((triadPCs (r % 12) q).getD 1 0) (r + 4),
        midiNear ((triadPCs (r % 12) q).getD 2 0) (r + 7)] with
        | [] => [] | h :: tl => h :: raiseTail h tl).map (fun n => clamp n 0 127)) := rfl

theorem voiceClose_spec (r : Int) (q : String) (h6 : 6 ≤ r) (h110 : r ≤ 110) :
    StrictAsc (voiceClose r q) ∧
    (voiceClose r q).length = 3 ∧
    (∀ n ∈ voiceClose r q, r - 2 ≤ n ∧ n ≤ r + 13 ∧ 0 ≤ n ∧ n ≤ 127) ∧
    pcListSorted (voiceClose r q) = sortAsc (triadPCs (r % 12) q) := by
  have hth : (if q = "min" then (3:Int) else 4) = 3 ∨ (if q = "min" then (3:Int) else 4) = 4 := by
    by_cases hq : q = "min" <;> simp [hq]
  have hg1 : (triadPCs (r % 12) q).getD 1 0 = (r % 12 + if q = "min" then 3 else 4) % 12 := by
    rw [triadPCs_parts]
    rfl
  have hg2 : (triadPCs (r % 12) q).getD 2 0 = (r % 12 + 7) % 12 := by
    rw [triadPCs_parts]
    rfl
  obtain ⟨ht1, ht2, ht3c, ht45, ht6⟩ := midiNear_spec ((triadPCs (r % 12) q).getD 1 0) (r + 4)
    (by rw [hg1]; omega) (by rw [hg1]; omega) (by omega) (by omega)
  obtain ⟨hf1, hf2, hf3c, hf45, hf6⟩ := midiNear_spec ((triadPCs (r % 12) q).getD 2 0) (r + 7)
    (by rw [hg2]; omega) (by rw [hg2]; omega) (by omega) (by omega)
  have ht3 := ht3c (by omega) (by omega)
  have hf3 := hf3c (by omega) (by omega)
  obtain ⟨ht7, ht8⟩ := ht6 (by omega) (by omega)
  obtain ⟨hf7, hf8⟩ := hf6 (by omega) (by omega)
  have hpcr : pcOf r = r % 12 := by unfold pcOf; omega
  have hrt : r ≠ midiNear ((triadPCs (r % 12) q).getD 1 0) (r + 4) := by
    intro he
    rw [← he, hpcr, hg1] at ht3
    omega
  have hrf : r ≠ midiNear ((triadPCs (r % 12) q).getD 2 0) (r + 7) := by
    intro he
    rw [← he, hpcr, hg2] at hf3
    omega
  have htf : midiNear ((triadPCs (r % 12) q).getD 1 0) (r + 4) ≠
      midiNear ((triadPCs (r % 12) q).getD 2 0) (r + 7) := by
    intro he
    rw [he, hf3, hg1, hg2] at ht3
    omega
  have hnd : ([r, midiNear ((triadPCs (r % 12) q).getD 1 0) (r + 4),
      midiNear ((triadPCs (r % 12) q).getD 2 0) (r + 7)] : List Int).Nodup := by
    simp only [List.nodup_cons, List.mem_cons, List.mem_singleton, List.not_mem_nil,
      or_false, List.nodup_nil, and_true, not_or]
    exact ⟨⟨hrt, hrf⟩, htf, not_false⟩
  have hsa : StrictAsc (sortAsc [r, midiNear ((triadPCs (r % 12) q).getD 1 0) (r + 4),
      midiNear ((triadPCs (r % 12) q).getD 2 0) (r + 7)]) := sortAsc_strictAsc hnd
  have hlen : (sortAsc [r, midiNear ((triadPCs (r % 12) q).getD 1 0) (r + 4),
      midiNear ((triadPCs (r % 12) q).getD 2 0) (r + 7)]).length = 3 := by
    rw [sortAsc_length]
    rfl
  have hne : sortAsc [r, midiNear ((triadPCs (r % 12) q).getD 1 0) (r + 4),
      midiNear ((triadPCs (r % 12) q).getD 2 0) (r + 7)] ≠ [] := by
    intro h
    rw [h] at hlen
    simp at hlen
  have hmem : ∀ n ∈ sortAsc [r, midiNear ((triadPCs (r % 12) q).getD 1 0) (r + 4),
      midiNear ((triadPCs (r % 12) q).getD 2 0) (r + 7)],
      r - 2 ≤ n ∧ n ≤ r + 13 ∧ 0 ≤ n ∧ n ≤ 127 := by
    intro n hn
    rw [sortAsc_mem] at hn
    rcases List.mem_cons.mp hn with h1 | hn'
    · refine ⟨by omega, by omega, by omega, by omega⟩
    rcases List.mem_cons.mp hn' with h2 | hn''
    · rw [h2]
      refine ⟨by omega, by omega, by omega, by omega⟩
    rcases List.mem_cons.mp hn'' with h3 | hn3
    · rw [h3]
      refine ⟨by omega, by omega, by omega, by omega⟩
    · cases hn3
  have hid : voiceClose r q = sortAsc [r, midiNear ((triadPCs (r % 12) q).getD 1 0) (r + 4),
      midiNear ((triadPCs (r % 12) q).getD 2 0) (r + 7)] := by
    rw [voiceClose_eq]
    obtain ⟨a, tl, hc⟩ := List.exists_cons_of_ne_nil hne
    rw [hc]
    dsimp only
    rw [raiseTail_id tl a (hc ▸ hsa)]
    have hclamp : ((a :: tl).map (fun n => clamp n 0 127)) = a :: tl := by
      have h1 : ((a :: tl).map (fun n => clamp n 0 127)) = (a :: tl).map id := by
        apply List.map_congr_left
        intro x hx
        have := hmem x (hc ▸ hx)
        show clamp x 0 127 = x
        exact clamp_eq_self (by omega) (by omega)
      rw [h1, List.map_id]
    rw [hclamp, ← hc, strictAsc_sortAsc_eq hsa]
  rw [hid]
  refine ⟨hsa, hlen, hmem, ?_⟩
  unfold pcListSorted
  have hperm : (sortAsc [r, midiNear ((triadPCs (r % 12) q).getD 1 0) (r + 4),
      midiNear ((triadPCs (r % 12) q).getD 2 0) (r + 7)]).map pcOf |>.Perm
      (([r, midiNear ((triadPCs (r % 12) q).getD 1 0) (r + 4),
      midiNear ((triadPCs (r % 12) q).getD 2 0) (r + 7)]).map pcOf) :=
    (sortAsc_perm _).map pcOf
  rw [sortAsc_congr_perm hperm]
  have hmap : ([r, midiNear ((triadPCs (r % 12) q).getD 1 0) (r + 4),
      midiNear ((triadPCs (r % 12) q).getD 2 0) (r + 7)]).map pcOf =
      triadPCs (r % 12) q := by
    show [pcOf r, pcOf (midiNear ((triadPCs (r % 12) q).getD 1 0) (r + 4)),
      pcOf (midiNear ((triadPCs (r % 12) q).getD 2 0) (r + 7))] = triadPCs (r % 12) q
    rw [hpcr, ht3, hf3, hg1, hg2, triadPCs_parts]
  rw [hmap]

theorem getD_mem_of_lt : ∀ (l : List Int) (n : Nat), n < l.length → l.getD n 0 ∈ l := by
  intro l
  induction l with
  | nil =>
    intro n h
    simp at h
  | cons a t ih =>
    intro n h
    cases n with
    | zero => exact List.mem_cons_self _ _
    | succ m =>
      show t.getD m 0 ∈ a :: t
      refine List.mem_cons_of_mem _ (ih m ?_)
      rw [List.length_cons] at h
      omega

theorem foldl_preserve {α β : Type} (P : β → Prop) (f : β → α → β) (l : List α) (b : β)
    (hb : P b) (hf : ∀ b' a, a ∈ l → P b' → P (f b' a)) : P (l.foldl f b) := by
  induction l generalizing b with
  | nil => exact hb
  | cons x t ih =>
    exact ih (f b x) (hf b x (List.mem_cons_self _ _) hb)
      (fun b' a ha hb' => hf b' a (List.mem_cons_of_mem _ ha) hb')

theorem midiNear_mem (pc t : Int) (hpc0 : 0 ≤ pc) (hpc1 : pc < 12)
    (ht0 : -24 ≤ t) (ht1 : t ≤ 166) : 0 ≤ midiNear pc t ∧ midiNear pc t ≤ 127 := by
  have h := midiNear_spec pc t hpc0 hpc1 ht0 ht1
  exact ⟨h.1, h.2.1⟩

theorem stackedAt_eq (chord : List Int) (lo hi : Int) (idx : Nat) :
    stackedAt chord lo hi idx =
      enforceTriadSpacingSafe (fitChordToRange
        (match sortAsc (((wrapUp lo (wrapDown (if lo < 60 then (59:Int) else hi)
          (chord.getD idx 0))) :: chord.eraseIdx idx).map (fun n => clamp n 0 127)) with
         | [] => [] | h :: t => h :: raiseTail h t) lo hi) lo hi 7 19 := rfl

theorem stackedAt_spec (chord : List Int) (lo hi : Int) (idx : Nat)
    (h0 : 0 ≤ lo) (h127 : hi ≤ 127) (hw : lo + 47 ≤ hi)
    (_hsa : StrictAsc chord) (hin : InRange lo hi chord) (hlen : chord.length = 3)
    (hidx : idx < 3) :
    StrictAsc (stackedAt chord lo hi idx) ∧ InRange lo hi (stackedAt chord lo hi idx) ∧
    (stackedAt chord lo hi idx).length = 3 := by
  rw [stackedAt_eq]
  have hn0mem : chord.getD idx 0 ∈ chord := getD_mem_of_lt chord idx (by omega)
  have hn0 := hin _ hn0mem
  have herase_sub : ∀ y ∈ chord.eraseIdx idx, y ∈ chord :=
    fun y hy => List.mem_of_mem_eraseIdx hy
  have herase_len : (chord.eraseIdx idx).length = 2 := by
    rw [List.length_eraseIdx]
    simp [hlen, hidx]
  have hCb : 48 ≤ (if lo < 60 then (59:Int) else hi) ∧
      (if lo < 60 then (59:Int) else hi) ≤ 127 := by
    by_cases h60 : lo < 60
    · simp [h60]
    · simp [h60]
      omega
  have hwd1 := wrapDown_le_self (if lo < 60 then (59:Int) else hi) (chord.getD idx 0)
  have hwd2 := wrapDown_ge_min (if lo < 60 then (59:Int) else hi) (chord.getD idx 0)
  have hwu1 := wrapUp_ge lo (wrapDown (if lo < 60 then (59:Int) else hi) (chord.getD idx 0))
    (by omega)
  have hwu2 := wrapUp_le_max lo (wrapDown (if lo < 60 then (59:Int) else hi) (chord.getD idx 0))
  have hbassb : lo ≤ wrapUp lo (wrapDown (if lo < 60 then (59:Int) else hi)
      (chord.getD idx 0)) ∧ wrapUp lo (wrapDown (if lo < 60 then (59:Int) else hi)
      (chord.getD idx 0)) ≤ 127 := ⟨hwu1, by omega⟩
  have hclmap : ((wrapUp lo (wrapDown (if lo < 60 then (59:Int) else hi) (chord.getD idx 0)) ::
      chord.eraseIdx idx).map (fun n => clamp n 0 127)) =
      wrapUp lo (wrapDown (if lo < 60 then (59:Int) else hi) (chord.getD idx 0)) ::
      chord.eraseIdx idx := by
    have h1 : ((wrapUp lo (wrapDown (if lo < 60 then (59:Int) else hi) (chord.getD idx 0)) ::
        chord.eraseIdx idx).map (fun n => clamp n 0 127)) =
        (wrapUp lo (wrapDown (if lo < 60 then (59:Int) else hi) (chord.getD idx 0)) ::
        chord.eraseIdx idx).map id := by
      apply List.map_congr_left
      intro x hx
      show clamp x 0 127 = x
      rcases List.mem_cons.mp hx with h1 | h2
      · rw [h1]
        exact clamp_eq_self (by omega) (by omega)
      · have := hin x (herase_sub x h2)
        exact clamp_eq_self (by omega) (by omega)
    rw [h1, List.map_id]
  rw [hclmap]
  have hsl : (sortAsc (wrapUp lo (wrapDown (if lo < 60 then (59:Int) else hi)
      (chord.getD idx 0)) :: chord.eraseIdx idx)).length = 3 := by
    rw [sortAsc_length, List.length_cons, herase_len]
  have hsmem : ∀ y ∈ sortAsc (wrapUp lo (wrapDown (if lo < 60 then (59:Int) else hi)
      (chord.getD idx 0)) :: chord.eraseIdx idx), lo ≤ y ∧ y ≤ 127 := by
    intro y hy
    rw [sortAsc_mem] at hy
    rcases List.mem_cons.mp hy with h1 | h2
    · rw [h1]
      exact hbassb
    · have := hin y (herase_sub y h2)
      constructor <;> omega
  have hsne : sortAsc (wrapUp lo (wrapDown (if lo < 60 then (59:Int) else hi)
      (chord.getD idx 0)) :: chord.eraseIdx idx) ≠ [] := by
    intro h
    rw [h] at hsl
    simp at hsl
  obtain ⟨a, tl, hc⟩ := List.exists_cons_of_ne_nil hsne
  rw [hc]
  dsimp only
  have htl_len : tl.length = 2 := by
    rw [hc, List.length_cons] at hsl
    omega
  have htl_sub : ∀ y ∈ tl, lo ≤ y ∧ y ≤ 127 :=
    fun y hy => hsmem y (by rw [hc]; exact List.mem_cons_of_mem _ hy)
  have hab : lo ≤ a ∧ a ≤ 127 := hsmem a (by rw [hc]; exact List.mem_cons_self _ _)
  obtain ⟨hrt_sa, hrt_pc, hrt_b⟩ := raiseTail_spec lo 127 tl a htl_sub
    (by rw [htl_len]; push_cast; omega) (by rw [htl_len]; push_cast; omega)
  have hrt_gt : ∀ z ∈ raiseTail a tl, a < z := (List.pairwise_cons.mp hrt_sa).1
  have hrt_len : (raiseTail a tl).length = 2 := by
    rw [← htl_len]
    exact (List.Forall₂.length_eq hrt_pc).symm
  obtain ⟨hfs, hfi, hfl, hff⟩ := fitChordToRange_spec (a :: raiseTail a tl) lo hi h0 h127
    (List.cons_ne_nil _ _) (strictAsc_nodup hrt_sa)
    (by
      intro n hn
      rcases List.mem_cons.mp hn with h1 | h2
      · constructor <;> omega
      · have h3 := hrt_b n h2
        have h4 := hrt_gt n h2
        rw [htl_len] at h3
        push_cast at h3
        constructor <;> omega)
    (by simp only [List.length_cons, hrt_len]; push_cast; omega)
  have hflen3 : (fitChordToRange (a :: raiseTail a tl) lo hi).length = 3 := by
    rw [hfl, List.length_cons, hrt_len]
  obtain ⟨hes, hei, hel, hef⟩ := enforceTriadSpacingSafe_spec
    (fitChordToRange (a :: raiseTail a tl) lo hi) lo hi 7 19 h0 h127 (by omega) (by omega)
    (by omega) (by omega) (by rw [hflen3]; omega) (strictAsc_nodup hfs)
    (by
      intro n hn
      have := hfi n hn
      constructor <;> omega)
    (by rw [hflen3]; push_cast; omega)
  exact ⟨hes, hei, by rw [hel, hflen3]⟩

theorem selectStacked_spec (chord : List Int) (wantPc lo hi : Int)
    (pbOpt : Option Int) (w : Frac) :
    selectStacked chord wantPc lo hi pbOpt w = none ∨
    ∃ idx : Nat, idx < chord.length ∧
      selectStacked chord wantPc lo hi pbOpt w = some (stackedAt chord lo hi idx) := by
  unfold selectStacked
  have hp := foldl_preserve
    (fun acc : Option (List Int) × Frac => acc.1 = none ∨
      ∃ idx : Nat, idx < chord.length ∧ acc.1 = some (stackedAt chord lo hi idx))
    (fun (acc : Option (List Int) × Frac) idx =>
      if pcOf (chord.getD idx 0) ≠ wantPc then acc
      else
        let st := stackedAt chord lo hi idx
        let bassNow := st.headD 0
        let bassCost : Int :=
          match pbOpt with
          | none => 0
          | some pb => (bassNow - pb).natAbs
        let score := w.mulInt bassCost
        if score.blt acc.2 then (some st, score) else acc)
    (List.range chord.length) (none, Frac.ofInt 1000000000000000000)
    (Or.inl rfl)
    (fun b' a ha hb' => by
      have haR : a < chord.length := List.mem_range.mp ha
      dsimp only
      by_cases h1 : pcOf (chord.getD a 0) ≠ wantPc
      · rw [if_pos h1]
        exact hb'
      · rw [if_neg h1]
        by_cases h2 : ((w.mulInt (match pbOpt with
            | none => 0
            | some pb => (((stackedAt chord lo hi a).headD 0 - pb).natAbs : Int))).blt
            b'.2) = true
        · rw [if_pos h2]
          exact Or.inr ⟨a, haR, rfl⟩
        · rw [if_neg h2]
          exact hb')
  exact hp

theorem slashAddPre_eq (chord : List Int) (lo bassInit : Int) :
    slashAddPre chord lo bassInit =
      clamp (wrapUp lo (dropBelow (minL chord)
        (if lo < 60 then wrapUp lo (dropBelow 60 (clamp bassInit 0 127))
         else wrapUp lo (clamp bassInit 0 127)))) 0 127 :: chord := rfl

theorem slashAddPre_spec (chord : List Int) (lo bassInit : Int)
    (h0 : 0 ≤ lo) (hlo116 : lo ≤ 116) (hb0 : 0 ≤ bassInit) (hb1 : bassInit ≤ 127)
    (hchne : chord ≠ []) (hchlo : ∀ y ∈ chord, lo ≤ y) :
    lo ≤ (slashAddPre chord lo bassInit).headD 0 ∧
    (slashAddPre chord lo bassInit).headD 0 ≤ 127 ∧
    ((slashAddPre chord lo bassInit).headD 0 < minL chord ∨
      (slashAddPre chord lo bassInit).headD 0 ≤ lo + 11) ∧
    pcOf ((slashAddPre chord lo bassInit).headD 0) = pcOf bassInit ∧
    slashAddPre chord lo bassInit = (slashAddPre chord lo bassInit).headD 0 :: chord := by
  rw [slashAddPre_eq]
  have hminmem := minL_mem chord hchne
  have hminlo := hchlo _ hminmem
  have hcl : clamp bassInit 0 127 = bassInit := clamp_eq_self hb0 hb1
  rw [hcl]
  have hB1 : lo ≤ (if lo < 60 then wrapUp lo (dropBelow 60 bassInit)
      else wrapUp lo bassInit) ∧
      (if lo < 60 then wrapUp lo (dropBelow 60 bassInit) else wrapUp lo bassInit) ≤ 127 ∧
      pcOf (if lo < 60 then wrapUp lo (dropBelow 60 bassInit) else wrapUp lo bassInit) =
        pcOf bassInit := by
    by_cases h60 : lo < 60
    · rw [if_pos h60]
      have hd1 := dropBelow_le_self 60 bassInit
      have hd2 := dropBelow_ge_min 60 bassInit
      have hd3 := dropBelow_lt 60 bassInit (by omega)
      have hw1 := wrapUp_ge lo (dropBelow 60 bassInit) (by omega)
      have hw2 := wrapUp_le_max lo (dropBelow 60 bassInit)
      refine ⟨hw1, by omega, ?_⟩
      rw [wrapUp_pc, dropBelow_pc]
    · rw [if_neg h60]
      have hw1 := wrapUp_ge lo bassInit (by omega)
      have hw2 := wrapUp_le_max lo bassInit
      refine ⟨hw1, by omega, ?_⟩
      rw [wrapUp_pc]
  obtain ⟨hB1a, hB1b, hB1c⟩ := hB1
  have hd1 := dropBelow_le_self (minL chord)
    (if lo < 60 then wrapUp lo (dropBelow 60 bassInit) else wrapUp lo bassInit)
  have hd2 := dropBelow_ge_min (minL chord)
    (if lo < 60 then wrapUp lo (dropBelow 60 bassInit) else wrapUp lo bassInit)
  have hd3 := dropBelow_lt (minL chord)
    (if lo < 60 then wrapUp lo (dropBelow 60 bassInit) else wrapUp lo bassInit) (by omega)
  have hw1 := wrapUp_ge lo (dropBelow (minL chord)
    (if lo < 60 then wrapUp lo (dropBelow 60 bassInit) else wrapUp lo bassInit)) (by omega)
  have hw2 := wrapUp_le_max lo (dropBelow (minL chord)
    (if lo < 60 then wrapUp lo (dropBelow 60 bassInit) else wrapUp lo bassInit))
  have hcl2 : clamp (wrapUp lo (dropBelow (minL chord)
      (if lo < 60 then wrapUp lo (dropBelow 60 bassInit) else wrapUp lo bassInit))) 0 127 =
      wrapUp lo (dropBelow (minL chord)
      (if lo < 60 then wrapUp lo (dropBelow 60 bassInit) else wrapUp lo bassInit)) :=
    clamp_eq_self (by omega) (by omega)
  rw [hcl2]
  simp only [List.headD_cons]
  refine ⟨hw1, by omega, ?_, ?_, by trivial⟩
  · by_cases hcase : lo ≤ dropBelow (minL chord)
        (if lo < 60 then wrapUp lo (dropBelow 60 bassInit) else wrapUp lo bassInit)
    · left
      rw [wrapUp_eq _ _ hcase]
      exact hd3
    · right
      omega
  · rw [wrapUp_pc, dropBelow_pc]
    exact hB1c

theorem sortAsc_cons_head {b : Int} {l : List Int} (hs : List.Sorted (· ≤ ·) l)
    (hb : ∀ y ∈ l, b ≤ y) : sortAsc (b :: l) = b :: l := by
  apply sortAsc_eq_self
  rw [List.sorted_cons]
  exact ⟨hb, hs⟩

theorem slashAddTail_spec (chord : List Int) (lo hi bassInit : Int)
    (h0 : 0 ≤ lo) (h127 : hi ≤ 127) (hw47 : lo + 47 ≤ hi)
    (hsa : StrictAsc chord) (hin : InRange lo hi chord) (hlen : chord.length = 3)
    (hb0 : 0 ≤ bassInit) (hb1 : bassInit ≤ 127) :
    StrictAsc (slashAddTail chord lo hi bassInit) ∧
    InRange lo hi (slashAddTail chord lo hi bassInit) ∧
    (slashAddTail chord lo hi bassInit).length = 4 ∧
    List.Forall₂ (fun a b => pcOf b = pcOf a)
      (sortAsc ((slashAddPre chord lo bassInit).headD 0 :: chord))
      (slashAddTail chord lo hi bassInit) := by
  have hchne : chord ≠ [] := by
    intro h
    rw [h] at hlen
    simp at hlen
  obtain ⟨hBlo, hB127, hBdisj, hBpc, hBeq⟩ := slashAddPre_spec chord lo bassInit h0
    (by omega) hb0 hb1 hchne (fun y hy => (hin y hy).1)
  have hminmem := minL_mem chord hchne
  have hminb := hin _ hminmem
  have hBhi : (slashAddPre chord lo bassInit).headD 0 ≤ hi := by
    rcases hBdisj with h | h
    · omega
    · omega
  have hLin : ∀ n ∈ (slashAddPre chord lo bassInit).headD 0 :: chord, lo ≤ n ∧ n ≤ hi := by
    intro n hn
    rcases List.mem_cons.mp hn with h1 | h2
    · rw [h1]
      exact ⟨hBlo, hBhi⟩
    · exact hin n h2
  have hLlen : (((slashAddPre chord lo bassInit).headD 0 :: chord).length : Int) = 4 := by
    rw [List.length_cons, hlen]
    rfl
  have hchain : List.Chain' (fun a b => a = b → a ≤ lo + 11)
      (sortAsc ((slashAddPre chord lo bassInit).headD 0 :: chord)) := by
    rcases hBdisj with h | h
    · apply chain'_of_strictAsc
      apply sortAsc_strictAsc
      rw [List.nodup_cons]
      refine ⟨?_, strictAsc_nodup hsa⟩
      intro hmem
      have := minL_le chord _ hmem
      omega
    · exact chain'_sortAsc_cons_bass _ _ chord (strictAsc_nodup hsa) h
  obtain ⟨hfs, hfi, hfl, hff⟩ := fitChordToRange_spec_dup
    ((slashAddPre chord lo bassInit).headD 0 :: chord) lo hi h0 h127
    (List.cons_ne_nil _ _) hLin hchain (by rw [hLlen]; omega)
  have hfl4 : (fitChordToRange ((slashAddPre chord lo bassInit).headD 0 :: chord)
      lo hi).length = 4 := by
    rw [hfl, List.length_cons, hlen]
  obtain ⟨hes, hei, hel, hef⟩ := enforceTriadSpacingSafe_spec
    (fitChordToRange ((slashAddPre chord lo bassInit).headD 0 :: chord) lo hi) lo hi 7 19
    h0 h127 (by omega) (by omega) (by omega) (by rw [hfl4]; omega) (by rw [hfl4]; omega)
    (strictAsc_nodup hfs)
    (by
      intro n hn
      have := hfi n hn
      constructor <;> omega)
    (by rw [hfl4]; push_cast; omega)
  have hres : slashAddTail chord lo hi bassInit =
      enforceTriadSpacingSafe (fitChordToRange
        ((slashAddPre chord lo bassInit).headD 0 :: chord) lo hi) lo hi 7 19 := by
    unfold slashAddTail
    rw [← hBeq]
  rw [hres]
  rw [strictAsc_sortAsc_eq hfs] at hef
  refine ⟨hes, hei, by rw [hel, hfl4], forall2_pc_trans hff hef⟩

theorem applySlashBass_none (ch : List Int) (targetBassMidi lo hi : Int)
    (pbOpt : Option Int) (w : Frac) :
    applySlashBass ch none targetBassMidi lo hi pbOpt w = ch := rfl

theorem applySlashBass_some_eq (ch : List Int) (s targetBassMidi lo hi : Int)
    (pbOpt : Option Int) (w : Frac) :
    applySlashBass ch (some s) targetBassMidi lo hi pbOpt w =
      (if ((sortAsc ch).map pcOf).contains (pcOf s) then
        match selectStacked (sortAsc ch) (pcOf s) lo hi pbOpt w with
        | some best => best
        | none => enforceTriadSpacingSafe (fitChordToRange (sortAsc ch) lo hi) lo hi 7 19
       else slashAddTail (sortAsc ch) lo hi
        (midiNear (pcOf s) (pbOpt.getD targetBassMidi))) := rfl

theorem applySlashBass_spec (ch : List Int) (slashOpt : Option Int)
    (targetBassMidi lo hi : Int) (pbOpt : Option Int) (w : Frac)
    (h0 : 0 ≤ lo) (h127 : hi ≤ 127) (hw47 : lo + 47 ≤ hi)
    (hsa : StrictAsc ch) (hin : InRange lo hi ch) (hlen : ch.length = 3)
    (htb0 : 0 ≤ targetBassMidi) (htb1 : targetBassMidi ≤ 127)
    (hpb : ∀ pb, pbOpt = some pb → 0 ≤ pb ∧ pb ≤ 127) :
    StrictAsc (applySlashBass ch slashOpt targetBassMidi lo hi pbOpt w) ∧
    InRange lo hi (applySlashBass ch slashOpt targetBassMidi lo hi pbOpt w) ∧
    ((applySlashBass ch slashOpt targetBassMidi lo hi pbOpt w).length = 3 ∨
     (applySlashBass ch slashOpt targetBassMidi lo hi pbOpt w).length = 4) := by
  match slashOpt with
  | none =>
    rw [applySlashBass_none]
    exact ⟨hsa, hin, Or.inl hlen⟩
  | some s =>
    rw [applySlashBass_some_eq]
    have hso : sortAsc ch = ch := strictAsc_sortAsc_eq hsa
    rw [hso]
    by_cases hcont : (ch.map pcOf).contains (pcOf s)
    · rw [if_pos hcont]
      rcases hE : selectStacked ch (pcOf s) lo hi pbOpt w with _ | best
      · dsimp only
        have hne : ch ≠ [] := by
          intro h
          rw [h] at hlen
          simp at hlen
        rw [fitChordToRange_fixed ch lo hi h0 h127 hne hsa hin]
        obtain ⟨hes, hei, hel, _⟩ := enforceTriadSpacingSafe_spec ch lo hi 7 19 h0 h127
          (by omega) (by omega) (by omega) (by omega) (by rw [hlen]; omega)
          (strictAsc_nodup hsa)
          (by
            intro n hn
            have := hin n hn
            constructor <;> omega)
          (by rw [hlen]; push_cast; omega)
        exact ⟨hes, hei, Or.inl (by rw [hel, hlen])⟩
      · dsimp only
        rcases selectStacked_spec ch (pcOf s) lo hi pbOpt w with hnone | ⟨idx, hidx, hsome⟩
        · rw [hE] at hnone
          cases hnone
        · rw [hE] at hsome
          have hbest : best = stackedAt ch lo hi idx := by
            injection hsome
          rw [hbest]
          obtain ⟨h1, h2, h3⟩ := stackedAt_spec ch lo hi idx h0 h127 hw47 hsa hin hlen
            (by rw [hlen] at hidx; exact hidx)
          exact ⟨h1, h2, Or.inl h3⟩
    · rw [if_neg hcont]
      have hbi := midiNear_mem (pcOf s) (pbOpt.getD targetBassMidi)
        (pcOf_nonneg s) (pcOf_lt_12 s)
        (by
          match pbOpt with
          | none =>
            show -24 ≤ targetBassMidi
            omega
          | some pb =>
            show -24 ≤ pb
            have := (hpb pb rfl).1
            omega)
        (by
          match pbOpt with
          | none =>
            show targetBassMidi ≤ 166
            omega
          | some pb =>
            show pb ≤ 166
            have := (hpb pb rfl).2
            omega)
      obtain ⟨h1, h2, h3, _⟩ := slashAddTail_spec ch lo hi
        (midiNear (pcOf s) (pbOpt.getD targetBassMidi)) h0 h127 hw47 hsa hin hlen
        hbi.1 hbi.2
      exact ⟨h1, h2, Or.inr h3⟩

theorem openPre_eq (pc1 pc2 lo bassInit B M : Int)
    (hB : B = if lo < 60 then wrapUp lo (dropBelow 60 (clamp bassInit 0 127))
      else wrapUp lo (clamp bassInit 0 127))
    (hM : M = raiseSep B 7 (midiNear pc1 (B + 7))) :
    openPre pc1 pc2 lo bassInit =
      [B, M,
       if (Frac.addInt (max 0 (raiseFrom M (midiNear pc2 (M + 4)) - B - 16) * 5)
            ((Frac.mk 5 100).mulInt (max 0 (raiseFrom M (midiNear pc2 (M + 4)) - 72)))).ble
          (Frac.addInt (max 0 (raiseFrom M (midiNear pc2 (M + 16)) - B - 16) * 5)
            ((Frac.mk 5 100).mulInt (max 0 (raiseFrom M (midiNear pc2 (M + 16)) - 72))))
       then raiseFrom M (midiNear pc2 (M + 4))
       else raiseFrom M (midiNear pc2 (M + 16))] := by
  subst hM
  subst hB
  rfl

theorem openPre_spec (pc1 pc2 lo bassInit : Int)
    (h0 : 0 ≤ lo) (hlo116 : lo ≤ 116)
    (hpc1a : 0 ≤ pc1) (hpc1b : pc1 < 12) (hpc2a : 0 ≤ pc2) (hpc2b : pc2 < 12) :
    StrictAsc (openPre pc1 pc2 lo bassInit) ∧
    (openPre pc1 pc2 lo bassInit).length = 3 ∧
    (∀ n ∈ openPre pc1 pc2 lo bassInit, lo ≤ n ∧ n ≤ 157) := by
  have hBb : lo ≤ (if lo < 60 then wrapUp lo (dropBelow 60 (clamp bassInit 0 127))
      else wrapUp lo (clamp bassInit 0 127)) ∧
      (if lo < 60 then wrapUp lo (dropBelow 60 (clamp bassInit 0 127))
      else wrapUp lo (clamp bassInit 0 127)) ≤ 127 := by
    have hcl := clamp_mem bassInit (show (0:Int) ≤ 127 by omega)
    by_cases h60 : lo < 60
    · rw [if_pos h60]
      have hd1 := dropBelow_le_self 60 (clamp bassInit 0 127)
      have hd2 := dropBelow_ge_min 60 (clamp bassInit 0 127)
      have hw1 := wrapUp_ge lo (dropBelow 60 (clamp bassInit 0 127)) (by omega)
      have hw2 := wrapUp_le_max lo (dropBelow 60 (clamp bassInit 0 127))
      exact ⟨hw1, by omega⟩
    · rw [if_neg h60]
      have hw1 := wrapUp_ge lo (clamp bassInit 0 127) (by omega)
      have hw2 := wrapUp_le_max lo (clamp bassInit 0 127)
      exact ⟨hw1, by omega⟩
  rw [openPre_eq pc1 pc2 lo bassInit _ _ rfl rfl]
  generalize hBdef : (if lo < 60 then wrapUp lo (dropBelow 60 (clamp bassInit 0 127))
    else wrapUp lo (clamp bassInit 0 127)) = B at hBb ⊢
  obtain ⟨hB1, hB2⟩ := hBb
  have htM := midiNear_mem pc1 (B + 7) hpc1a hpc1b (by omega) (by omega)
  have hM1 := raiseSep_ge B 7 (midiNear pc1 (B + 7)) (by omega)
  have hM2 := raiseSep_le_max B 7 (midiNear pc1 (B + 7))
  generalize hMdef : raiseSep B 7 (midiNear pc1 (B + 7)) = M at hM1 hM2 ⊢
  have htA := midiNear_mem pc2 (M + 4) hpc2a hpc2b (by omega) (by omega)
  have htB := midiNear_mem pc2 (M + 16) hpc2a hpc2b (by omega) (by omega)
  generalize htAdef : midiNear pc2 (M + 4) = tA at htA ⊢
  generalize htBdef : midiNear pc2 (M + 16) = tB at htB ⊢
  have hrA1 := raiseFrom_gt M tA (by omega)
  have hrA2 := raiseFrom_le_max M tA
  have hrB1 := raiseFrom_gt M tB (by omega)
  have hrB2 := raiseFrom_le_max M tB
  generalize hTAdef : raiseFrom M tA = TA at hrA1 hrA2 ⊢
  generalize hTBdef : raiseFrom M tB = TB at hrB1 hrB2 ⊢
  split
  · refine ⟨strictAsc_cons_cons (by omega) (strictAsc_cons_cons (by omega)
      (List.sorted_singleton _)), rfl, ?_⟩
    intro n hn
    rcases List.mem_cons.mp hn with h1 | hn'
    · constructor <;> omega
    rcases List.mem_cons.mp hn' with h2 | hn''
    · constructor <;> omega
    rcases List.mem_cons.mp hn'' with h3 | hn3
    · constructor <;> omega
    · cases hn3
  · refine ⟨strictAsc_cons_cons (by omega) (strictAsc_cons_cons (by omega)
      (List.sorted_singleton _)), rfl, ?_⟩
    intro n hn
    rcases List.mem_cons.mp hn with h1 | hn'
    · constructor <;> omega
    rcases List.mem_cons.mp hn' with h2 | hn''
    · constructor <;> omega
    rcases List.mem_cons.mp hn'' with h3 | hn3
    · constructor <;> omega
    · cases hn3

theorem openTail_spec (pc1 pc2 lo hi bassInit : Int)
    (h0 : 0 ≤ lo) (h127 : hi ≤ 127) (hw47 : lo + 47 ≤ hi)
    (hpc1a : 0 ≤ pc1) (hpc1b : pc1 < 12) (hpc2a : 0 ≤ pc2) (hpc2b : pc2 < 12) :
    StrictAsc (openTail pc1 pc2 lo hi bassInit) ∧
    InRange lo hi (openTail pc1 pc2 lo hi bassInit) ∧
    (openTail pc1 pc2 lo hi bassInit).length = 3 := by
  unfold openTail
  obtain ⟨hps, hpl, hpb⟩ := openPre_spec pc1 pc2 lo bassInit h0 (by omega)
    hpc1a hpc1b hpc2a hpc2b
  obtain ⟨hfs, hfi, hfl, _⟩ := fitChordToRange_spec (openPre pc1 pc2 lo bassInit) lo hi
    h0 h127
    (by
      intro h
      rw [h] at hpl
      simp at hpl)
    (strictAsc_nodup hps)
    (by
      intro n hn
      have := hpb n hn
      constructor <;> omega)
    (by rw [hpl]; push_cast; omega)
  have hfl3 : (fitChordToRange (openPre pc1 pc2 lo bassInit) lo hi).length = 3 := by
    rw [hfl, hpl]
  obtain ⟨hes, hei, hel, _⟩ := enforceTriadSpacingSafe_spec
    (fitChordToRange (openPre pc1 pc2 lo bassInit) lo hi) lo hi 7 19 h0 h127
    (by omega) (by omega) (by omega) (by rw [hfl3]; omega) (by rw [hfl3]; omega)
    (strictAsc_nodup hfs)
    (by
      intro n hn
      have := hfi n hn
      constructor <;> omega)
    (by rw [hfl3]; push_cast; omega)
  exact ⟨hes, hei, by rw [hel, hfl3]⟩

theorem voiceOpenOrderedPCs_three (a b c : Int) (lo hi : Int) (pbOpt : Option Int) :
    voiceOpenOrderedPCs [a, b, c] lo hi pbOpt =
      openTail (pcOf b) (pcOf c) lo hi (midiNear (pcOf a) (pbOpt.getD 57)) := rfl

theorem voiceOpenOrderedPCs_spec (a b c : Int) (lo hi : Int) (pbOpt : Option Int)
    (h0 : 0 ≤ lo) (h127 : hi ≤ 127) (hw47 : lo + 47 ≤ hi)
    (_hpb : ∀ pb, pbOpt = some pb → 0 ≤ pb ∧ pb ≤ 127) :
    StrictAsc (voiceOpenOrderedPCs [a, b, c] lo hi pbOpt) ∧
    InRange lo hi (voiceOpenOrderedPCs [a, b, c] lo hi pbOpt) ∧
    (voiceOpenOrderedPCs [a, b, c] lo hi pbOpt).length = 3 := by
  rw [voiceOpenOrderedPCs_three]
  exact openTail_spec (pcOf b) (pcOf c) lo hi (midiNear (pcOf a) (pbOpt.getD 57))
    h0 h127 hw47 (pcOf_nonneg b) (pcOf_lt_12 b) (pcOf_nonneg c) (pcOf_lt_12 c)

theorem voiceOpenWithSlash_spec (rootPc : Int) (qual : String) (slashOpt : Option Int)
    (lo hi : Int) (pbOpt : Option Int)
    (h0 : 0 ≤ lo) (h127 : hi ≤ 127) (hw47 : lo + 47 ≤ hi)
    (_hpb : ∀ pb, pbOpt = some pb → 0 ≤ pb ∧ pb ≤ 127) :
    StrictAsc (voiceOpenWithSlash rootPc qual slashOpt lo hi pbOpt) ∧
    InRange lo hi (voiceOpenWithSlash rootPc qual slashOpt lo hi pbOpt) ∧
    (voiceOpenWithSlash rootPc qual slashOpt lo hi pbOpt).length = 3 := by
  unfold voiceOpenWithSlash
  dsimp only
  match slashOpt with
  | none => exact voiceOpenOrderedPCs_spec _ _ _ lo hi pbOpt h0 h127 hw47 _hpb
  | some s =>
    dsimp only
    split
    · exact voiceOpenOrderedPCs_spec _ _ _ lo hi pbOpt h0 h127 hw47 _hpb
    · split
      · exact voiceOpenOrderedPCs_spec _ _ _ lo hi pbOpt h0 h127 hw47 _hpb
      · exact voiceOpenOrderedPCs_spec _ _ _ lo hi pbOpt h0 h127 hw47 _hpb

theorem uniqFirst_go_sub : ∀ (l : List (List Int)) (seen : List (List Int)) (x : List Int),
    x ∈ uniqFirst.go seen l → x ∈ l := by
  intro l
  induction l with
  | nil =>
    intro seen x hx
    exact absurd hx (by simp [uniqFirst.go])
  | cons ch rest ih =>
    intro seen x hx
    rw [show uniqFirst.go seen (ch :: rest) =
      (if seen.contains ch then uniqFirst.go seen rest
       else ch :: uniqFirst.go (ch :: seen) rest) from rfl] at hx
    split at hx
    · exact List.mem_cons_of_mem _ (ih seen x hx)
    · rcases List.mem_cons.mp hx with h1 | h2
      · exact h1 ▸ List.mem_cons_self _ _
      · exact List.mem_cons_of_mem _ (ih (ch :: seen) x h2)

theorem uniqFirst_sub (l : List (List Int)) (x : List Int) (hx : x ∈ uniqFirst l) : x ∈ l :=
  uniqFirst_go_sub l [] x hx

theorem candidatesForTriad_eq (rootPc : Int) (qual : String) (targetMidi lo hi : Int) :
    candidatesForTriad rootPc qual targetMidi lo hi =
      uniqFirst ([[(triadPCs rootPc qual).getD 0 0, (triadPCs rootPc qual).getD 1 0,
          (triadPCs rootPc qual).getD 2 0],
        [(triadPCs rootPc qual).getD 1 0, (triadPCs rootPc qual).getD 2 0,
          (triadPCs rootPc qual).getD 0 0],
        [(triadPCs rootPc qual).getD 2 0, (triadPCs rootPc qual).getD 0 0,
          (triadPCs rootPc qual).getD 1 0]].flatMap (fun inv =>
        (List.range 5).map (fun k =>
          fitChordToRange
            [midiNear (inv.getD 0 0) targetMidi + 12 * ((k : Int) - 2),
             raiseFrom (midiNear (inv.getD 0 0) targetMidi + 12 * ((k : Int) - 2))
               (midiNear (inv.getD 1 0)
                 (midiNear (inv.getD 0 0) targetMidi + 12 * ((k : Int) - 2) + 4)),
             raiseFrom (raiseFrom (midiNear (inv.getD 0 0) targetMidi + 12 * ((k : Int) - 2))
               (midiNear (inv.getD 1 0)
                 (midiNear (inv.getD 0 0) targetMidi + 12 * ((k : Int) - 2) + 4)))
               (midiNear (inv.getD 2 0)
                 (midiNear (inv.getD 1 0)
                   (midiNear (inv.getD 0 0) targetMidi + 12 * ((k : Int) - 2) + 4) + 4))]
            lo hi))) := rfl

theorem triadPCs_getD_bounds (rootPc : Int) (qual : String)
    (hr0 : 0 ≤ rootPc) (hr1 : rootPc < 12) :
    (0 ≤ (triadPCs rootPc qual).getD 0 0 ∧ (triadPCs rootPc qual).getD 0 0 < 12) ∧
    (0 ≤ (triadPCs rootPc qual).getD 1 0 ∧ (triadPCs rootPc qual).getD 1 0 < 12) ∧
    (0 ≤ (triadPCs rootPc qual).getD 2 0 ∧ (triadPCs rootPc qual).getD 2 0 < 12) := by
  rw [triadPCs_parts]
  refine ⟨⟨hr0, hr1⟩, ?_, ?_⟩
  · show 0 ≤ (rootPc + if qual = "min" then 3 else 4) % 12 ∧
      (rootPc + if qual = "min" then 3 else 4) % 12 < 12
    by_cases hq : qual = "min" <;> [rw [if_pos hq]; rw [if_neg hq]] <;> constructor <;> omega
  · show 0 ≤ (rootPc + 7) % 12 ∧ (rootPc + 7) % 12 < 12
    constructor <;> omega

theorem candTriple_spec (p0 p1 p2 targetMidi lo hi : Int) (k : Nat)
    (h0 : 0 ≤ lo) (h127 : hi ≤ 127) (hw47 : lo + 47 ≤ hi)
    (hp0 : 0 ≤ p0 ∧ p0 < 12) (hp1 : 0 ≤ p1 ∧ p1 < 12) (hp2 : 0 ≤ p2 ∧ p2 < 12)
    (htm : 0 ≤ targetMidi ∧ targetMidi ≤ 127) (hk : k < 5) :
    StrictAsc (fitChordToRange
      [midiNear p0 targetMidi + 12 * ((k : Int) - 2),
       raiseFrom (midiNear p0 targetMidi + 12 * ((k : Int) - 2))
         (midiNear p1 (midiNear p0 targetMidi + 12 * ((k : Int) - 2) + 4)),
       raiseFrom (raiseFrom (midiNear p0 targetMidi + 12 * ((k : Int) - 2))
         (midiNear p1 (midiNear p0 targetMidi + 12 * ((k : Int) - 2) + 4)))
         (midiNear p2 (midiNear p1 (midiNear p0 targetMidi + 12 * ((k : Int) - 2) + 4) + 4))]
      lo hi) ∧
    InRange lo hi (fitChordToRange
      [midiNear p0 targetMidi + 12 * ((k : Int) - 2),
       raiseFrom (midiNear p0 targetMidi + 12 * ((k : Int) - 2))
         (midiNear p1 (midiNear p0 targetMidi + 12 * ((k : Int) - 2) + 4)),
       raiseFrom (raiseFrom (midiNear p0 targetMidi + 12 * ((k : Int) - 2))
         (midiNear p1 (midiNear p0 targetMidi + 12 * ((k : Int) - 2) + 4)))
         (midiNear p2 (midiNear p1 (midiNear p0 targetMidi + 12 * ((k : Int) - 2) + 4) + 4))]
      lo hi) ∧
    (fitChordToRange
      [midiNear p0 targetMidi + 12 * ((k : Int) - 2),
       raiseFrom (midiNear p0 targetMidi + 12 * ((k : Int) - 2))
         (midiNear p1 (midiNear p0 targetMidi + 12 * ((k : Int) - 2) + 4)),
       raiseFrom (raiseFrom (midiNear p0 targetMidi + 12 * ((k : Int) - 2))
         (midiNear p1 (midiNear p0 targetMidi + 12 * ((k : Int) - 2) + 4)))
         (midiNear p2 (midiNear p1 (midiNear p0 targetMidi + 12 * ((k : Int) - 2) + 4) + 4))]
      lo hi).length = 3 := by
  have hbase := midiNear_mem p0 targetMidi hp0.1 hp0.2 (by omega) (by omega)
  have hkk : (0 : Int) ≤ (k : Int) ∧ (k : Int) ≤ 4 := by
    constructor
    · positivity
    · exact_mod_cast Nat.le_of_lt_succ hk
  generalize hA : midiNear p0 targetMidi + 12 * ((k : Int) - 2) = A at *
  have hAb : -24 ≤ A ∧ A ≤ 151 := by omega
  have hb0 := midiNear_mem p1 (A + 4) hp1.1 hp1.2 (by omega) (by omega)
  generalize hB0 : midiNear p1 (A + 4) = b0 at *
  have hc0 := midiNear_mem p2 (b0 + 4) hp2.1 hp2.2 (by omega) (by omega)
  generalize hC0 : midiNear p2 (b0 + 4) = c0 at *
  have hb1a := raiseFrom_gt A b0 (by omega)
  have hb1b := raiseFrom_le_max A b0
  generalize hB1 : raiseFrom A b0 = b1 at *
  have hc1a := raiseFrom_gt b1 c0 (by omega)
  have hc1b := raiseFrom_le_max b1 c0
  generalize hC1 : raiseFrom b1 c0 = c1 at *
  have hsa : StrictAsc [A, b1, c1] :=
    strictAsc_cons_cons hb1a (strictAsc_cons_cons hc1a (List.sorted_singleton _))
  obtain ⟨hfs, hfi, hfl, _⟩ := fitChordToRange_spec [A, b1, c1] lo hi h0 h127
    (by simp) (strictAsc_nodup hsa)
    (by
      intro n hn
      rcases List.mem_cons.mp hn with h1 | hn'
      · constructor <;> omega
      rcases List.mem_cons.mp hn' with h2 | hn''
      · constructor <;> omega
      rcases List.mem_cons.mp hn'' with h3 | hn3
      · constructor <;> omega
      · cases hn3)
    (by show lo + 11 + 12 * (((3:Nat) : Int) - 1) ≤ hi; push_cast; omega)
  exact ⟨hfs, hfi, by rw [hfl]; rfl⟩

theorem candidatesForTriad_spec (rootPc : Int) (qual : String) (targetMidi lo hi : Int)
    (h0 : 0 ≤ lo) (h127 : hi ≤ 127) (hw47 : lo + 47 ≤ hi)
    (hr : 0 ≤ rootPc ∧ rootPc < 12) (htm : 0 ≤ targetMidi ∧ targetMidi ≤ 127) :
    ∀ x ∈ candidatesForTriad rootPc qual targetMidi lo hi,
      StrictAsc x ∧ InRange lo hi x ∧ x.length = 3 := by
  intro x hx
  rw [candidatesForTriad_eq] at hx
  have hx2 := uniqFirst_sub _ x hx
  rw [List.mem_flatMap] at hx2
  obtain ⟨inv, hinv, hxm⟩ := hx2
  rw [List.mem_map] at hxm
  obtain ⟨k, hk, hxe⟩ := hxm
  obtain ⟨a, ha5, hka⟩ : ∃ a : Nat, a < 5 ∧ k = (a : Int) := by simpa using hk
  subst hka
  obtain ⟨hb0, hb1, hb2⟩ := triadPCs_getD_bounds rootPc qual hr.1 hr.2
  have hinvb : (0 ≤ inv.getD 0 0 ∧ inv.getD 0 0 < 12) ∧
      (0 ≤ inv.getD 1 0 ∧ inv.getD 1 0 < 12) ∧
      (0 ≤ inv.getD 2 0 ∧ inv.getD 2 0 < 12) := by
    rcases List.mem_cons.mp hinv with h1 | hinv'
    · rw [h1]
      exact ⟨hb0, hb1, hb2⟩
    rcases List.mem_cons.mp hinv' with h2 | hinv''
    · rw [h2]
      exact ⟨hb1, hb2, hb0⟩
    rcases List.mem_cons.mp hinv'' with h3 | hinv3
    · rw [h3]
      exact ⟨hb2, hb0, hb1⟩
    · cases hinv3
  rw [← hxe]
  exact candTriple_spec (inv.getD 0 0) (inv.getD 1 0) (inv.getD 2 0) targetMidi lo hi a
    h0 h127 hw47 hinvb.1 hinvb.2.1 hinvb.2.2 htm ha5

theorem closeFit_spec (r : Int) (q : String) (lo hi : Int)
    (h0 : 0 ≤ lo) (h127 : hi ≤ 127) (hw47 : lo + 47 ≤ hi)
    (hr6 : 6 ≤ r) (hr110 : r ≤ 110) :
    StrictAsc (fitChordToRange (voiceClose r q) lo hi) ∧
    InRange lo hi (fitChordToRange (voiceClose r q) lo hi) ∧
    (fitChordToRange (voiceClose r q) lo hi).length = 3 := by
  obtain ⟨hvs, hvl, hvb, _⟩ := voiceClose_spec r q hr6 hr110
  obtain ⟨hfs, hfi, hfl, _⟩ := fitChordToRange_spec (voiceClose r q) lo hi h0 h127
    (by
      intro h
      rw [h] at hvl
      simp at hvl)
    (strictAsc_nodup hvs)
    (by
      intro n hn
      have := hvb n hn
      constructor <;> omega)
    (by rw [hvl]; push_cast; omega)
  exact ⟨hfs, hfi, by rw [hfl, hvl]⟩

theorem closeFitEnforce_spec (r : Int) (q : String) (lo hi : Int)
    (h0 : 0 ≤ lo) (h127 : hi ≤ 127) (hw47 : lo + 47 ≤ hi)
    (hr6 : 6 ≤ r) (hr110 : r ≤ 110) :
    StrictAsc (enforceTriadSpacingSafe (fitChordToRange (voiceClose r q) lo hi) lo hi 7 19) ∧
    InRange lo hi (enforceTriadSpacingSafe (fitChordToRange (voiceClose r q) lo hi)
      lo hi 7 19) ∧
    (enforceTriadSpacingSafe (fitChordToRange (voiceClose r q) lo hi) lo hi 7 19).length
      = 3 := by
  obtain ⟨hfs, hfi, hfl⟩ := closeFit_spec r q lo hi h0 h127 hw47 hr6 hr110
  obtain ⟨hes, hei, hel, _⟩ := enforceTriadSpacingSafe_spec
    (fitChordToRange (voiceClose r q) lo hi) lo hi 7 19 h0 h127 (by omega) (by omega)
    (by omega) (by rw [hfl]; omega) (by rw [hfl]; omega) (strictAsc_nodup hfs)
    (by
      intro n hn
      have := hfi n hn
      constructor <;> omega)
    (by rw [hfl]; push_cast; omega)
  exact ⟨hes, hei, by rw [hel, hfl]⟩

theorem vlCandList_spec (lo hi : Int) (spec : ChordSpec)
    (h0 : 0 ≤ lo) (h127 : hi ≤ 127) (hw47 : lo + 47 ≤ hi)
    (hrm : 6 ≤ spec.rootMidi ∧ spec.rootMidi ≤ 110) :
    ∀ x ∈ vlCandList lo hi spec, StrictAsc x ∧ InRange lo hi x ∧ x.length = 3 := by
  intro x hx
  unfold vlCandList at hx
  dsimp only at hx
  split at hx
  · rcases List.mem_cons.mp hx with h1 | h2
    · rw [h1]
      exact closeFit_spec spec.rootMidi spec.qual lo hi h0 h127 hw47 hrm.1 hrm.2
    · cases h2
  · exact candidatesForTriad_spec (pcOf spec.rootMidi) spec.qual 60 lo hi h0 h127 hw47
      ⟨pcOf_nonneg _, pcOf_lt_12 _⟩ (by omega) x hx

theorem vlProcess_spec (lo hi targetBass : Int) (pbOpt : Option Int) (w : Frac)
    (spec : ChordSpec) (cand : List Int)
    (h0 : 0 ≤ lo) (h127 : hi ≤ 127) (hw47 : lo + 47 ≤ hi)
    (htb : 0 ≤ targetBass ∧ targetBass ≤ 127)
    (hpb : ∀ pb, pbOpt = some pb → 0 ≤ pb ∧ pb ≤ 127)
    (hcs : StrictAsc cand) (hci : InRange lo hi cand) (hcl : cand.length = 3) :
    StrictAsc (vlProcess lo hi targetBass pbOpt w spec cand) ∧
    InRange lo hi (vlProcess lo hi targetBass pbOpt w spec cand) := by
  unfold vlProcess
  have hcne : cand ≠ [] := by
    intro h
    rw [h] at hcl
    simp at hcl
  rw [fitChordToRange_fixed cand lo hi h0 h127 hcne hcs hci]
  obtain ⟨has, hai, hal⟩ := applySlashBass_spec cand spec.slashPc targetBass lo hi pbOpt w
    h0 h127 hw47 hcs hci hcl htb.1 htb.2 hpb
  obtain ⟨hes, hei, _, _⟩ := enforceTriadSpacingSafe_spec
    (applySlashBass cand spec.slashPc targetBass lo hi pbOpt w) lo hi 7 19 h0 h127
    (by omega) (by omega) (by omega)
    (by rcases hal with h | h <;> omega)
    (by rcases hal with h | h <;> rw [h] <;> omega)
    (strictAsc_nodup has)
    (by
      intro n hn
      have := hai n hn
      constructor <;> omega)
    (by rcases hal with h | h <;> rw [h] <;> push_cast <;> omega)
  exact ⟨hes, hei⟩

theorem vlStep_eq (lo hi targetBass : Int) (w : Frac) (prev : Option (List Int))
    (spec : ChordSpec) :
    vlStep lo hi targetBass w prev spec =
      (match ((vlCandList lo hi spec).foldl
        (fun (acc : Option (List Int) × Frac) cand =>
          let ch := vlProcess lo hi targetBass (prev.map (fun p => (sortAsc p).headD 0))
            w spec cand
          let score := vlScore w prev (prev.map (fun p => (sortAsc p).headD 0)) ch
          if score.blt acc.2 then (some ch, score) else acc)
        (none, Frac.ofInt 1000000000000000000)).1 with
      | some best => best
      | none =>
        enforceTriadSpacingSafe (fitChordToRange (voiceClose spec.rootMidi spec.qual) lo hi)
          lo hi 7 19) := rfl

theorem vlStep_spec (lo hi targetBass : Int) (w : Frac) (prev : Option (List Int))
    (spec : ChordSpec)
    (h0 : 0 ≤ lo) (h127 : hi ≤ 127) (hw47 : lo + 47 ≤ hi)
    (htb : 0 ≤ targetBass ∧ targetBass ≤ 127)
    (hrm : 6 ≤ spec.rootMidi ∧ spec.rootMidi ≤ 110)
    (hprev : ∀ p, prev = some p → StrictAsc p ∧ InRange lo hi p) :
    StrictAsc (vlStep lo hi targetBass w prev spec) ∧
    InRange lo hi (vlStep lo hi targetBass w prev spec) := by
  have hpbv : ∀ pb, (prev.map (fun p => (sortAsc p).headD 0)) = some pb →
      0 ≤ pb ∧ pb ≤ 127 := by
    intro pb hpb
    match prev, hpb with
    | some p, hpb =>
      obtain ⟨hps, hpi⟩ := hprev p rfl
      have hsp : sortAsc p = p := strictAsc_sortAsc_eq hps
      have hpbe : pb = p.headD 0 := by
        rw [show (some p).map (fun p => (sortAsc p).headD 0) =
          some ((sortAsc p).headD 0) from rfl] at hpb
        rw [hsp] at hpb
        injection hpb.symm
      match p, hpbe, hpi with
      | [], hpbe, _ =>
        rw [hpbe]
        constructor <;> norm_num
      | h :: t, hpbe, hpi =>
        have := hpi h (List.mem_cons_self _ _)
        rw [hpbe]
        simp only [List.headD_cons]
        constructor <;> omega
  rw [vlStep_eq]
  have hp := foldl_preserve
    (fun acc : Option (List Int) × Frac => ∀ y, acc.1 = some y →
      StrictAsc y ∧ InRange lo hi y)
    (fun (acc : Option (List Int) × Frac) cand =>
      let ch := vlProcess lo hi targetBass (prev.map (fun p => (sortAsc p).headD 0))
        w spec cand
      let score := vlScore w prev (prev.map (fun p => (sortAsc p).headD 0)) ch
      if score.blt acc.2 then (some ch, score) else acc)
    (vlCandList lo hi spec) (none, Frac.ofInt 1000000000000000000)
    (fun y hy => by cases hy)
    (fun b' a ha hb' => by
      dsimp only
      obtain ⟨hcs, hci, hcl⟩ := vlCandList_spec lo hi spec h0 h127 hw47 hrm a ha
      by_cases hblt : ((vlScore w prev (prev.map (fun p => (sortAsc p).headD 0))
          (vlProcess lo hi targetBass (prev.map (fun p => (sortAsc p).headD 0))
            w spec a)).blt b'.2) = true
      · rw [if_pos hblt]
        intro y hy
        have hye : y = vlProcess lo hi targetBass
            (prev.map (fun p => (sortAsc p).headD 0)) w spec a := by
          injection hy.symm
        rw [hye]
        exact vlProcess_spec lo hi targetBass _ w spec a h0 h127 hw47 htb hpbv hcs hci hcl
      · rw [if_neg hblt]
        exact hb')
  rcases hE : ((vlCandList lo hi spec).foldl
      (fun (acc : Option (List Int) × Frac) cand =>
        let ch := vlProcess lo hi targetBass (prev.map (fun p => (sortAsc p).headD 0))
          w spec cand
        let score := vlScore w prev (prev.map (fun p => (sortAsc p).headD 0)) ch
        if score.blt acc.2 then (some ch, score) else acc)
      (none, Frac.ofInt 1000000000000000000)).1 with _ | best
  · dsimp only
    obtain ⟨h1, h2, _⟩ := closeFitEnforce_spec spec.rootMidi spec.qual lo hi h0 h127 hw47
      hrm.1 hrm.2
    exact ⟨h1, h2⟩
  · dsimp only
    dsimp only at hp
    rw [hE] at hp
    exact hp best rfl

theorem closeStep_eq (lo hi targetBass : Int) (w : Frac) (pbOpt : Option Int)
    (spec : ChordSpec) :
    closeStep lo hi targetBass w pbOpt spec =
      enforceTriadSpacingSafe
        (applySlashBass (fitChordToRange (voiceClose spec.rootMidi spec.qual) lo hi)
          spec.slashPc targetBass lo hi pbOpt w) lo hi 7 19 := rfl

theorem closeStep_spec (lo hi targetBass : Int) (w : Frac) (pbOpt : Option Int)
    (spec : ChordSpec)
    (h0 : 0 ≤ lo) (h127 : hi ≤ 127) (hw47 : lo + 47 ≤ hi)
    (htb : 0 ≤ targetBass ∧ targetBass ≤ 127)
    (hrm : 6 ≤ spec.rootMidi ∧ spec.rootMidi ≤ 110)
    (hpb : ∀ pb, pbOpt = some pb → 0 ≤ pb ∧ pb ≤ 127) :
    StrictAsc (closeStep lo hi targetBass w pbOpt spec) ∧
    InRange lo hi (closeStep lo hi targetBass w pbOpt spec) := by
  rw [closeStep_eq]
  obtain ⟨hfs, hfi, hfl⟩ := closeFit_spec spec.rootMidi spec.qual lo hi h0 h127 hw47
    hrm.1 hrm.2
  obtain ⟨has, hai, hal⟩ := applySlashBass_spec
    (fitChordToRange (voiceClose spec.rootMidi spec.qual) lo hi) spec.slashPc targetBass
    lo hi pbOpt w h0 h127 hw47 hfs hfi hfl htb.1 htb.2 hpb
  obtain ⟨hes, hei, _, _⟩ := enforceTriadSpacingSafe_spec
    (applySlashBass (fitChordToRange (voiceClose spec.rootMidi spec.qual) lo hi)
      spec.slashPc targetBass lo hi pbOpt w) lo hi 7 19 h0 h127
    (by omega) (by omega) (by omega)
    (by rcases hal with h | h <;> omega)
    (by rcases hal with h | h <;> rw [h] <;> omega)
    (strictAsc_nodup has)
    (by
      intro n hn
      have := hai n hn
      constructor <;> omega)
    (by rcases hal with h | h <;> rw [h] <;> push_cast <;> omega)
  exact ⟨hes, hei⟩

theorem openStep_eq (lo hi targetBass : Int) (w : Frac) (pbOpt : Option Int)
    (spec : ChordSpec) :
    openStep lo hi targetBass w pbOpt spec =
      enforceTriadSpacingSafe
        (match spec.slashPc with
         | none => voiceOpenWithSlash (pcOf spec.rootMidi) spec.qual spec.slashPc lo hi pbOpt
         | some s =>
           if (triadPCs (pcOf spec.rootMidi) spec.qual).contains (pcOf s) then
             voiceOpenWithSlash (pcOf spec.rootMidi) spec.qual spec.slashPc lo hi pbOpt
           else
             applySlashBass
               (voiceOpenWithSlash (pcOf spec.rootMidi) spec.qual spec.slashPc lo hi pbOpt)
               spec.slashPc targetBass lo hi pbOpt w) lo hi 7 19 := rfl

theorem openStep_spec (lo hi targetBass : Int) (w : Frac) (pbOpt : Option Int)
    (spec : ChordSpec)
    (h0 : 0 ≤ lo) (h127 : hi ≤ 127) (hw47 : lo + 47 ≤ hi)
    (htb : 0 ≤ targetBass ∧ targetBass ≤ 127)
    (hpb : ∀ pb, pbOpt = some pb → 0 ≤ pb ∧ pb ≤ 127) :
    StrictAsc (openStep lo hi targetBass w pbOpt spec) ∧
    InRange lo hi (openStep lo hi targetBass w pbOpt spec) := by
  rw [openStep_eq]
  obtain ⟨hvs, hvi, hvl⟩ := voiceOpenWithSlash_spec (pcOf spec.rootMidi) spec.qual
    spec.slashPc lo hi pbOpt h0 h127 hw47 hpb
  have hmain : StrictAsc (match spec.slashPc with
      | none => voiceOpenWithSlash (pcOf spec.rootMidi) spec.qual spec.slashPc lo hi pbOpt
      | some s =>
        if (triadPCs (pcOf spec.rootMidi) spec.qual).contains (pcOf s) then
          voiceOpenWithSlash (pcOf spec.rootMidi) spec.qual spec.slashPc lo hi pbOpt
        else
          applySlashBass
            (voiceOpenWithSlash (pcOf spec.rootMidi) spec.qual spec.slashPc lo hi pbOpt)
            spec.slashPc targetBass lo hi pbOpt w) ∧
      InRange lo hi (match spec.slashPc with
      | none => voiceOpenWithSlash (pcOf spec.rootMidi) spec.qual spec.slashPc lo hi pbOpt
      | some s =>
        if (triadPCs (pcOf spec.rootMidi) spec.qual).contains (pcOf s) then
          voiceOpenWithSlash (pcOf spec.rootMidi) spec.qual spec.slashPc lo hi pbOpt
        else
          applySlashBass
            (voiceOpenWithSlash (pcOf spec.rootMidi) spec.qual spec.slashPc lo hi pbOpt)
            spec.slashPc targetBass lo hi pbOpt w) ∧
      ((match spec.slashPc with
      | none => voiceOpenWithSlash (pcOf spec.rootMidi) spec.qual spec.slashPc lo hi pbOpt
      | some s =>
        if (triadPCs (pcOf spec.rootMidi) spec.qual).contains (pcOf s) then
          voiceOpenWithSlash (pcOf spec.rootMidi) spec.qual spec.slashPc lo hi pbOpt
        else
          applySlashBass
            (voiceOpenWithSlash (pcOf spec.rootMidi) spec.qual spec.slashPc lo hi pbOpt)
            spec.slashPc targetBass lo hi pbOpt w).length = 3 ∨
       (match spec.slashPc with
      | none => voiceOpenWithSlash (pcOf spec.rootMidi) spec.qual spec.slashPc lo hi pbOpt
      | some s =>
        if (triadPCs (pcOf spec.rootMidi) spec.qual).contains (pcOf s) then
          voiceOpenWithSlash (pcOf spec.rootMidi) spec.qual spec.slashPc lo hi pbOpt
        else
          applySlashBass
            (voiceOpenWithSlash (pcOf spec.rootMidi) spec.qual spec.slashPc lo hi pbOpt)
            spec.slashPc targetBass lo hi pbOpt w).length = 4) := by
    rcases hsl : spec.slashPc with _ | s
    · rw [hsl] at hvs hvi hvl
      dsimp only
      exact ⟨hvs, hvi, Or.inl hvl⟩
    · rw [hsl] at hvs hvi hvl
      dsimp only
      split
      · exact ⟨hvs, hvi, Or.inl hvl⟩
      · exact applySlashBass_spec _ (some s) targetBass lo hi pbOpt w h0 h127 hw47
          hvs hvi hvl htb.1 htb.2 hpb
  obtain ⟨hms, hmi, hml⟩ := hmain
  obtain ⟨hes, hei, _, _⟩ := enforceTriadSpacingSafe_spec _ lo hi 7 19 h0 h127
    (by omega) (by omega) (by omega)
    (by rcases hml with h | h <;> omega)
    (by rcases hml with h | h <;> rw [h] <;> omega)
    (strictAsc_nodup hms)
    (by
      intro n hn
      have := hmi n hn
      constructor <;> omega)
    (by rcases hml with h | h <;> rw [h] <;> push_cast <;> omega)
  exact ⟨hes, hei⟩

theorem stepSeq_nil (step : Option Int → ChordSpec → List Int) (pbOpt : Option Int) :
    stepSeq step pbOpt [] = [] := rfl

theorem stepSeq_cons (step : Option Int → ChordSpec → List Int) (pbOpt : Option Int)
    (spec : ChordSpec) (rest : List ChordSpec) :
    stepSeq step pbOpt (spec :: rest) =
      step pbOpt spec :: stepSeq step
        (if (step pbOpt spec).isEmpty then pbOpt else some ((step pbOpt spec).headD 0))
        rest := rfl

theorem stepSeq_spec (lo hi : Int) (step : Option Int → ChordSpec → List Int)
    (Q : ChordSpec → Prop)
    (hstep : ∀ pbOpt spec, Q spec → (∀ pb, pbOpt = some pb → 0 ≤ pb ∧ pb ≤ 127) →
      StrictAsc (step pbOpt spec) ∧ InRange lo hi (step pbOpt spec))
    (h0 : 0 ≤ lo) (h127 : hi ≤ 127) :
    ∀ (specs : List ChordSpec) (pbOpt : Option Int),
      (∀ spec ∈ specs, Q spec) →
      (∀ pb, pbOpt = some pb → 0 ≤ pb ∧ pb ≤ 127) →
      ∀ out ∈ stepSeq step pbOpt specs, StrictAsc out ∧ InRange lo hi out := by
  intro specs
  induction specs with
  | nil =>
    intro pbOpt _ _ out hout
    rw [stepSeq_nil] at hout
    cases hout
  | cons spec rest ih =>
    intro pbOpt hQ hpb out hout
    rw [stepSeq_cons] at hout
    have hcur := hstep pbOpt spec (hQ spec (List.mem_cons_self _ _)) hpb
    rcases List.mem_cons.mp hout with h1 | h2
    · rw [h1]
      exact hcur
    · refine ih _ (fun s hs => hQ s (List.mem_cons_of_mem _ hs)) ?_ out h2
      intro pb hpb2
      split at hpb2
      · exact hpb pb hpb2
      · have hne : step pbOpt spec ≠ [] := by
          intro hnil
          next hemp => rw [hnil] at hemp; simp at hemp
        have hpbe : pb = (step pbOpt spec).headD 0 := by injection hpb2.symm
        match hh : step pbOpt spec, hne, hcur with
        | h :: t, _, hcur =>
          have := hcur.2 h (List.mem_cons_self _ _)
          rw [hpbe, hh]
          simp only [List.headD_cons]
          constructor <;> omega

theorem vlGo_nil (lo hi targetBass : Int) (w : Frac) (prev : Option (List Int)) :
    voiceLeadSequenceSmart.go lo hi w targetBass prev [] = [] := rfl

theorem vlGo_cons (lo hi targetBass : Int) (w : Frac) (prev : Option (List Int))
    (spec : ChordSpec) (rest : List ChordSpec) :
    voiceLeadSequenceSmart.go lo hi w targetBass prev (spec :: rest) =
      vlStep lo hi targetBass w prev spec ::
        voiceLeadSequenceSmart.go lo hi w targetBass
          (some (vlStep lo hi targetBass w prev spec)) rest := rfl

theorem vlGo_spec (lo hi targetBass : Int) (w : Frac)
    (h0 : 0 ≤ lo) (h127 : hi ≤ 127) (hw47 : lo + 47 ≤ hi)
    (htb : 0 ≤ targetBass ∧ targetBass ≤ 127) :
    ∀ (specs : List ChordSpec) (prev : Option (List Int)),
      (∀ spec ∈ specs, 6 ≤ spec.rootMidi ∧ spec.rootMidi ≤ 110) →
      (∀ p, prev = some p → StrictAsc p ∧ InRange lo hi p) →
      ∀ out ∈ voiceLeadSequenceSmart.go lo hi w targetBass prev specs,
        StrictAsc out ∧ InRange lo hi out := by
  intro specs
  induction specs with
  | nil =>
    intro prev _ _ out hout
    rw [vlGo_nil] at hout
    cases hout
  | cons spec rest ih =>
    intro prev hQ hprev out hout
    rw [vlGo_cons] at hout
    have hcur := vlStep_spec lo hi targetBass w prev spec h0 h127 hw47 htb
      (hQ spec (List.mem_cons_self _ _)) hprev
    rcases List.mem_cons.mp hout with h1 | h2
    · rw [h1]
      exact hcur
    · refine ih _ (fun s hs => hQ s (List.mem_cons_of_mem _ hs)) ?_ out h2
      intro p hp
      have hpe : p = vlStep lo hi targetBass w prev spec := by injection hp.symm
      rw [hpe]
      exact hcur

theorem targetBassVal_bound (lo hi : Int) (h0 : 0 ≤ lo) (h127 : hi ≤ 127)
    (hw47 : lo + 47 ≤ hi) :
    0 ≤ lo + ((Frac.mk 20 100).mulInt (hi - lo)).jsRound ∧
    lo + ((Frac.mk 20 100).mulInt (hi - lo)).jsRound ≤ 127 := by
  show 0 ≤ lo + Int.fdiv (2 * (20 * (hi - lo)) + 100) (2 * 100) ∧
    lo + Int.fdiv (2 * (20 * (hi - lo)) + 100) (2 * 100) ≤ 127
  rw [Int.fdiv_eq_ediv _ (by norm_num)]
  omega

theorem generate_eq (syms : List ChordSym) (mode : String) (lo hi : Int) (w0 : Frac) :
    generate syms mode lo hi w0 =
      (let w := if w0.blt (Frac.ofInt 0) then Frac.ofInt 0
                else if (Frac.ofInt 3).blt w0 then Frac.ofInt 3 else w0
       let specs := syms.map (fun o =>
         ({ rootMidi := midiNear o.rootPc 60, qual := o.qual,
            slashPc := o.slashPc } : ChordSpec))
       if mode = "voicelead" then voiceLeadSequenceSmart specs lo hi w
       else
         let targetBass := lo + ((Frac.mk 20 100).mulInt (hi - lo)).jsRound
         if mode = "open" then stepSeq (openStep lo hi targetBass w) none specs
         else stepSeq (closeStep lo hi targetBass w) none specs) := rfl

theorem voiceLeadSequenceSmart_eq (specs : List ChordSpec) (lo hi : Int) (w : Frac) :
    voiceLeadSequenceSmart specs lo hi w =
      voiceLeadSequenceSmart.go lo hi w
        (lo + ((Frac.mk 20 100).mulInt (hi - lo)).jsRound) none specs := rfl

theorem specsOf_rootMidi (syms : List ChordSym) (hWF : ∀ o ∈ syms, WFSym o) :
    ∀ spec ∈ syms.map (fun o =>
      ({ rootMidi := midiNear o.rootPc 60, qual := o.qual,
         slashPc := o.slashPc } : ChordSpec)),
      6 ≤ spec.rootMidi ∧ spec.rootMidi ≤ 110 := by
  intro spec hspec
  obtain ⟨o, ho, hoe⟩ := List.mem_map.mp hspec
  obtain ⟨hr0, hr1⟩ := hWF o ho
  obtain ⟨_, _, _, _, hnear⟩ := midiNear_spec o.rootPc 60 hr0 hr1 (by norm_num) (by norm_num)
  have := hnear (by norm_num) (by norm_num)
  rw [← hoe]
  dsimp only
  omega

theorem generate_good (syms : List ChordSym) (mode : String) (lo hi : Int) (w0 : Frac)
    (h0 : 0 ≤ lo) (h127 : hi ≤ 127) (hw47 : lo + 47 ≤ hi)
    (hWF : ∀ o ∈ syms, WFSym o) :
    ∀ out ∈ generate syms mode lo hi w0, StrictAsc out ∧ InRange lo hi out := by
  intro out hout
  rw [generate_eq] at hout
  dsimp only at hout
  have htb := targetBassVal_bound lo hi h0 h127 hw47
  have hQ := specsOf_rootMidi syms hWF
  split at hout
  · rw [voiceLeadSequenceSmart_eq] at hout
    exact vlGo_spec lo hi (lo + ((Frac.mk 20 100).mulInt (hi - lo)).jsRound) _
      h0 h127 hw47 htb _ none hQ (fun p hp => by cases hp) out hout
  · split at hout
    · exact stepSeq_spec lo hi _ (fun _ => True)
        (fun pbOpt spec _ hpb => openStep_spec lo hi _ _ pbOpt spec h0 h127 hw47 htb hpb)
        h0 h127 _ none (fun _ _ => trivial) (fun pb hpb => by cases hpb) out hout
    · exact stepSeq_spec lo hi _ (fun spec => 6 ≤ spec.rootMidi ∧ spec.rootMidi ≤ 110)
        (fun pbOpt spec hq hpb => closeStep_spec lo hi _ _ pbOpt spec h0 h127 hw47 htb hq hpb)
        h0 h127 _ none hQ (fun pb hpb => by cases hpb) out hout

/-- C1 (amended): the claim as stated is false for very narrow register
bounds (see `C1_cex`: at `lo = 1, hi = 2` a pitch 0 below `lo` is emitted).
With the spec's open question on a minimum usable width resolved to
`hi - lo ≥ 47` (the value the default register `[36, 84]` satisfies), the
invariant holds: for every progression of parser-produced symbols, every
mode string and every bass weight, every pitch of every emitted chord of
`generate` lies within `[lo, hi]`. -/
theorem C1_inRange (syms : List ChordSym) (mode : String) (lo hi : Int) (w0 : Frac)
    (h0 : 0 ≤ lo) (h127 : hi ≤ 127) (hw47 : lo + 47 ≤ hi)
    (hWF : ∀ o ∈ syms, WFSym o) :
    ∀ out ∈ generate syms mode lo hi w0, InRange lo hi out :=
  fun out hout => (generate_good syms mode lo hi w0 h0 h127 hw47 hWF out hout).2

theorem C1_inRange_witness :
    ((0:Int) ≤ 36 ∧ (84:Int) ≤ 127 ∧ 36 + 47 ≤ (84:Int) ∧ ∀ o ∈ [symCMaj], WFSym o) ∧
    (∀ out ∈ generate [symCMaj] "close" 36 84 wDemo, InRange 36 84 out) :=
  ⟨⟨by norm_num, by norm_num, by norm_num, fun o ho => by
      rw [List.mem_singleton] at ho
      subst ho
      exact ⟨by decide, by decide⟩⟩,
   C1_inRange [symCMaj] "close" 36 84 wDemo (by norm_num) (by norm_num) (by norm_num)
     (fun o ho => by
      rw [List.mem_singleton] at ho
      subst ho
      exact ⟨by decide, by decide⟩)⟩

/-- C1 counterexample: at the valid (per the stated `lo < hi`, `0..127`
invariant) register bounds `lo = 1, hi = 2`, voicing a plain C major chord
in close mode emits a pitch outside `[lo, hi]`. -/
theorem C1_cex :
    ∃ out ∈ generate [symCMaj] "close" 1 2 wDemo, ∃ n ∈ out, ¬ ((1:Int) ≤ n ∧ n ≤ 2) := by
  decide

/-- C2 (amended): the claim as stated is false for very narrow register
bounds (see `C2_cex`: at `lo = 0, hi = 1` the emitted chord is `[0,0,0]`).
With the minimum usable width `hi - lo ≥ 47`, every emitted chord of
`generate` is strictly ascending, so no two entries are the same absolute
pitch. -/
theorem C2_strictAsc (syms : List ChordSym) (mode : String) (lo hi : Int) (w0 : Frac)
    (h0 : 0 ≤ lo) (h127 : hi ≤ 127) (hw47 : lo + 47 ≤ hi)
    (hWF : ∀ o ∈ syms, WFSym o) :
    ∀ out ∈ generate syms mode lo hi w0, StrictAsc out :=
  fun out hout => (generate_good syms mode lo hi w0 h0 h127 hw47 hWF out hout).1

theorem C2_strictAsc_witness :
    ((0:Int) ≤ 36 ∧ (84:Int) ≤ 127 ∧ 36 + 47 ≤ (84:Int) ∧ ∀ o ∈ [symCMaj], WFSym o) ∧
    (∀ out ∈ generate [symCMaj] "open" 36 84 wDemo, StrictAsc out) :=
  ⟨⟨by norm_num, by norm_num, by norm_num, fun o ho => by
      rw [List.mem_singleton] at ho
      subst ho
      exact ⟨by decide, by decide⟩⟩,
   C2_strictAsc [symCMaj] "open" 36 84 wDemo (by norm_num) (by norm_num) (by norm_num)
     (fun o ho => by
      rw [List.mem_singleton] at ho
      subst ho
      exact ⟨by decide, by decide⟩)⟩

/-- C2 counterexample: at the valid bounds `lo = 0, hi = 1`, close mode
emits a chord with duplicated absolute pitches (the three voices collapse
to the same pitch). -/
theorem C2_cex :
    ∃ out ∈ generate [symCMaj] "close" 0 1 wDemo, ¬ out.Nodup := by
  decide

/-- C5 (amended): `fitChordToRange` is not idempotent in general
(see `C5_cex`), because the final per-note repair can leave a note below
`lo` whose re-fit moves again.  It is idempotent on the inputs the pipeline
feeds it once the register is wide enough for the chord: for a duplicate-free
chord within the `[-24, 199]` working window and bounds satisfying
`lo + 11 + 12*(len-1) ≤ hi`, a second application is the identity. -/
theorem C5_idem (ch : List Int) (lo hi : Int)
    (h0 : 0 ≤ lo) (h127 : hi ≤ 127) (hne : ch ≠ []) (hnd : ch.Nodup)
    (hbnd : ∀ n ∈ ch, -24 ≤ n ∧ n ≤ 199)
    (hw : lo + 11 + 12 * ((ch.length : Int) - 1) ≤ hi) :
    fitChordToRange (fitChordToRange ch lo hi) lo hi = fitChordToRange ch lo hi := by
  obtain ⟨hs, hin, hl, _⟩ := fitChordToRange_spec ch lo hi h0 h127 hne hnd hbnd hw
  refine fitChordToRange_fixed _ lo hi h0 h127 ?_ hs hin
  intro hnil
  rw [hnil, List.length_nil] at hl
  have : 0 < ch.length := List.length_pos.mpr hne
  omega

theorem C5_idem_witness :
    ((0:Int) ≤ 36 ∧ (84:Int) ≤ 127 ∧ ([60, 64, 67] : List Int) ≠ [] ∧
      ([60, 64, 67] : List Int).Nodup ∧
      (∀ n ∈ ([60, 64, 67] : List Int), -24 ≤ n ∧ n ≤ 199) ∧
      36 + 11 + 12 * (((([60, 64, 67] : List Int)).length : Int) - 1) ≤ 84) ∧
    fitChordToRange (fitChordToRange [60, 64, 67] 36 84) 36 84 =
      fitChordToRange [60, 64, 67] 36 84 :=
  ⟨⟨by norm_num, by norm_num, by decide, by decide, by decide, by decide⟩,
   C5_idem [60, 64, 67] 36 84 (by norm_num) (by norm_num) (by decide) (by decide)
     (by decide) (by decide)⟩

/-- C5 counterexample: `fitChordToRange` is not idempotent for every list
and valid bounds pair: re-fitting the fit of `[83, 100, 100]` into `[3, 28]`
changes the result again. -/
theorem C5_cex :
    fitChordToRange (fitChordToRange [83, 100, 100] 3 28) 3 28 ≠
      fitChordToRange [83, 100, 100] 3 28 := by
  decide

/-- C8 (amended): the last-resort correction is not a single drop of the top
voice (see `C8_cex`).  What the source does: after the other repairs, the
spacing engine runs a bounded loop (up to 8 iterations) whose guard reads
the *third-lowest* voice `x[2]` (which is the top voice only for 3-note
chords); each iteration drops `x[2]` one octave, reverts the drop when it
does not land strictly above `x[1]`, then re-fits to range and re-sorts,
and the loop repeats while `x[2] - x[0]` still exceeds
`maxSpreadPreferred + 12`. -/
theorem C8_lastResort (ch : List Int) (lo hi minSep ms : Int) :
    (enforceTriadSpacingSafe ch lo hi minSep ms =
      if ch.length < 2 then ch
      else sortAsc (lastResortLoop lo hi ms 8 (sortAsc (enforceBassBelowC4Safe
        (tighten lo hi ms 8 (spacingStep1 lo hi minSep
          (fitChordToRange (sortAsc ch) lo hi))) lo hi)))) ∧
    (∀ (f : Nat) (x : List Int),
      lastResortLoop lo hi ms (f + 1) x =
        if x.length ≥ 3 ∧ x.getD 2 0 - x.getD 0 0 > ms + 12 then
          lastResortLoop lo hi ms f (lastResortBody lo hi x)
        else x) ∧
    (∀ (a b c : Int) (rest : List Int),
      lastResortBody lo hi (a :: b :: c :: rest) =
        sortAsc (fitChordToRange
          (a :: b :: (if c - 12 ≤ b then c else c - 12) :: rest) lo hi)) := by
  refine ⟨?_, fun f x => rfl, fun a b c rest => ?_⟩
  · by_cases h : ch.length < 2
    · rw [if_pos h]
      unfold enforceTriadSpacingSafe
      rw [if_pos h]
    · rw [if_neg h]
      exact enforceTriadSpacingSafe_eq ch lo hi minSep ms h
  · show sortAsc (fitChordToRange
      (a :: b :: (if c - 12 ≤ b then c - 12 + 12 else c - 12) :: rest) lo hi) = _
    by_cases hc : c - 12 ≤ b
    · rw [if_pos hc, if_pos hc]
      norm_num
    · rw [if_neg hc, if_neg hc]

/-- C8 counterexample: on the 4-note chord `[17, 113, 115, 123]` at bounds
`[1, 112]` (default `minSep = 7`, `maxSpreadPreferred = 19`), the source's
bounded `x[2]` loop and the claim's single top-voice octave drop produce
different chords. -/
theorem C8_cex :
    enforceTriadSpacingSafe [17, 113, 115, 123] 1 112 7 19 ≠
      enforceSpacingOnceTop [17, 113, 115, 123] 1 112 7 19 := by
  decide

/-- C9 (confirmed): for the single chord `[60, 64, 67]` exported in block
style at bpm 60, 2 beats per chord and 480 ticks per beat, the track is
byte-exactly: tempo meta (mpqn `0x0F4240` = 1000000), 4/4 time signature
meta, program change, then exactly 3 note-on events (status `0x90`,
velocity 43 = `round(75/sqrt 3)`) at delta 0, then exactly 3 note-off
events (velocity 0) of which the first carries delta 960 (`0x87 0x40` in
variable-length encoding) and the rest delta 0, terminated by the
end-of-track meta `FF 2F 00`. -/
theorem C9_blockTrack :
    buildMidiTrack [[60, 64, 67]] demoMidiOpts =
      ([0, 0xFF, 0x51, 0x03, 0x0F, 0x42, 0x40] ++
       [0, 0xFF, 0x58, 0x04, 0x04, 0x02, 0x18, 0x08] ++
       [0, 0xC0, 0x00]) ++
      ([0, 0x90, 60, 43] ++ [0, 0x90, 64, 43] ++ [0, 0x90, 67, 43]) ++
      ([0x87, 0x40, 0x90, 60, 0] ++ [0, 0x90, 64, 0] ++ [0, 0x90, 67, 0]) ++
      [0, 0xFF, 0x2F, 0x00] := by
  decide

theorem frac_ble_refl (x : Frac) : x.ble x = true := by
  unfold Frac.ble
  simp

theorem frac_ble_of_blt {x y : Frac} (h : x.blt y = true) : x.ble y = true := by
  unfold Frac.blt at h
  unfold Frac.ble
  simp only [decide_eq_true_eq] at h ⊢
  omega

theorem frac_ble_of_not_blt {x y : Frac} (h : x.blt y = false) : y.ble x = true := by
  unfold Frac.blt at h
  unfold Frac.ble
  simp only [decide_eq_false_iff_not, not_lt] at h
  simp only [decide_eq_true_eq]
  exact h

theorem frac_ble_trans {x y z : Frac} (hx : 0 < x.den) (hy : 0 < y.den) (hz : 0 < z.den)
    (h1 : x.ble y = true) (h2 : y.ble z = true) : x.ble z = true := by
  unfold Frac.ble at h1 h2 ⊢
  simp only [decide_eq_true_eq] at h1 h2 ⊢
  nlinarith [mul_le_mul_of_nonneg_right h1 (le_of_lt hz),
    mul_le_mul_of_nonneg_right h2 (le_of_lt hx)]

theorem foldl_keep {α β : Type} (f : β → α → β) :
    ∀ (l : List α) (acc : β), (∀ c ∈ l, f acc c = acc) → l.foldl f acc = acc := by
  intro l
  induction l with
  | nil => intro acc _; rfl
  | cons c t ih =>
    intro acc h
    rw [List.foldl_cons, h c (List.mem_cons_self _ _)]
    exact ih acc (fun c' hc' => h c' (List.mem_cons_of_mem _ hc'))

theorem foldMin_le {α β : Type} (pr : α → β) (g : α → Frac)
    (hgd : ∀ c, 0 < (g c).den) :
    ∀ (l : List α) (acc : Option β × Frac), 0 < acc.2.den →
      0 < (l.foldl (fun acc c => if (g c).blt acc.2 then (some (pr c), g c) else acc)
          acc).2.den ∧
      (∀ c ∈ l, ((l.foldl (fun acc c => if (g c).blt acc.2 then (some (pr c), g c) else acc)
          acc).2).ble (g c) = true) ∧
      ((l.foldl (fun acc c => if (g c).blt acc.2 then (some (pr c), g c) else acc)
          acc).2).ble acc.2 = true := by
  intro l
  induction l with
  | nil =>
    intro acc hacc
    refine ⟨hacc, ?_, frac_ble_refl _⟩
    intro c hc
    cases hc
  | cons c t ih =>
    intro acc hacc
    rw [List.foldl_cons]
    by_cases hblt : (g c).blt acc.2 = true
    · rw [if_pos hblt]
      obtain ⟨hden, hall, hlast⟩ := ih (some (pr c), g c) (hgd c)
      refine ⟨hden, ?_, ?_⟩
      · intro c' hc'
        rcases List.mem_cons.mp hc' with h1 | h2
        · rw [h1]
          exact hlast
        · exact hall c' h2
      · exact frac_ble_trans hden (hgd c) hacc hlast (frac_ble_of_blt hblt)
    · rw [if_neg hblt]
      obtain ⟨hden, hall, hlast⟩ := ih acc hacc
      refine ⟨hden, ?_, hlast⟩
      intro c' hc'
      rcases List.mem_cons.mp hc' with h1 | h2
      · rw [h1]
        exact frac_ble_trans hden hacc (hgd c) hlast
          (frac_ble_of_not_blt (Bool.not_eq_true _ ▸ hblt))
      · exact hall c' h2

theorem foldMin_shape {α β : Type} (pr : α → β) (g : α → Frac) (l : List α)
    (acc0 : Option β × Frac)
    (h0 : ∀ y, acc0.1 = some y → ∃ c ∈ l, y = pr c ∧ acc0.2 = g c) :
    ∀ y, (l.foldl (fun acc c => if (g c).blt acc.2 then (some (pr c), g c) else acc)
        acc0).1 = some y →
      ∃ c ∈ l, y = pr c ∧
        (l.foldl (fun acc c => if (g c).blt acc.2 then (some (pr c), g c) else acc)
          acc0).2 = g c :=
  foldl_preserve
    (fun acc : Option β × Frac => ∀ y, acc.1 = some y → ∃ c ∈ l, y = pr c ∧ acc.2 = g c)
    (fun acc c => if (g c).blt acc.2 then (some (pr c), g c) else acc) l acc0 h0
    (fun b' a ha hb' => by
      dsimp only
      by_cases hblt : (g a).blt b'.2 = true
      · rw [if_pos hblt]
        intro y hy
        have hye : y = pr a := by injection hy.symm
        exact ⟨a, ha, hye, rfl⟩
      · rw [if_neg hblt]
        exact hb')

theorem foldMin_some {α β : Type} (pr : α → β) (g : α → Frac) (l : List α)
    (acc0 : Option β × Frac) (h0 : acc0.1 ≠ none) :
    (l.foldl (fun acc c => if (g c).blt acc.2 then (some (pr c), g c) else acc)
      acc0).1 ≠ none :=
  foldl_preserve (fun acc : Option β × Frac => acc.1 ≠ none)
    (fun acc c => if (g c).blt acc.2 then (some (pr c), g c) else acc) l acc0 h0
    (fun b' a _ hb' => by
      dsimp only
      by_cases hblt : (g a).blt b'.2 = true
      · rw [if_pos hblt]
        exact Option.some_ne_none _
      · rw [if_neg hblt]
        exact hb')

theorem uniqFirst_go_length : ∀ (l : List (List Int)) (seen : List (List Int)),
    (uniqFirst.go seen l).length ≤ l.length := by
  intro l
  induction l with
  | nil => intro seen; exact Nat.le_refl _
  | cons ch rest ih =>
    intro seen
    rw [show uniqFirst.go seen (ch :: rest) =
      (if seen.contains ch then uniqFirst.go seen rest
       else ch :: uniqFirst.go (ch :: seen) rest) from rfl]
    split
    · exact Nat.le_succ_of_le (ih seen)
    · rw [List.length_cons, List.length_cons]
      exact Nat.succ_le_succ (ih (ch :: seen))

theorem candidatesForTriad_length (rootPc : Int) (qual : String) (targetMidi lo hi : Int) :
    (candidatesForTriad rootPc qual targetMidi lo hi).length ≤ 15 := by
  unfold candidatesForTriad
  refine Nat.le_trans (uniqFirst_go_length _ []) ?_
  rw [List.length_flatMap]
  simp only [List.map_cons, List.map_nil, List.length_map, List.length_range]
  rfl

theorem foldl_add_bound (b : Int) : ∀ (l : List Int) (init : Int),
    (∀ x ∈ l, 0 ≤ x ∧ x ≤ b) →
    init ≤ l.foldl (· + ·) init ∧
      l.foldl (· + ·) init ≤ init + b * (l.length : Int) := by
  intro l
  induction l with
  | nil =>
    intro init _
    rw [List.foldl_nil]
    constructor
    · exact le_refl _
    · rw [List.length_nil]
      push_cast
      omega
  | cons x t ih =>
    intro init h
    rw [List.foldl_cons]
    have hx := h x (List.mem_cons_self _ _)
    obtain ⟨h1, h2⟩ := ih (init + x) (fun y hy => h y (List.mem_cons_of_mem _ hy))
    constructor
    · omega
    · rw [List.length_cons]
      push_cast
      have hmul : b * ((t.length : Int) + 1) = b * (t.length : Int) + b := by ring
      rw [hmul]
      linarith

theorem motionCost_bound (p ch : List Int)
    (hp : ∀ n ∈ p, 0 ≤ n ∧ n ≤ 127) (hch : ∀ n ∈ ch, 0 ≤ n ∧ n ≤ 127)
    (hlen : (p.length : Int) ≤ 4) :
    0 ≤ motionCost p ch ∧ motionCost p ch ≤ 508 := by
  unfold motionCost
  have hmem : ∀ x ∈ (((sortAsc p).zip (sortAsc ch)).map
      (fun q => (((q.1 - q.2).natAbs : Nat) : Int))), 0 ≤ x ∧ x ≤ 127 := by
    intro x hx
    rw [List.mem_map] at hx
    obtain ⟨⟨a, c⟩, hq, hxe⟩ := hx
    obtain ⟨hap, hcp⟩ := List.of_mem_zip hq
    have ha := hp a ((sortAsc_mem p a).mp hap)
    have hc := hch c ((sortAsc_mem ch c).mp hcp)
    rw [← hxe]
    constructor
    · positivity
    · have : (a - c).natAbs ≤ 127 := by omega
      omega
  obtain ⟨h1, h2⟩ := foldl_add_bound 127 _ 0 hmem
  have hlen2 : ((((sortAsc p).zip (sortAsc ch)).map
      (fun q => (((q.1 - q.2).natAbs : Nat) : Int))).length : Int) ≤ 4 := by
    rw [List.length_map, List.length_zip]
    have h3 : ((sortAsc p).length ⊓ (sortAsc ch).length : Nat) ≤ (sortAsc p).length :=
      Nat.min_le_left _ _
    have h4 : (sortAsc p).length = p.length := sortAsc_length p
    omega
  exact ⟨h1, by omega⟩

theorem score_num_bound (U B d n : Int) (hU : 0 ≤ U ∧ U ≤ 508) (hB : 0 ≤ B ∧ B ≤ 127)
    (hd : 0 < d) (hn0 : 0 ≤ n) (hn1 : n ≤ 3 * d) :
    0 ≤ U * d + n * B ∧ U * d + n * B ≤ 889 * d := by
  obtain ⟨hU0, hU1⟩ := hU
  obtain ⟨hB0, hB1⟩ := hB
  constructor
  · have ha := mul_nonneg hU0 hd.le
    have hb := mul_nonneg hn0 hB0
    linarith
  · have h1 : U * d ≤ 508 * d := mul_le_mul_of_nonneg_right hU1 hd.le
    have h2 : n * B ≤ n * 127 := mul_le_mul_of_nonneg_left hB1 hn0
    have h3 : n * 127 ≤ 3 * d * 127 := mul_le_mul_of_nonneg_right hn1 (by norm_num)
    linarith

theorem bassCost_bound (pb : Int) (ch : List Int) (hpb : 0 ≤ pb ∧ pb ≤ 127)
    (hch : ∀ n ∈ ch, 0 ≤ n ∧ n ≤ 127) :
    0 ≤ (if ch.isEmpty then (0:Int) else (((ch.headD 0 - pb).natAbs : Nat) : Int)) ∧
    (if ch.isEmpty then (0:Int) else (((ch.headD 0 - pb).natAbs : Nat) : Int)) ≤ 127 := by
  match ch, hch with
  | [], _ =>
    show (0:Int) ≤ 0 ∧ (0:Int) ≤ 127
    norm_num
  | h :: t, hch =>
    show (0:Int) ≤ (((h - pb).natAbs : Nat) : Int) ∧ (((h - pb).natAbs : Nat) : Int) ≤ 127
    have hh := hch h (List.mem_cons_self _ _)
    have h127 : (h - pb).natAbs ≤ 127 := by omega
    constructor
    · positivity
    · omega

theorem vlScore_bound (w : Frac) (prev : Option (List Int)) (pbOpt : Option Int)
    (ch : List Int)
    (hwn : 0 ≤ w.num) (hw3 : w.num ≤ 3 * w.den) (hd : 0 < w.den)
    (hprev : ∀ p, prev = some p → (∀ n ∈ p, 0 ≤ n ∧ n ≤ 127) ∧ (p.length : Int) ≤ 4)
    (hpb : ∀ pb, pbOpt = some pb → 0 ≤ pb ∧ pb ≤ 127)
    (hch : ∀ n ∈ ch, 0 ≤ n ∧ n ≤ 127) :
    0 ≤ (vlScore w prev pbOpt ch).num ∧
      (vlScore w prev pbOpt ch).num ≤ 889 * w.den := by
  rcases prev with _ | p <;> rcases pbOpt with _ | pb
  · show 0 ≤ (0:Int) * w.den + w.num * 0 ∧ (0:Int) * w.den + w.num * 0 ≤ 889 * w.den
    exact score_num_bound 0 0 w.den w.num ⟨le_refl _, by norm_num⟩ ⟨le_refl _, by norm_num⟩
      hd hwn hw3
  · show 0 ≤ (0:Int) * w.den + w.num *
        (if ch.isEmpty then (0:Int) else (((ch.headD 0 - pb).natAbs : Nat) : Int)) ∧
      (0:Int) * w.den + w.num *
        (if ch.isEmpty then (0:Int) else (((ch.headD 0 - pb).natAbs : Nat) : Int)) ≤
        889 * w.den
    exact score_num_bound 0 _ w.den w.num ⟨le_refl _, by norm_num⟩
      (bassCost_bound pb ch (hpb pb rfl) hch) hd hwn hw3
  · show 0 ≤ motionCost p ch * w.den + w.num * 0 ∧
      motionCost p ch * w.den + w.num * 0 ≤ 889 * w.den
    obtain ⟨hpm, hpl⟩ := hprev p rfl
    exact score_num_bound _ 0 w.den w.num (motionCost_bound p ch hpm hch hpl)
      ⟨le_refl _, by norm_num⟩ hd hwn hw3
  · show 0 ≤ motionCost p ch * w.den + w.num *
        (if ch.isEmpty then (0:Int) else (((ch.headD 0 - pb).natAbs : Nat) : Int)) ∧
      motionCost p ch * w.den + w.num *
        (if ch.isEmpty then (0:Int) else (((ch.headD 0 - pb).natAbs : Nat) : Int)) ≤
        889 * w.den
    obtain ⟨hpm, hpl⟩ := hprev p rfl
    exact score_num_bound _ _ w.den w.num (motionCost_bound p ch hpm hch hpl)
      (bassCost_bound pb ch (hpb pb rfl) hch) hd hwn hw3

theorem vlScore_den (w : Frac) (prev : Option (List Int)) (pbOpt : Option Int)
    (ch : List Int) : (vlScore w prev pbOpt ch).den = w.den := rfl

theorem vlScore_none_num (w : Frac) (ch : List Int) :
    (vlScore w none none ch).num = 0 := by
  show 0 * w.den + w.num * 0 = 0
  ring

theorem vlCandList_ne_nil (lo hi : Int) (spec : ChordSpec) :
    vlCandList lo hi spec ≠ [] := by
  unfold vlCandList
  dsimp only
  split
  · exact List.cons_ne_nil _ _
  · next h => exact fun hc => h (by rw [hc]; rfl)

theorem vlStep_eq3 (lo hi targetBass : Int) (w : Frac) (prev : Option (List Int))
    (spec : ChordSpec) :
    vlStep lo hi targetBass w prev spec =
      (match ((vlCandList lo hi spec).foldl
        (fun (acc : Option (List Int) × Frac) c =>
          if (vlScore w prev (prev.map (fun p => (sortAsc p).headD 0))
              (vlProcess lo hi targetBass (prev.map (fun p => (sortAsc p).headD 0))
                w spec c)).blt acc.2
          then (some (vlProcess lo hi targetBass (prev.map (fun p => (sortAsc p).headD 0))
                  w spec c),
                vlScore w prev (prev.map (fun p => (sortAsc p).headD 0))
                  (vlProcess lo hi targetBass (prev.map (fun p => (sortAsc p).headD 0))
                    w spec c))
          else acc)
        (none, Frac.ofInt 1000000000000000000)).1 with
      | some best => best
      | none =>
        enforceTriadSpacingSafe
          (fitChordToRange (voiceClose spec.rootMidi spec.qual) lo hi) lo hi 7 19) := rfl

theorem vlStep_min (lo hi targetBass : Int) (w : Frac) (prev : Option (List Int))
    (spec : ChordSpec)
    (h0 : 0 ≤ lo) (h127 : hi ≤ 127) (hw47 : lo + 47 ≤ hi)
    (htb : 0 ≤ targetBass ∧ targetBass ≤ 127)
    (hrm : 6 ≤ spec.rootMidi ∧ spec.rootMidi ≤ 110)
    (hprev : ∀ p, prev = some p → StrictAsc p ∧ InRange lo hi p ∧ (p.length : Int) ≤ 4)
    (hd : 0 < w.den) (hwn : 0 ≤ w.num) (hw3 : w.num ≤ 3 * w.den) :
    ∃ cand ∈ vlCandList lo hi spec,
      vlStep lo hi targetBass w prev spec =
        vlProcess lo hi targetBass (prev.map (fun p => (sortAsc p).headD 0)) w spec cand ∧
      ∀ c ∈ vlCandList lo hi spec,
        ((vlScore w prev (prev.map (fun p => (sortAsc p).headD 0))
            (vlStep lo hi targetBass w prev spec)).ble
          (vlScore w prev (prev.map (fun p => (sortAsc p).headD 0))
            (vlProcess lo hi targetBass (prev.map (fun p => (sortAsc p).headD 0)) w spec c)))
          = true := by
  have hpbv : ∀ x, (prev.map (fun p => (sortAsc p).headD 0)) = some x →
      0 ≤ x ∧ x ≤ 127 := by
    intro pb hpb
    match prev, hpb with
    | some p, hpb =>
      obtain ⟨hps, hpi, _⟩ := hprev p rfl
      have hsp : sortAsc p = p := strictAsc_sortAsc_eq hps
      have hpbe : pb = p.headD 0 := by
        rw [show (some p).map (fun p => (sortAsc p).headD 0) =
          some ((sortAsc p).headD 0) from rfl] at hpb
        rw [hsp] at hpb
        injection hpb.symm
      match p, hpbe, hpi with
      | [], hpbe, _ =>
        rw [hpbe]
        constructor <;> norm_num
      | h :: t, hpbe, hpi =>
        have := hpi h (List.mem_cons_self _ _)
        rw [hpbe]
        simp only [List.headD_cons]
        constructor <;> omega
  have hscB : ∀ c ∈ vlCandList lo hi spec,
      0 ≤ (vlScore w prev (prev.map (fun p => (sortAsc p).headD 0))
        (vlProcess lo hi targetBass (prev.map (fun p => (sortAsc p).headD 0))
          w spec c)).num ∧
      (vlScore w prev (prev.map (fun p => (sortAsc p).headD 0))
        (vlProcess lo hi targetBass (prev.map (fun p => (sortAsc p).headD 0))
          w spec c)).num ≤ 889 * w.den := by
    intro c hc
    obtain ⟨hcs, hci, hcl⟩ := vlCandList_spec lo hi spec h0 h127 hw47 hrm c hc
    obtain ⟨_, hpri⟩ := vlProcess_spec lo hi targetBass
      (prev.map (fun p => (sortAsc p).headD 0)) w spec c h0 h127 hw47 htb hpbv hcs hci hcl
    refine vlScore_bound w prev _ _ hwn hw3 hd ?_ hpbv ?_
    · intro p hp
      obtain ⟨_, hpi, hpl⟩ := hprev p hp
      exact ⟨fun n hn => by have := hpi n hn; constructor <;> omega, hpl⟩
    · intro n hn
      have := hpri n hn
      constructor <;> omega
  have hblt0 : ∀ c ∈ vlCandList lo hi spec,
      ((vlScore w prev (prev.map (fun p => (sortAsc p).headD 0))
        (vlProcess lo hi targetBass (prev.map (fun p => (sortAsc p).headD 0))
          w spec c)).blt (Frac.ofInt 1000000000000000000)) = true := by
    intro c hc
    obtain ⟨hn0, hn1⟩ := hscB c hc
    show decide ((vlScore w prev (prev.map (fun p => (sortAsc p).headD 0))
      (vlProcess lo hi targetBass (prev.map (fun p => (sortAsc p).headD 0))
        w spec c)).num * 1 < 1000000000000000000 *
        (vlScore w prev (prev.map (fun p => (sortAsc p).headD 0))
          (vlProcess lo hi targetBass (prev.map (fun p => (sortAsc p).headD 0))
            w spec c)).den) = true
    rw [vlScore_den]
    simp only [decide_eq_true_eq]
    nlinarith
  obtain ⟨c0, rest, hE⟩ := List.exists_cons_of_ne_nil (vlCandList_ne_nil lo hi spec)
  have hsome := foldMin_some
    (fun c => vlProcess lo hi targetBass (prev.map (fun p => (sortAsc p).headD 0)) w spec c)
    (fun c => vlScore w prev (prev.map (fun p => (sortAsc p).headD 0))
      (vlProcess lo hi targetBass (prev.map (fun p => (sortAsc p).headD 0)) w spec c))
    rest
    ((some (vlProcess lo hi targetBass (prev.map (fun p => (sortAsc p).headD 0)) w spec c0),
      vlScore w prev (prev.map (fun p => (sortAsc p).headD 0))
        (vlProcess lo hi targetBass (prev.map (fun p => (sortAsc p).headD 0)) w spec c0)))
    (Option.some_ne_none _)
  have hshape := foldMin_shape
    (fun c => vlProcess lo hi targetBass (prev.map (fun p => (sortAsc p).headD 0)) w spec c)
    (fun c => vlScore w prev (prev.map (fun p => (sortAsc p).headD 0))
      (vlProcess lo hi targetBass (prev.map (fun p => (sortAsc p).headD 0)) w spec c))
    (vlCandList lo hi spec)
    (none, Frac.ofInt 1000000000000000000)
    (fun y hy => by cases hy)
  have hle := foldMin_le
    (fun c => vlProcess lo hi targetBass (prev.map (fun p => (sortAsc p).headD 0)) w spec c)
    (fun c => vlScore w prev (prev.map (fun p => (sortAsc p).headD 0))
      (vlProcess lo hi targetBass (prev.map (fun p => (sortAsc p).headD 0)) w spec c))
    (fun c => by rw [vlScore_den]; exact hd)
    (vlCandList lo hi spec)
    (none, Frac.ofInt 1000000000000000000)
    (by norm_num [Frac.ofInt])
  beta_reduce at hsome hshape hle
  have hfold1 : ((vlCandList lo hi spec).foldl
      (fun (acc : Option (List Int) × Frac) c =>
        if (vlScore w prev (prev.map (fun p => (sortAsc p).headD 0))
            (vlProcess lo hi targetBass (prev.map (fun p => (sortAsc p).headD 0))
              w spec c)).blt acc.2
        then (some (vlProcess lo hi targetBass (prev.map (fun p => (sortAsc p).headD 0))
                w spec c),
              vlScore w prev (prev.map (fun p => (sortAsc p).headD 0))
                (vlProcess lo hi targetBass (prev.map (fun p => (sortAsc p).headD 0))
                  w spec c))
        else acc)
      (none, Frac.ofInt 1000000000000000000)).1 ≠ none := by
    rw [hE, List.foldl_cons]
    rw [if_pos (hblt0 c0 (by rw [hE]; exact List.mem_cons_self _ _))]
    exact hsome
  rcases hF : ((vlCandList lo hi spec).foldl
      (fun (acc : Option (List Int) × Frac) c =>
        if (vlScore w prev (prev.map (fun p => (sortAsc p).headD 0))
            (vlProcess lo hi targetBass (prev.map (fun p => (sortAsc p).headD 0))
              w spec c)).blt acc.2
        then (some (vlProcess lo hi targetBass (prev.map (fun p => (sortAsc p).headD 0))
                w spec c),
              vlScore w prev (prev.map (fun p => (sortAsc p).headD 0))
                (vlProcess lo hi targetBass (prev.map (fun p => (sortAsc p).headD 0))
                  w spec c))
        else acc)
      (none, Frac.ofInt 1000000000000000000)).1 with _ | y
  · exact absurd hF hfold1
  obtain ⟨cand, hcmem, hye, hsc⟩ := hshape y hF
  have hvs : vlStep lo hi targetBass w prev spec = y := by
    rw [vlStep_eq3, hF]
  refine ⟨cand, hcmem, by rw [hvs, hye], ?_⟩
  intro c hc
  rw [hvs]
  have := (hle.2.1) c hc
  rw [hsc, ← hye] at this
  exact this

/-- C7 (confirmed): the voice-led strategy enumerates at most 15 candidates
(3 inversions at 5 octave shifts, deduplicated); the score of a processed
candidate against a previous chord with previous bass `pb` is
`motionCost + bassWeight * |bass - pb|` exactly; the returned chord is a
processed candidate whose score is a minimum over all candidates (`Frac.ble`
is the ≤ of the exact fraction values); and for the first chord (no previous
chord) every candidate scores 0, so the first-enumerated candidate wins
under the strict `<` comparison. -/
theorem C7_voicelead (lo hi targetBass : Int) (w : Frac) (prev : Option (List Int))
    (spec : ChordSpec)
    (h0 : 0 ≤ lo) (h127 : hi ≤ 127) (hw47 : lo + 47 ≤ hi)
    (htb : 0 ≤ targetBass ∧ targetBass ≤ 127)
    (hrm : 6 ≤ spec.rootMidi ∧ spec.rootMidi ≤ 110)
    (hprev : ∀ p, prev = some p → StrictAsc p ∧ InRange lo hi p ∧ (p.length : Int) ≤ 4)
    (hd : 0 < w.den) (hwn : 0 ≤ w.num) (hw3 : w.num ≤ 3 * w.den) :
    (∀ (rootPc : Int) (qual : String) (targetMidi : Int),
      (candidatesForTriad rootPc qual targetMidi lo hi).length ≤ 15) ∧
    (∀ (p : List Int) (pb : Int) (ch : List Int), ch ≠ [] →
      vlScore w (some p) (some pb) ch =
        Frac.addInt (motionCost p ch) (w.mulInt (((ch.headD 0 - pb).natAbs : Nat) : Int))) ∧
    (∃ cand ∈ vlCandList lo hi spec,
      vlStep lo hi targetBass w prev spec =
        vlProcess lo hi targetBass (prev.map (fun p => (sortAsc p).headD 0)) w spec cand ∧
      ∀ c ∈ vlCandList lo hi spec,
        ((vlScore w prev (prev.map (fun p => (sortAsc p).headD 0))
            (vlStep lo hi targetBass w prev spec)).ble
          (vlScore w prev (prev.map (fun p => (sortAsc p).headD 0))
            (vlProcess lo hi targetBass (prev.map (fun p => (sortAsc p).headD 0)) w spec c)))
          = true) ∧
    (prev = none →
      (∀ c ∈ vlCandList lo hi spec,
        (vlScore w none none (vlProcess lo hi targetBass none w spec c)).num = 0) ∧
      vlStep lo hi targetBass w none spec =
        vlProcess lo hi targetBass none w spec ((vlCandList lo hi spec).headD [])) := by
  refine ⟨fun rootPc qual targetMidi => candidatesForTriad_length rootPc qual targetMidi lo hi,
    ?_, vlStep_min lo hi targetBass w prev spec h0 h127 hw47 htb hrm hprev hd hwn hw3, ?_⟩
  · intro p pb ch hch
    match ch, hch with
    | h :: t, _ =>
      show Frac.addInt (motionCost p (h :: t))
          (w.mulInt (if (h :: t).isEmpty then 0
            else (((h :: t).headD 0 - pb).natAbs : Int))) = _
      rw [if_neg (by simp)]
  · intro hpn
    subst hpn
    have hnum0 : ∀ c, (vlScore w none none
        (vlProcess lo hi targetBass none w spec c)).num = 0 :=
      fun c => vlScore_none_num w _
    refine ⟨fun c _ => hnum0 c, ?_⟩
    obtain ⟨c0, rest, hE⟩ := List.exists_cons_of_ne_nil (vlCandList_ne_nil lo hi spec)
    have hfold : ((vlCandList lo hi spec).foldl
        (fun (acc : Option (List Int) × Frac) c =>
          if (vlScore w none none (vlProcess lo hi targetBass none w spec c)).blt acc.2
          then (some (vlProcess lo hi targetBass none w spec c),
                vlScore w none none (vlProcess lo hi targetBass none w spec c))
          else acc)
        (none, Frac.ofInt 1000000000000000000)) =
        (some (vlProcess lo hi targetBass none w spec c0),
          vlScore w none none (vlProcess lo hi targetBass none w spec c0)) := by
      rw [hE, List.foldl_cons]
      rw [if_pos (by
        show decide ((vlScore w none none
          (vlProcess lo hi targetBass none w spec c0)).num * 1 <
            1000000000000000000 * (vlScore w none none
              (vlProcess lo hi targetBass none w spec c0)).den) = true
        rw [hnum0 c0, vlScore_den]
        simp only [decide_eq_true_eq]
        nlinarith)]
      refine foldl_keep _ rest _ ?_
      intro c _
      dsimp only
      rw [if_neg (by
        show ¬ decide ((vlScore w none none
          (vlProcess lo hi targetBass none w spec c)).num *
            (vlScore w none none (vlProcess lo hi targetBass none w spec c0)).den <
          (vlScore w none none (vlProcess lo hi targetBass none w spec c0)).num *
            (vlScore w none none (vlProcess lo hi targetBass none w spec c)).den) = true
        rw [hnum0 c, hnum0 c0]
        simp)]
    rw [vlStep_eq3]
    simp only [Option.map_none']
    rw [hfold, hE]
    rfl

theorem C7_voicelead_witness :
    ((0:Int) ≤ 36 ∧ (84:Int) ≤ 127 ∧ 36 + 47 ≤ (84:Int) ∧
      ((0:Int) ≤ 46 ∧ (46:Int) ≤ 127) ∧
      ((6:Int) ≤ (⟨60, "maj", none⟩ : ChordSpec).rootMidi ∧
        (⟨60, "maj", none⟩ : ChordSpec).rootMidi ≤ 110) ∧
      (0:Int) < wDemo.den ∧ (0:Int) ≤ wDemo.num ∧ wDemo.num ≤ 3 * wDemo.den) ∧
    ((∀ (rootPc : Int) (qual : String) (targetMidi : Int),
        (candidatesForTriad rootPc qual targetMidi 36 84).length ≤ 15) ∧
     (∀ (p : List Int) (pb : Int) (ch : List Int), ch ≠ [] →
        vlScore wDemo (some p) (some pb) ch =
          Frac.addInt (motionCost p ch)
            (wDemo.mulInt (((ch.headD 0 - pb).natAbs : Nat) : Int))) ∧
     (∃ cand ∈ vlCandList 36 84 (⟨60, "maj", none⟩ : ChordSpec),
        vlStep 36 84 46 wDemo none (⟨60, "maj", none⟩ : ChordSpec) =
          vlProcess 36 84 46 ((none : Option (List Int)).map (fun p => (sortAsc p).headD 0))
            wDemo (⟨60, "maj", none⟩ : ChordSpec) cand ∧
        ∀ c ∈ vlCandList 36 84 (⟨60, "maj", none⟩ : ChordSpec),
          ((vlScore wDemo none ((none : Option (List Int)).map (fun p => (sortAsc p).headD 0))
              (vlStep 36 84 46 wDemo none (⟨60, "maj", none⟩ : ChordSpec))).ble
            (vlScore wDemo none
              ((none : Option (List Int)).map (fun p => (sortAsc p).headD 0))
              (vlProcess 36 84 46
                ((none : Option (List Int)).map (fun p => (sortAsc p).headD 0))
                wDemo (⟨60, "maj", none⟩ : ChordSpec) c)))
            = true) ∧
     ((none : Option (List Int)) = none →
       (∀ c ∈ vlCandList 36 84 (⟨60, "maj", none⟩ : ChordSpec),
         (vlScore wDemo none none
           (vlProcess 36 84 46 none wDemo (⟨60, "maj", none⟩ : ChordSpec) c)).num = 0) ∧
       vlStep 36 84 46 wDemo none (⟨60, "maj", none⟩ : ChordSpec) =
         vlProcess 36 84 46 none wDemo (⟨60, "maj", none⟩ : ChordSpec)
           ((vlCandList 36 84 (⟨60, "maj", none⟩ : ChordSpec)).headD []))) :=
  ⟨⟨by norm_num, by norm_num, by norm_num, ⟨by norm_num, by norm_num⟩,
    ⟨by decide, by decide⟩, by decide, by decide, by decide⟩,
   C7_voicelead 36 84 46 wDemo none ⟨60, "maj", none⟩ (by norm_num) (by norm_num)
     (by norm_num) ⟨by norm_num, by norm_num⟩ ⟨by decide, by decide⟩
     (fun p hp => nomatch hp) (by decide) (by decide) (by decide)⟩

theorem pcOf_small {x : Int} (h0 : 0 ≤ x) (h1 : x < 12) : pcOf x = x := by
  unfold pcOf
  omega

theorem pcOf_eq_emod (r : Int) : pcOf r = r % 12 := by
  unfold pcOf
  omega

theorem forall2_pc_map : ∀ {x y : List Int},
    List.Forall₂ (fun a b => pcOf b = pcOf a) x y → y.map pcOf = x.map pcOf := by
  intro x y h
  induction h with
  | nil => rfl
  | cons hab _ ih =>
    rw [List.map_cons, List.map_cons, ih, hab]

theorem map_pc_cons {out : List Int} {x : Int} {rest : List Int}
    (h : out.map pcOf = x :: rest) :
    ∃ o0 t, out = o0 :: t ∧ pcOf o0 = x ∧ t.map pcOf = rest := by
  match out with
  | [] => simp at h
  | o0 :: t =>
    rw [List.map_cons] at h
    injection h with h1 h2
    exact ⟨o0, t, rfl, h1, h2⟩

theorem contains_mem {l : List Int} {x : Int} (h : l.contains x = true) : x ∈ l :=
  List.elem_iff.mp h

theorem mem_contains {l : List Int} {x : Int} (h : x ∈ l) : l.contains x = true :=
  List.elem_iff.mpr h

theorem forall2_imp_mem {α β : Type} {P Q : α → β → Prop} :
    ∀ {l : List α} {l' : List β}, List.Forall₂ P l l' →
      (∀ a ∈ l, ∀ b, P a b → Q a b) → List.Forall₂ Q l l' := by
  intro l l' h
  induction h with
  | nil => intro _; exact List.Forall₂.nil
  | cons hab htail ih =>
    intro himp
    exact List.Forall₂.cons (himp _ (List.mem_cons_self _ _) _ hab)
      (ih (fun a ha b hb => himp a (List.mem_cons_of_mem _ ha) b hb))

theorem midiNear_pc60 (pc : Int) (h0 : 0 ≤ pc) (h1 : pc < 12) :
    pcOf (midiNear pc 60) = pc :=
  (midiNear_spec pc 60 h0 h1 (by norm_num) (by norm_num)).2.2.1 (by norm_num) (by norm_num)

theorem midiNear_60_range (pc : Int) (h0 : 0 ≤ pc) (h1 : pc < 12) :
    54 ≤ midiNear pc 60 ∧ midiNear pc 60 ≤ 66 := by
  obtain ⟨_, _, _, _, h6⟩ := midiNear_spec pc 60 h0 h1 (by norm_num) (by norm_num)
  have := h6 (by norm_num) (by norm_num)
  constructor <;> omega

theorem c3ok_iff (pcs : List Int) (spc : Int) (ch : List Int) :
    c3ok pcs spc ch = true ↔
      (ch.length = 3 ∧ pcOf (ch.headD 0) = spc ∧ pcListSorted ch = sortAsc pcs) := by
  unfold c3ok
  exact decide_eq_true_iff

theorem c4ok_iff (pcs : List Int) (spc : Int) (ch : List Int) :
    c4ok pcs spc ch = true ↔
      (ch.length = 4 ∧ pcOf (ch.headD 0) = spc ∧ pcListSorted ch.tail = sortAsc pcs) := by
  unfold c4ok
  exact decide_eq_true_iff

theorem fit_pc_good (x : List Int) (lo hi : Int)
    (h0 : 0 ≤ lo) (h127 : hi ≤ 127) (hs : StrictAsc x) (hne : x ≠ [])
    (hbnd : ∀ n ∈ x, -24 ≤ n ∧ n ≤ 199)
    (hw : lo + 11 + 12 * ((x.length : Int) - 1) ≤ hi) :
    (fitChordToRange x lo hi).map pcOf = x.map pcOf ∧
    StrictAsc (fitChordToRange x lo hi) ∧ InRange lo hi (fitChordToRange x lo hi) ∧
    (fitChordToRange x lo hi).length = x.length := by
  obtain ⟨hfs, hfi, hfl, hff⟩ := fitChordToRange_spec x lo hi h0 h127 hne
    (strictAsc_nodup hs) hbnd hw
  rw [strictAsc_sortAsc_eq hs] at hff
  exact ⟨forall2_pc_map hff, hfs, hfi, hfl⟩

theorem enforce_pc_good (x : List Int) (lo hi : Int)
    (h0 : 0 ≤ lo) (h127 : hi ≤ 127)
    (hs : StrictAsc x) (hin : InRange lo hi x) (hlen2 : 2 ≤ x.length)
    (hlen4 : (x.length : Int) ≤ 4) (hw : lo + 11 + 12 * ((x.length : Int) - 1) ≤ hi) :
    (enforceTriadSpacingSafe x lo hi 7 19).map pcOf = x.map pcOf ∧
    StrictAsc (enforceTriadSpacingSafe x lo hi 7 19) ∧
    InRange lo hi (enforceTriadSpacingSafe x lo hi 7 19) ∧
    (enforceTriadSpacingSafe x lo hi 7 19).length = x.length := by
  obtain ⟨hes, hei, hel, hef⟩ := enforceTriadSpacingSafe_spec x lo hi 7 19 h0 h127
    (by omega) (by omega) (by omega) hlen2 hlen4 (strictAsc_nodup hs)
    (by
      intro n hn
      have := hin n hn
      constructor <;> omega) hw
  rw [strictAsc_sortAsc_eq hs] at hef
  exact ⟨forall2_pc_map hef, hes, hei, hel⟩

theorem openPre_pc (pc1 pc2 lo bassInit : Int)
    (h0 : 0 ≤ lo) (h60 : lo < 60)
    (hbi0 : 0 ≤ bassInit) (hbi1 : bassInit ≤ 127)
    (hpc1a : 0 ≤ pc1) (hpc1b : pc1 < 12) (hpc2a : 0 ≤ pc2) (hpc2b : pc2 < 12) :
    (openPre pc1 pc2 lo bassInit).map pcOf = [pcOf bassInit, pc1, pc2] := by
  rw [openPre_eq pc1 pc2 lo bassInit _ _ rfl rfl]
  rw [if_pos h60]
  rw [clamp_eq_self hbi0 hbi1]
  have hd1 := dropBelow_lt 60 bassInit (by omega)
  have hd2 := dropBelow_ge_min 60 bassInit
  have hw1 := wrapUp_ge lo (dropBelow 60 bassInit) (by omega)
  have hw2 := wrapUp_le_max lo (dropBelow 60 bassInit)
  have hBpc : pcOf (wrapUp lo (dropBelow 60 bassInit)) = pcOf bassInit := by
    rw [wrapUp_pc, dropBelow_pc]
  generalize hBdef : wrapUp lo (dropBelow 60 bassInit) = B at hw1 hw2 hBpc ⊢
  have hB2 : B ≤ 70 := by omega
  obtain ⟨hm0, hm1, hm2c, hm3c, _⟩ := midiNear_spec pc1 (B + 7) hpc1a hpc1b
    (by omega) (by omega)
  have hmpc := hm2c (by omega) (by omega)
  have hmd := hm3c (by omega) (by omega)
  have hM1 := raiseSep_ge B 7 (midiNear pc1 (B + 7)) (by omega)
  have hM2 := raiseSep_le_max B 7 (midiNear pc1 (B + 7))
  have hMpc : pcOf (raiseSep B 7 (midiNear pc1 (B + 7))) = pc1 := by
    rw [raiseSep_pc, hmpc]
  generalize hMdef : raiseSep B 7 (midiNear pc1 (B + 7)) = M at hM1 hM2 hMpc ⊢
  have hM3 : M ≤ B + 18 := by omega
  obtain ⟨_, _, htA3, _, _⟩ := midiNear_spec pc2 (M + 4) hpc2a hpc2b (by omega) (by omega)
  obtain ⟨_, _, htB3, _, _⟩ := midiNear_spec pc2 (M + 16) hpc2a hpc2b (by omega) (by omega)
  have htApc := htA3 (by omega) (by omega)
  have htBpc := htB3 (by omega) (by omega)
  have hTA : pcOf (raiseFrom M (midiNear pc2 (M + 4))) = pc2 := by
    rw [raiseFrom_pc, htApc]
  have hTB : pcOf (raiseFrom M (midiNear pc2 (M + 16))) = pc2 := by
    rw [raiseFrom_pc, htBpc]
  rw [List.map_cons, List.map_cons, List.map_cons, List.map_nil]
  rw [hBpc, hMpc]
  have hT : pcOf (if (Frac.addInt (max 0 (raiseFrom M (midiNear pc2 (M + 4)) - B - 16) * 5)
        ((Frac.mk 5 100).mulInt (max 0 (raiseFrom M (midiNear pc2 (M + 4)) - 72)))).ble
      (Frac.addInt (max 0 (raiseFrom M (midiNear pc2 (M + 16)) - B - 16) * 5)
        ((Frac.mk 5 100).mulInt (max 0 (raiseFrom M (midiNear pc2 (M + 16)) - 72))))
      then raiseFrom M (midiNear pc2 (M + 4))
      else raiseFrom M (midiNear pc2 (M + 16))) = pc2 := by
    split
    · exact hTA
    · exact hTB
  rw [hT]

theorem openTail_pc (pc1 pc2 lo hi bassInit : Int)
    (h0 : 0 ≤ lo) (h60 : lo < 60) (h127 : hi ≤ 127) (hw47 : lo + 47 ≤ hi)
    (hbi0 : 0 ≤ bassInit) (hbi1 : bassInit ≤ 127)
    (hpc1a : 0 ≤ pc1) (hpc1b : pc1 < 12) (hpc2a : 0 ≤ pc2) (hpc2b : pc2 < 12) :
    (openTail pc1 pc2 lo hi bassInit).map pcOf = [pcOf bassInit, pc1, pc2] ∧
    StrictAsc (openTail pc1 pc2 lo hi bassInit) ∧
    InRange lo hi (openTail pc1 pc2 lo hi bassInit) ∧
    (openTail pc1 pc2 lo hi bassInit).length = 3 := by
  unfold openTail
  obtain ⟨hps, hpl, hpb⟩ := openPre_spec pc1 pc2 lo bassInit h0 (by omega)
    hpc1a hpc1b hpc2a hpc2b
  have hpcm := openPre_pc pc1 pc2 lo bassInit h0 h60 hbi0 hbi1 hpc1a hpc1b hpc2a hpc2b
  have hne : openPre pc1 pc2 lo bassInit ≠ [] := by
    intro h
    rw [h] at hpl
    simp at hpl
  obtain ⟨hfpc, hfs, hfi, hfl⟩ := fit_pc_good (openPre pc1 pc2 lo bassInit) lo hi h0 h127
    hps hne
    (by
      intro n hn
      have := hpb n hn
      constructor <;> omega)
    (by rw [hpl]; push_cast; omega)
  have hfl3 : (fitChordToRange (openPre pc1 pc2 lo bassInit) lo hi).length = 3 := by
    rw [hfl, hpl]
  obtain ⟨hepc, hes, hei, hel⟩ := enforce_pc_good
    (fitChordToRange (openPre pc1 pc2 lo bassInit) lo hi) lo hi h0 h127 hfs hfi
    (by have := hfl3; omega) (by have := hfl3; omega)
    (by have := hfl3; omega)
  refine ⟨?_, hes, hei, by rw [hel, hfl3]⟩
  rw [hepc, hfpc, hpcm]

theorem voiceOpenWithSlash_some (rootPc : Int) (qual : String) (s : Int)
    (lo hi : Int) (pbOpt : Option Int) :
    voiceOpenWithSlash rootPc qual (some s) lo hi pbOpt =
      (if pcOf s = (triadPCs rootPc qual).getD 1 0 then
        voiceOpenOrderedPCs [(triadPCs rootPc qual).getD 1 0,
          (triadPCs rootPc qual).getD 0 0, (triadPCs rootPc qual).getD 2 0] lo hi pbOpt
      else if pcOf s = (triadPCs rootPc qual).getD 2 0 then
        voiceOpenOrderedPCs [(triadPCs rootPc qual).getD 2 0,
          (triadPCs rootPc qual).getD 1 0, (triadPCs rootPc qual).getD 0 0] lo hi pbOpt
      else
        voiceOpenOrderedPCs [(triadPCs rootPc qual).getD 0 0,
          (triadPCs rootPc qual).getD 2 0, (triadPCs rootPc qual).getD 1 0] lo hi pbOpt) :=
  rfl

theorem openCase (a b c lo hi : Int) (pbOpt : Option Int) (pcs : List Int) (spc : Int)
    (h0 : 0 ≤ lo) (h60 : lo < 60) (h127 : hi ≤ 127) (hw47 : lo + 47 ≤ hi)
    (hpb : ∀ pb, pbOpt = some pb → 0 ≤ pb ∧ pb ≤ 127)
    (ha : 0 ≤ a ∧ a < 12) (hb : 0 ≤ b ∧ b < 12) (hc : 0 ≤ c ∧ c < 12)
    (hspc : a = spc) (hperm : List.Perm [a, b, c] pcs) :
    c3ok pcs spc
      (enforceTriadSpacingSafe (voiceOpenOrderedPCs [a, b, c] lo hi pbOpt) lo hi 7 19)
      = true := by
  have htg : 0 ≤ pbOpt.getD 57 ∧ pbOpt.getD 57 ≤ 127 := by
    match pbOpt with
    | none =>
      show (0:Int) ≤ 57 ∧ (57:Int) ≤ 127
      norm_num
    | some pb => exact hpb pb rfl
  rw [voiceOpenOrderedPCs_three]
  obtain ⟨hbi0, hbi1⟩ := midiNear_mem (pcOf a) (pbOpt.getD 57) (pcOf_nonneg a)
    (pcOf_lt_12 a) (by omega) (by omega)
  obtain ⟨_, _, hbipc', _, _⟩ := midiNear_spec (pcOf a) (pbOpt.getD 57) (pcOf_nonneg a)
    (pcOf_lt_12 a) (by omega) (by omega)
  have hbipc : pcOf (midiNear (pcOf a) (pbOpt.getD 57)) = a := by
    rw [hbipc' (by omega) (by omega), pcOf_small ha.1 ha.2]
  obtain ⟨hopc, hos, hoi, hol⟩ := openTail_pc (pcOf b) (pcOf c) lo hi
    (midiNear (pcOf a) (pbOpt.getD 57)) h0 h60 h127 hw47 hbi0 hbi1
    (pcOf_nonneg b) (pcOf_lt_12 b) (pcOf_nonneg c) (pcOf_lt_12 c)
  conv at hopc =>
    rhs
    rw [hbipc, pcOf_small hb.1 hb.2, pcOf_small hc.1 hc.2]
  obtain ⟨hepc, hes, hei, hel⟩ := enforce_pc_good
    (openTail (pcOf b) (pcOf c) lo hi (midiNear (pcOf a) (pbOpt.getD 57))) lo hi
    h0 h127 hos hoi (by have := hol; omega) (by have := hol; omega)
    (by have := hol; omega)
  rw [c3ok_iff]
  rw [hopc] at hepc
  obtain ⟨o0, t, hoe, ho0, _⟩ := map_pc_cons hepc
  refine ⟨by rw [hel, hol], ?_, ?_⟩
  · rw [hoe]
    simp only [List.headD_cons]
    rw [ho0, hspc]
  · unfold pcListSorted
    rw [hepc]
    exact sortAsc_congr_perm hperm

theorem stepSeq_pointwise (lo hi : Int) (step : Option Int → ChordSpec → List Int)
    (P : ChordSpec → List Int → Prop) (Q : ChordSpec → Prop)
    (h0 : 0 ≤ lo) (h127 : hi ≤ 127)
    (hstep : ∀ pbOpt spec, Q spec → (∀ pb, pbOpt = some pb → 0 ≤ pb ∧ pb ≤ 127) →
      P spec (step pbOpt spec) ∧ InRange lo hi (step pbOpt spec)) :
    ∀ (specs : List ChordSpec) (pbOpt : Option Int),
      (∀ spec ∈ specs, Q spec) →
      (∀ pb, pbOpt = some pb → 0 ≤ pb ∧ pb ≤ 127) →
      List.Forall₂ P specs (stepSeq step pbOpt specs) := by
  intro specs
  induction specs with
  | nil =>
    intro pbOpt _ _
    rw [stepSeq_nil]
    exact List.Forall₂.nil
  | cons spec rest ih =>
    intro pbOpt hQ hpb
    rw [stepSeq_cons]
    have hcur := hstep pbOpt spec (hQ spec (List.mem_cons_self _ _)) hpb
    refine List.Forall₂.cons hcur.1 (ih _ (fun s hs => hQ s (List.mem_cons_of_mem _ hs)) ?_)
    intro pb hpb2
    split at hpb2
    · exact hpb pb hpb2
    · have hne : step pbOpt spec ≠ [] := by
        intro hnil
        next hemp => rw [hnil] at hemp; simp at hemp
      have hpbe : pb = (step pbOpt spec).headD 0 := by injection hpb2.symm
      match hh : step pbOpt spec, hne, hcur with
      | h :: t, _, hcur =>
        have := hcur.2 h (List.mem_cons_self _ _)
        rw [hpbe, hh]
        simp only [List.headD_cons]
        constructor <;> omega

theorem openStep_chordTone (lo hi targetBass : Int) (w : Frac) (pbOpt : Option Int)
    (spec : ChordSpec) (s : Int)
    (h0 : 0 ≤ lo) (h60 : lo < 60) (h127 : hi ≤ 127) (hw47 : lo + 47 ≤ hi)
    (hpb : ∀ pb, pbOpt = some pb → 0 ≤ pb ∧ pb ≤ 127)
    (hsl : spec.slashPc = some s)
    (hmem : (triadPCs (pcOf spec.rootMidi) spec.qual).contains (pcOf s) = true) :
    c3ok (triadPCs (pcOf spec.rootMidi) spec.qual) (pcOf s)
      (openStep lo hi targetBass w pbOpt spec) = true := by
  have hP0 : 0 ≤ pcOf spec.rootMidi := pcOf_nonneg _
  have hP1 : pcOf spec.rootMidi < 12 := pcOf_lt_12 _
  have hparts := triadPCs_parts (pcOf spec.rootMidi) spec.qual
  have hT : 0 ≤ (pcOf spec.rootMidi + if spec.qual = "min" then 3 else 4) % 12 ∧
      (pcOf spec.rootMidi + if spec.qual = "min" then 3 else 4) % 12 < 12 := by
    constructor <;> omega
  have hF : 0 ≤ (pcOf spec.rootMidi + 7) % 12 ∧ (pcOf spec.rootMidi + 7) % 12 < 12 := by
    constructor <;> omega
  rw [openStep_eq, hsl]
  dsimp only
  rw [if_pos hmem]
  rw [voiceOpenWithSlash_some]
  rw [hparts] at hmem ⊢
  have hg0 : ∀ x y z : Int, ([x, y, z] : List Int).getD 0 0 = x := fun x y z => rfl
  have hg1 : ∀ x y z : Int, ([x, y, z] : List Int).getD 1 0 = y := fun x y z => rfl
  have hg2 : ∀ x y z : Int, ([x, y, z] : List Int).getD 2 0 = z := fun x y z => rfl
  rw [hg0, hg1, hg2]
  have hmm := contains_mem hmem
  simp only [List.mem_cons, List.not_mem_nil, or_false] at hmm
  by_cases h3 : pcOf s = (pcOf spec.rootMidi + if spec.qual = "min" then 3 else 4) % 12
  · rw [if_pos h3]
    exact openCase _ _ _ lo hi pbOpt _ (pcOf s) h0 h60 h127 hw47 hpb hT ⟨hP0, hP1⟩ hF
      h3.symm (List.Perm.swap _ _ _)
  · rw [if_neg h3]
    by_cases h5 : pcOf s = (pcOf spec.rootMidi + 7) % 12
    · rw [if_pos h5]
      refine openCase _ _ _ lo hi pbOpt _ (pcOf s) h0 h60 h127 hw47 hpb hF hT ⟨hP0, hP1⟩
        h5.symm ?_
      exact ((List.Perm.swap _ _ _).trans
        (List.Perm.cons _ (List.Perm.swap _ _ _))).trans (List.Perm.swap _ _ _)
    · rw [if_neg h5]
      have h1 : pcOf s = pcOf spec.rootMidi := by
        rcases hmm with h | h | h
        · exact h
        · exact absurd h h3
        · exact absurd h h5
      exact openCase _ _ _ lo hi pbOpt _ (pcOf s) h0 h60 h127 hw47 hpb ⟨hP0, hP1⟩ hF hT
        h1.symm (List.Perm.cons _ (List.Perm.swap _ _ _))

/-- C3 (amended): the claim is false in voicelead mode (see `C3_cex`).  In
open mode, for any register with `0 ≤ lo < 60`, `hi ≤ 127` and width at
least 47, every chord whose requested slash pitch class is a chord tone is
voiced as exactly 3 pitches whose lowest carries the slash pitch class and
whose pitch-class multiset is exactly the triad (`c3ok`). -/
theorem C3_slashChordTone (syms : List ChordSym) (lo hi : Int) (w0 : Frac)
    (h0 : 0 ≤ lo) (h60 : lo < 60) (h127 : hi ≤ 127) (hw47 : lo + 47 ≤ hi)
    (hWF : ∀ o ∈ syms, WFSym o) :
    List.Forall₂ (fun o out => ∀ s, o.slashPc = some s →
        (triadPCs o.rootPc o.qual).contains (pcOf s) = true →
        c3ok (triadPCs o.rootPc o.qual) (pcOf s) out = true)
      syms (generate syms "open" lo hi w0) := by
  rw [generate_eq]
  dsimp only
  rw [if_neg (by decide : ¬ ("open" : String) = "voicelead"), if_pos rfl]
  have hsp := stepSeq_pointwise lo hi
    (openStep lo hi (lo + ((Frac.mk 20 100).mulInt (hi - lo)).jsRound)
      (if w0.blt (Frac.ofInt 0) then Frac.ofInt 0
       else if (Frac.ofInt 3).blt w0 then Frac.ofInt 3 else w0))
    (fun spec out => ∀ s, spec.slashPc = some s →
      (triadPCs (pcOf spec.rootMidi) spec.qual).contains (pcOf s) = true →
      c3ok (triadPCs (pcOf spec.rootMidi) spec.qual) (pcOf s) out = true)
    (fun _ => True) h0 h127
    (fun pbOpt spec _ hpb =>
      ⟨fun s hsl hmem => openStep_chordTone lo hi _ _ pbOpt spec s h0 h60 h127 hw47
          hpb hsl hmem,
       (openStep_spec lo hi _ _ pbOpt spec h0 h127 hw47
          (targetBassVal_bound lo hi h0 h127 hw47) hpb).2⟩)
    (syms.map (fun o =>
      ({ rootMidi := midiNear o.rootPc 60, qual := o.qual,
         slashPc := o.slashPc } : ChordSpec)))
    none (fun _ _ => trivial) (fun pb hpb => by cases hpb)
  rw [List.forall₂_map_left_iff] at hsp
  refine forall2_imp_mem hsp ?_
  intro o ho out hP s hsl hmem
  obtain ⟨hr0, hr1⟩ := hWF o ho
  have hpc : pcOf (midiNear o.rootPc 60) = o.rootPc := midiNear_pc60 o.rootPc hr0 hr1
  have h2 := hP s hsl (by rw [hpc]; exact hmem)
  rw [hpc] at h2
  exact h2

theorem C3_slashChordTone_witness :
    ((0:Int) ≤ 36 ∧ (36:Int) < 60 ∧ (84:Int) ≤ 127 ∧ 36 + 47 ≤ (84:Int) ∧
      ∀ o ∈ [symCslashE], WFSym o) ∧
    List.Forall₂ (fun o out => ∀ s, o.slashPc = some s →
        (triadPCs o.rootPc o.qual).contains (pcOf s) = true →
        c3ok (triadPCs o.rootPc o.qual) (pcOf s) out = true)
      [symCslashE] (generate [symCslashE] "open" 36 84 wDemo) :=
  ⟨⟨by norm_num, by norm_num, by norm_num, by norm_num, fun o ho => by
      rw [List.mem_singleton] at ho
      subst ho
      exact ⟨by decide, by decide⟩⟩,
   C3_slashChordTone [symCslashE] 36 84 wDemo (by norm_num) (by norm_num) (by norm_num)
     (by norm_num) (fun o ho => by
      rw [List.mem_singleton] at ho
      subst ho
      exact ⟨by decide, by decide⟩)⟩

/-- C3 counterexample: in voicelead mode at the default bounds, voicing
`C/E` (slash pitch class 4, a chord tone of C major) produces a chord whose
lowest pitch has pitch class 0, not 4: the chord-tone slash request is not
honoured in every voicing mode. -/
theorem C3_cex :
    c3ok (triadPCs 0 "maj") 4
      ((generate [symCslashE] "voicelead" 36 84 wDemo).headD []) = false := by
  decide

theorem specsOf_rootMidi54 (syms : List ChordSym) (hWF : ∀ o ∈ syms, WFSym o) :
    ∀ spec ∈ syms.map (fun o =>
      ({ rootMidi := midiNear o.rootPc 60, qual := o.qual,
         slashPc := o.slashPc } : ChordSpec)),
      54 ≤ spec.rootMidi ∧ spec.rootMidi ≤ 66 := by
  intro spec hspec
  obtain ⟨o, ho, hoe⟩ := List.mem_map.mp hspec
  obtain ⟨hr0, hr1⟩ := hWF o ho
  have hr := midiNear_60_range o.rootPc hr0 hr1
  rw [← hoe]
  dsimp only
  exact hr

theorem closeStep_nonChordTone (targetBass : Int) (w : Frac) (pbOpt : Option Int)
    (spec : ChordSpec) (s : Int)
    (htb : 0 ≤ targetBass ∧ targetBass ≤ 127)
    (hpb : ∀ pb, pbOpt = some pb → 0 ≤ pb ∧ pb ≤ 127)
    (hrm : 54 ≤ spec.rootMidi ∧ spec.rootMidi ≤ 66)
    (hsl : spec.slashPc = some s)
    (hnm : (triadPCs (pcOf spec.rootMidi) spec.qual).contains (pcOf s) = false) :
    c4ok (triadPCs (pcOf spec.rootMidi) spec.qual) (pcOf s)
      (closeStep 36 84 targetBass w pbOpt spec) = true := by
  obtain ⟨hvs, hvl, hvm, hvpcs⟩ := voiceClose_spec spec.rootMidi spec.qual
    (by omega) (by omega)
  rw [← pcOf_eq_emod spec.rootMidi] at hvpcs
  have hvne : voiceClose spec.rootMidi spec.qual ≠ [] := by
    intro h
    rw [h] at hvl
    simp at hvl
  have hvIn : InRange 36 84 (voiceClose spec.rootMidi spec.qual) := by
    intro n hn
    have := hvm n hn
    constructor <;> omega
  rw [closeStep_eq, hsl]
  rw [fitChordToRange_fixed _ 36 84 (by norm_num) (by norm_num) hvne hvs hvIn]
  rw [applySlashBass_some_eq]
  rw [strictAsc_sortAsc_eq hvs]
  have hiff : ∀ x, x ∈ (voiceClose spec.rootMidi spec.qual).map pcOf ↔
      x ∈ triadPCs (pcOf spec.rootMidi) spec.qual := by
    intro x
    rw [show (x ∈ (voiceClose spec.rootMidi spec.qual).map pcOf) =
      (x ∈ sortAsc ((voiceClose spec.rootMidi spec.qual).map pcOf)) from
        (propext (sortAsc_mem _ x)).symm]
    rw [show sortAsc ((voiceClose spec.rootMidi spec.qual).map pcOf) =
      sortAsc (triadPCs (pcOf spec.rootMidi) spec.qual) from hvpcs]
    exact sortAsc_mem _ x
  have hnmem : pcOf s ∉ (voiceClose spec.rootMidi spec.qual).map pcOf := by
    intro hm
    have hcm := mem_contains ((hiff _).mp hm)
    rw [hnm] at hcm
    cases hcm
  rw [if_neg (fun hcont => hnmem (contains_mem hcont))]
  have htg : 0 ≤ pbOpt.getD targetBass ∧ pbOpt.getD targetBass ≤ 127 := by
    match pbOpt with
    | none => exact htb
    | some pb => exact hpb pb rfl
  obtain ⟨hbi0, hbi1⟩ := midiNear_mem (pcOf s) (pbOpt.getD targetBass) (pcOf_nonneg s)
    (pcOf_lt_12 s) (by omega) (by omega)
  obtain ⟨_, _, hbipc', _, _⟩ := midiNear_spec (pcOf s) (pbOpt.getD targetBass)
    (pcOf_nonneg s) (pcOf_lt_12 s) (by omega) (by omega)
  have hbipc := hbipc' (by omega) (by omega)
  obtain ⟨hts, hti, htl, htf⟩ := slashAddTail_spec (voiceClose spec.rootMidi spec.qual)
    36 84 (midiNear (pcOf s) (pbOpt.getD targetBass)) (by norm_num) (by norm_num)
    (by norm_num) hvs hvIn hvl hbi0 hbi1
  obtain ⟨hB0, hB1, hBdisj, hBpc, _⟩ := slashAddPre_spec
    (voiceClose spec.rootMidi spec.qual) 36 (midiNear (pcOf s) (pbOpt.getD targetBass))
    (by norm_num) (by norm_num) hbi0 hbi1 hvne (fun y hy => (hvIn y hy).1)
  have hminb := hvm _ (minL_mem _ hvne)
  have hBlt : (slashAddPre (voiceClose spec.rootMidi spec.qual) 36
      (midiNear (pcOf s) (pbOpt.getD targetBass))).headD 0 <
      minL (voiceClose spec.rootMidi spec.qual) := by
    rcases hBdisj with h | h
    · exact h
    · omega
  have hsrt : sortAsc ((slashAddPre (voiceClose spec.rootMidi spec.qual) 36
      (midiNear (pcOf s) (pbOpt.getD targetBass))).headD 0 ::
        voiceClose spec.rootMidi spec.qual) =
      (slashAddPre (voiceClose spec.rootMidi spec.qual) 36
        (midiNear (pcOf s) (pbOpt.getD targetBass))).headD 0 ::
        voiceClose spec.rootMidi spec.qual :=
    sortAsc_cons_head (sorted_le_of_strictAsc hvs)
      (fun y hy => le_of_lt (lt_of_lt_of_le hBlt (minL_le _ y hy)))
  rw [hsrt] at htf
  have hmap := forall2_pc_map htf
  rw [List.map_cons, hBpc, hbipc] at hmap
  obtain ⟨hepc, hes, hei, hel⟩ := enforce_pc_good
    (slashAddTail (voiceClose spec.rootMidi spec.qual) 36 84
      (midiNear (pcOf s) (pbOpt.getD targetBass))) 36 84 (by norm_num) (by norm_num)
    hts hti (by have := htl; omega) (by have := htl; omega) (by have := htl; omega)
  rw [hmap] at hepc
  rw [c4ok_iff]
  obtain ⟨o0, t, hoe, ho0, htm⟩ := map_pc_cons hepc
  refine ⟨by rw [hel, htl], ?_, ?_⟩
  · rw [hoe]
    simp only [List.headD_cons]
    exact ho0
  · rw [hoe]
    show pcListSorted t = _
    unfold pcListSorted
    rw [htm]
    exact hvpcs

/-- C4 (amended): the claim is false in voicelead mode (see `C4_cex`).  In
close mode at the default register `[36, 84]`, every chord whose requested
slash pitch class is not a chord tone is voiced as exactly 4 pitches: the
lowest pitch carries the slash pitch class and the remaining three pitch
classes are exactly the triad (`c4ok`). -/
theorem C4_slashAdded (syms : List ChordSym) (w0 : Frac)
    (hWF : ∀ o ∈ syms, WFSym o) :
    List.Forall₂ (fun o out => ∀ s, o.slashPc = some s →
        (triadPCs o.rootPc o.qual).contains (pcOf s) = false →
        c4ok (triadPCs o.rootPc o.qual) (pcOf s) out = true)
      syms (generate syms "close" 36 84 w0) := by
  rw [generate_eq]
  dsimp only
  rw [if_neg (by decide : ¬ ("close" : String) = "voicelead"),
      if_neg (by decide : ¬ ("close" : String) = "open")]
  have htb := targetBassVal_bound 36 84 (by norm_num) (by norm_num) (by norm_num)
  have hsp := stepSeq_pointwise 36 84
    (closeStep 36 84 (36 + ((Frac.mk 20 100).mulInt (84 - 36)).jsRound)
      (if w0.blt (Frac.ofInt 0) then Frac.ofInt 0
       else if (Frac.ofInt 3).blt w0 then Frac.ofInt 3 else w0))
    (fun spec out => ∀ s, spec.slashPc = some s →
      (triadPCs (pcOf spec.rootMidi) spec.qual).contains (pcOf s) = false →
      c4ok (triadPCs (pcOf spec.rootMidi) spec.qual) (pcOf s) out = true)
    (fun spec => 54 ≤ spec.rootMidi ∧ spec.rootMidi ≤ 66) (by norm_num) (by norm_num)
    (fun pbOpt spec hQ hpb =>
      ⟨fun s hsl hnm => closeStep_nonChordTone _ _ pbOpt spec s htb hpb hQ hsl hnm,
       (closeStep_spec 36 84 _ _ pbOpt spec (by norm_num) (by norm_num) (by norm_num)
          htb ⟨by omega, by omega⟩ hpb).2⟩)
    (syms.map (fun o =>
      ({ rootMidi := midiNear o.rootPc 60, qual := o.qual,
         slashPc := o.slashPc } : ChordSpec)))
    none (specsOf_rootMidi54 syms hWF) (fun pb hpb => by cases hpb)
  rw [List.forall₂_map_left_iff] at hsp
  refine forall2_imp_mem hsp ?_
  intro o ho out hP s hsl hnm
  obtain ⟨hr0, hr1⟩ := hWF o ho
  have hpc : pcOf (midiNear o.rootPc 60) = o.rootPc := midiNear_pc60 o.rootPc hr0 hr1
  have h2 := hP s hsl (by rw [hpc]; exact hnm)
  rw [hpc] at h2
  exact h2

theorem C4_slashAdded_witness :
    ((∀ o ∈ [symCslashD], WFSym o)) ∧
    List.Forall₂ (fun o out => ∀ s, o.slashPc = some s →
        (triadPCs o.rootPc o.qual).contains (pcOf s) = false →
        c4ok (triadPCs o.rootPc o.qual) (pcOf s) out = true)
      [symCslashD] (generate [symCslashD] "close" 36 84 wDemo) :=
  ⟨fun o ho => by
      rw [List.mem_singleton] at ho
      subst ho
      exact ⟨by decide, by decide⟩,
   C4_slashAdded [symCslashD] wDemo (fun o ho => by
      rw [List.mem_singleton] at ho
      subst ho
      exact ⟨by decide, by decide⟩)⟩

/-- C4 counterexample: in voicelead mode at the default bounds, voicing
`C/D` (slash pitch class 2, not a C-major chord tone) produces a 4-note
chord whose lowest pitch has pitch class 0, not 2: the added bass does not
end up below the original voicing in every mode. -/
theorem C4_cex :
    c4ok (triadPCs 0 "maj") 2
      ((generate [symCslashD] "voicelead" 36 84 wDemo).headD []) = false := by
  decide

theorem dropWhile_ws_append (xs Z : List Char) :
    (xs ++ '/' :: Z).dropWhile Char.isWhitespace =
      xs.dropWhile Char.isWhitespace ++ '/' :: Z := by
  rw [List.dropWhile_append]
  split
  · next hemp =>
    rw [List.isEmpty_iff.mp hemp]
    rw [List.dropWhile_cons, if_neg (by decide)]
    rfl
  · rfl

theorem splitOn_sepFree : ∀ (l : List Char), (∀ c ∈ l, ¬ c = '/') →
    l.splitOn '/' = [l] := by
  intro l
  induction l with
  | nil => intro _; rfl
  | cons c t ih =>
    intro h
    show (c :: t).splitOnP (· == '/') = [c :: t]
    rw [List.splitOnP_cons]
    rw [if_neg (by simp only [beq_iff_eq]; exact h c (List.mem_cons_self _ _))]
    have ht : t.splitOnP (· == '/') = [t] :=
      ih (fun c' hc' => h c' (List.mem_cons_of_mem _ hc'))
    rw [ht]
    rfl

theorem splitOn_append : ∀ (xs : List Char), (∀ c ∈ xs, ¬ c = '/') →
    ∀ (ys : List Char), (xs ++ '/' :: ys).splitOn '/' = xs :: ys.splitOn '/' := by
  intro xs
  induction xs with
  | nil =>
    intro _ ys
    show ('/' :: ys).splitOnP (· == '/') = [] :: ys.splitOnP (· == '/')
    rw [List.splitOnP_cons, if_pos (by simp)]
  | cons c t ih =>
    intro h ys
    show ((c :: t) ++ '/' :: ys).splitOnP (· == '/') = (c :: t) :: ys.splitOnP (· == '/')
    rw [List.cons_append, List.splitOnP_cons]
    rw [if_neg (by simp only [beq_iff_eq]; exact h c (List.mem_cons_self _ _))]
    have ht := ih (fun c' hc' => h c' (List.mem_cons_of_mem _ hc')) ys
    rw [show (t ++ '/' :: ys).splitOnP (· == '/') = t :: ys.splitOnP (· == '/') from ht]
    rfl

theorem trimRight_append (X Z : List Char) :
    ((X ++ '/' :: Z).reverse.dropWhile Char.isWhitespace).reverse =
      X ++ '/' :: (Z.reverse.dropWhile Char.isWhitespace).reverse := by
  rw [List.reverse_append, List.reverse_cons, List.append_assoc, List.singleton_append]
  rw [dropWhile_ws_append]
  rw [List.reverse_append, List.reverse_cons, List.reverse_reverse, List.append_assoc,
    List.singleton_append]

theorem trim_one (body sp : List Char)
    (hbd : body.dropWhile Char.isWhitespace = body) (hbne : body.isEmpty = false)
    (hspd : sp.reverse.dropWhile Char.isWhitespace = sp.reverse) :
    trimChars (body ++ '/' :: sp) = body ++ '/' :: sp := by
  show ((((body ++ '/' :: sp).dropWhile Char.isWhitespace).reverse.dropWhile
    Char.isWhitespace)).reverse = _
  rw [List.dropWhile_append, hbd, if_neg (by simp [hbne])]
  rw [trimRight_append, hspd, List.reverse_reverse]

theorem trim_two (body sp g : List Char)
    (hbd : body.dropWhile Char.isWhitespace = body) (hbne : body.isEmpty = false)
    (hspd : sp.reverse.dropWhile Char.isWhitespace = sp.reverse) :
    trimChars (body ++ ('/' :: (sp ++ ('/' :: g)))) =
      body ++ ('/' :: (sp ++ ('/' :: (g.reverse.dropWhile Char.isWhitespace).reverse))) := by
  show ((((body ++ ('/' :: (sp ++ ('/' :: g)))).dropWhile
    Char.isWhitespace).reverse.dropWhile Char.isWhitespace)).reverse = _
  rw [List.dropWhile_append, hbd, if_neg (by simp [hbne])]
  rw [trimRight_append, trimRight_append]

theorem parseShape_secondSlash (body sp g : List Char)
    (hbd : body.dropWhile Char.isWhitespace = body)
    (hbne : body.isEmpty = false)
    (hbsl : ∀ c ∈ body, ¬ c = '/')
    (hspd : sp.reverse.dropWhile Char.isWhitespace = sp.reverse)
    (hspne : sp.isEmpty = false)
    (hspsl : ∀ c ∈ sp, ¬ c = '/') :
    parseShape (parseChordToken (String.mk (body ++ ('/' :: (sp ++ ('/' :: g)))))) =
      parseShape (parseChordToken (String.mk (body ++ '/' :: sp))) := by
  obtain ⟨s0, st, hse⟩ : ∃ s0 st, sp = s0 :: st := by
    match sp, hspne with
    | s0 :: st, _ => exact ⟨s0, st, rfl⟩
  have hL := trim_two body sp g hbd hbne hspd
  have hR := trim_one body sp hbd hbne hspd
  unfold parseChordToken
  dsimp only
  rw [hL, hR]
  have hne1 : (body ++ ('/' :: (sp ++ ('/' ::
      (g.reverse.dropWhile Char.isWhitespace).reverse)))).isEmpty = false := by
    match body, hbne with
    | b0 :: bt, _ => rfl
  have hne2 : (body ++ '/' :: sp).isEmpty = false := by
    match body, hbne with
    | b0 :: bt, _ => rfl
  rw [if_neg (by simp [hne1]), if_neg (by simp [hne2])]
  rw [splitOn_append body hbsl, splitOn_append body hbsl, splitOn_append sp hspsl,
    splitOn_sepFree sp hspsl]
  simp only [List.headD_cons, List.getD_cons_succ, List.getD_cons_zero]
  subst hse
  dsimp only
  rcases hmb : matchChordBody (trimChars body) with _ | ⟨l, acc, suf⟩
  · rfl
  · dsimp only
    rcases hns : noteToSemitone (Char.toUpper l :: acc) with _ | rootPc
    · rfl
    · dsimp only
      rcases hms : matchSlash (trimChars (s0 :: st)) with _ | ⟨sl, sacc⟩
      · rfl
      · dsimp only
        rcases hn2 : noteToSemitone (Char.toUpper sl :: sacc) with _ | spc
        · rfl
        · rfl

theorem bodyTok_ok : ∀ (i : Fin 7) (lc : Bool) (a : Fin 3) (su : Fin 3),
    (letterChar i lc :: (accChars a ++ sufChars su)).dropWhile Char.isWhitespace =
      letterChar i lc :: (accChars a ++ sufChars su) ∧
    (letterChar i lc :: (accChars a ++ sufChars su)).isEmpty = false ∧
    (∀ c ∈ letterChar i lc :: (accChars a ++ sufChars su), ¬ c = '/') ∧
    (letterChar i lc :: (accChars a ++ sufChars su)).reverse.dropWhile Char.isWhitespace =
      (letterChar i lc :: (accChars a ++ sufChars su)).reverse := by
  decide

theorem spTok_ok : ∀ (j : Fin 7) (lc2 : Bool) (b : Fin 3),
    ((letterChar j lc2 :: accChars b).reverse.dropWhile Char.isWhitespace =
      (letterChar j lc2 :: accChars b).reverse) ∧
    (letterChar j lc2 :: accChars b).isEmpty = false ∧
    (∀ c ∈ letterChar j lc2 :: accChars b, ¬ c = '/') ∧
    trimChars (letterChar j lc2 :: accChars b) = letterChar j lc2 :: accChars b := by
  decide

/-- C10 (confirmed): a chord token that ends in `/` with an empty slash part
parses successfully with no slash pitch class (for every chord body of the
grammar), and any text after a second `/` in a token is silently ignored:
the parse outcome (success or failure, and the root, quality and slash
pitch class on success) is the same as without the extra text, for every
grammatical `body/slash` prefix and arbitrary trailing text. -/
theorem C10_slashLenient :
    (∀ (i : Fin 7) (lc : Bool) (a : Fin 3) (su : Fin 3),
      parseChordToken (String.mk ((renderTok ⟨i, lc, a, su, none⟩).data ++ ['/'])) =
        .ok (some ⟨String.mk ((renderTok ⟨i, lc, a, su, none⟩).data ++ ['/']),
          expPc i a, if su = 1 then "min" else "maj", none⟩)) ∧
    (∀ (g : List Char) (i : Fin 7) (lc : Bool) (a : Fin 3) (su : Fin 3)
       (j : Fin 7) (lc2 : Bool) (b : Fin 3),
      parseShape (parseChordToken (String.mk
          ((renderTok ⟨i, lc, a, su, some (j, lc2, b)⟩).data ++ '/' :: g))) =
        parseShape (parseChordToken (renderTok ⟨i, lc, a, su, some (j, lc2, b)⟩))) := by
  constructor
  · decide
  · intro g i lc a su j lc2 b
    obtain ⟨hbd, hbne, hbsl, hbrd⟩ := bodyTok_ok i lc a su
    obtain ⟨hspd, hspne, hspsl, hspt⟩ := spTok_ok j lc2 b
    have h1 : (renderTok ⟨i, lc, a, su, some (j, lc2, b)⟩).data ++ '/' :: g =
        (letterChar i lc :: (accChars a ++ sufChars su)) ++
          ('/' :: ((letterChar j lc2 :: accChars b) ++ ('/' :: g))) := by
      show (letterChar i lc :: accChars a ++ sufChars su ++
        ('/' :: letterChar j lc2 :: accChars b)) ++ '/' :: g = _
      simp [List.append_assoc]
    have h2 : renderTok ⟨i, lc, a, su, some (j, lc2, b)⟩ =
        String.mk ((letterChar i lc :: (accChars a ++ sufChars su)) ++
          '/' :: (letterChar j lc2 :: accChars b)) := by
      show String.mk (letterChar i lc :: accChars a ++ sufChars su ++
        ('/' :: letterChar j lc2 :: accChars b)) = _
      exact congrArg String.mk (by simp [List.append_assoc])
    rw [h1, h2]
    exact parseShape_secondSlash _ _ g hbd hbne hbsl hspd hspne hspsl

end Sketch
